import Mathlib

/-!
# Format-preserving INI reader/writer (`src/ini.hpp`)

Shallow embedding of `class IniFile`: the line classifier (`trim`, `parseLine`),
the loader (`open`), the accessors (`operator[]`, `remove`) and the
reconciler/writer (`save`).

Conventions of the embedding
* `std::string` and the byte buffer are `List Char`, one `Char` per byte.
* `std::map<std::string, V>` is an association list kept in ascending key order
  (the iteration order of the container); `std::set<std::string>` is an ascending list.
* The cursor `(src, *offset)` of `parseLine` is the unread suffix `src[offset..]`.
* A pointer or iterator into `m_sections` is the key it points at; `end()` is `none`.
* File access is outside the model: `open` receives the bytes `load_file` returned and
  `save` returns the bytes of `fileStream`.
* A reference to a `Section` is the name it is stored under; a sequence of calls of the
  public interface is a list of `Op`, carried out by `run`.
-/

namespace IniParser

/-- Bytes of a `std::string`. -/
abbrev Str := List Char

/-! ## Containers -/

/-- Comparison `operator<` of `std::string`: lexicographic on unsigned bytes. -/
def strLt : Str → Str → Bool
  | [], [] => false
  | [], _ :: _ => true
  | _ :: _, [] => false
  | a :: as, b :: bs =>
    if a.toNat < b.toNat then true
    else if b.toNat < a.toNat then false
    else strLt as bs

/-- Method `std::map::find`, as an optional mapped value (`none` is `end()`). -/
def mapFind {V : Type} (k : Str) : List (Str × V) → Option V
  | [] => none
  | (k', v) :: rest => if k' = k then some v else mapFind k rest

/-- Assignment `m[k] = v` on a `std::map`: overwrite, or insert at the ordered position. -/
def mapAssign {V : Type} (k : Str) (v : V) : List (Str × V) → List (Str × V)
  | [] => [(k, v)]
  | (k', v') :: rest =>
    if k' = k then (k', v) :: rest
    else if strLt k k' then (k, v) :: (k', v') :: rest
    else (k', v') :: mapAssign k v rest

/-- Expression `m[k]` on a `std::map` used for its side effect: a missing key is inserted
with the default value, a present key is left alone. -/
def mapSubscript {V : Type} (k : Str) (dflt : V) (m : List (Str × V)) : List (Str × V) :=
  match mapFind k m with
  | some _ => m
  | none => mapAssign k dflt m

/-- Method `std::map::insert` of a pair: no effect when the key is present. -/
def mapInsert {V : Type} (k : Str) (v : V) (m : List (Str × V)) : List (Str × V) :=
  match mapFind k m with
  | some _ => m
  | none => mapAssign k v m

/-- Method `std::map::erase` of the entry with key `k`. -/
def mapErase {V : Type} (k : Str) : List (Str × V) → List (Str × V)
  | [] => []
  | (k', v) :: rest => if k' = k then rest else (k', v) :: mapErase k rest

/-- Method `std::set::insert`. -/
def setInsert (k : Str) : List Str → List Str
  | [] => [k]
  | k' :: rest =>
    if k' = k then k' :: rest
    else if strLt k k' then k :: k' :: rest
    else k' :: setInsert k rest

/-- Method `std::set::erase` by key. -/
def setErase (k : Str) : List Str → List Str
  | [] => []
  | k' :: rest => if k' = k then rest else k' :: setErase k rest

/-! ## Data model -/

/-- Enumeration `IniFile::LINE_T`. -/
inductive LINE_T where
  | NL
  | INVALID
  | SEC
  | KEYVAL
  | COMMENT
  deriving DecidableEq, Repr

/-- Record `IniFile::Line`. -/
structure Line where
  type : LINE_T := LINE_T.NL
  content : Str := []
  value : Str := []
  nlAfter : Bool := false
  deriving DecidableEq, Repr

/-- Record `IniFile::Section`. -/
structure Section where
  m_keys : List (Str × Str) := []
  m_addedKeys : List Str := []
  deriving DecidableEq, Repr

/-- Class `IniFile` without `m_path` and `options`, which no operation below reads. -/
structure IniFile where
  m_sections : List (Str × Section) := []
  m_addedSections : List Str := []
  m_cachedLines : List Line := []
  deriving DecidableEq, Repr

/-! ## `IniFile::trim` -/

/-- Loop of `trim`: `out` is `s[0 .. i_act)`, so `i_act = out.length`. -/
def trimLoop : List Char → Str → Nat → Str × Nat
  | [], out, trimLen => (out, trimLen)
  | c :: cs, out, trimLen =>
    let isSpace : Bool := c == ' '
    let out1 := if out.length ≠ 0 ∨ !isSpace then out ++ [c] else out
    let trimLen1 := if !isSpace then out1.length else trimLen
    trimLoop cs out1 trimLen1

/-- Function `IniFile::trim`, returning the new contents of `s`. -/
def trim (s : Str) : Str :=
  if s = [] then s
  else
    let r := trimLoop s [] 0
    r.1.take r.2

/-! ## `IniFile::parseLine` -/

/-- Line scan of `parseLine`: the bytes up to the next line feed without carriage returns,
and the cursor left at that line feed or at the end of the buffer. -/
def scanLine : List Char → Str × List Char
  | [] => ([], [])
  | c :: cs =>
    if c = '\n' then ([], c :: cs)
    else
      let r := scanLine cs
      (if c = '\r' then r.1 else c :: r.1, r.2)

/-- Method `std::string::find` of one character: the index of its first occurrence. -/
def findChar (c : Char) : Str → Option Nat
  | [] => none
  | x :: xs => if x = c then some 0 else (findChar c xs).map (· + 1)

/-- Statements `size_t closingBrack = lineContent.find(']'); if(closingBrack != string::npos)
lineContent.resize(closingBrack);` of the section branch. -/
def resizeAtBracket (lineContent : Str) : Str :=
  match findChar ']' lineContent with
  | some closingBrack => lineContent.take closingBrack
  | none => lineContent

/-- Classification part of `parseLine`, applied to the trimmed line. -/
def classify (lineContent : Str) : Line :=
  match lineContent with
  | [] => { type := LINE_T.NL, content := [] }
  | c0 :: tl =>
    if c0 = ';' ∨ c0 = '#' then { type := LINE_T.COMMENT, content := lineContent }
    else if c0 = '[' then
      { type := LINE_T.SEC, content := trim (resizeAtBracket (' ' :: tl)) }
    else
      match findChar '=' lineContent with
      | some eqpos =>
        { type := LINE_T.KEYVAL,
          content := trim (lineContent.take eqpos),
          value := trim (lineContent.drop (eqpos + 1)) }
      | none => { type := LINE_T.INVALID, content := lineContent }

/-- Method `IniFile::parseLine`: the line record and the advanced cursor. -/
def parseLine (rest : List Char) : Line × List Char :=
  let r := scanLine rest
  (classify (trim r.1), r.2)

/-! ## `IniFile::open` -/

/-- Loop state of `open`: the two members it fills and `selectedSection`. -/
structure OpenState where
  m_sections : List (Str × Section)
  m_cachedLines : List Line
  selectedSection : Str
  deriving DecidableEq, Repr

/-- Statement `m_cachedLines.back().nlAfter = true`, guarded by `m_cachedLines.size()`. -/
def markLast : List Line → List Line
  | [] => []
  | [l] => [{ l with nlAfter := true }]
  | l :: l' :: ls => l :: markLast (l' :: ls)

/-- Statement `selectedSection->m_keys[key] = value`. -/
def assignKey (sel key value : Str) (secs : List (Str × Section)) : List (Str × Section) :=
  match mapFind sel secs with
  | some sec => mapAssign sel { sec with m_keys := mapAssign key value sec.m_keys } secs
  | none => secs

/-- Body of the loop of `open` after `parseLine` has produced `line`. -/
def openStep (st : OpenState) (line : Line) : OpenState :=
  if line.type = LINE_T.NL then
    { st with m_cachedLines := markLast st.m_cachedLines }
  else
    let lines := st.m_cachedLines ++ [line]
    match line.type with
    | LINE_T.SEC =>
      { m_sections := mapSubscript line.content {} st.m_sections,
        m_cachedLines := lines,
        selectedSection := line.content }
    | LINE_T.KEYVAL =>
      { m_sections := assignKey st.selectedSection line.content line.value st.m_sections,
        m_cachedLines := lines,
        selectedSection := st.selectedSection }
    | _ => { st with m_cachedLines := lines }

/-- Loop `for(size_t offset = 0; offset < src.size(); offset++)` of `open`. Every round
consumes at least one byte, so `fuel = src.size()` rounds always suffice. -/
def openLoop : Nat → List Char → OpenState → OpenState
  | 0, _, st => st
  | _ + 1, [], st => st
  | fuel + 1, c :: cs, st =>
    let r := parseLine (c :: cs)
    openLoop fuel (r.2.drop 1) (openStep st r.1)

/-- Method `IniFile::open`, given the bytes `load_file(path)` returned. -/
def IniFile.openFile (d : IniFile) (src : List Char) : IniFile :=
  let st0 : OpenState :=
    { m_sections := mapSubscript [] {} [],
      m_cachedLines := [],
      selectedSection := [] }
  let st := openLoop src.length src st0
  { m_sections := st.m_sections,
    m_addedSections := d.m_addedSections,
    m_cachedLines := st.m_cachedLines }

/-- A default-constructed `IniFile` on which `open` is called once. -/
def load (src : List Char) : IniFile :=
  IniFile.openFile {} src

/-! ## Accessors -/

/-- Method `IniFile::operator[]`, as the change it makes to the document. -/
def IniFile.subscript (d : IniFile) (section_ : Str) : IniFile :=
  match mapFind section_ d.m_sections with
  | some _ => d
  | none =>
    { d with
      m_addedSections := setInsert section_ d.m_addedSections,
      m_sections := mapSubscript section_ {} d.m_sections }

/-- Method `IniFile::remove`. -/
def IniFile.remove (d : IniFile) (section_ : Str) (removeKeys : Bool) : IniFile :=
  match mapFind section_ d.m_sections with
  | none => d
  | some found =>
    if section_ = [] then d
    else
      let secs1 :=
        if !removeKeys then
          let secs0 := mapSubscript [] {} d.m_sections
          match mapFind [] secs0 with
          | some root =>
            let root1 := found.m_keys.foldl
              (fun (r : Section) (key : Str × Str) =>
                { m_keys := mapInsert key.1 key.2 r.m_keys,
                  m_addedKeys := setInsert key.1 r.m_addedKeys })
              root
            mapAssign [] root1 secs0
          | none => secs0
        else d.m_sections
      { d with
        m_sections := mapErase section_ secs1,
        m_addedSections := setErase section_ d.m_addedSections }

/-- Method `Section::operator[]`, as the change it makes to the section. -/
def Section.subscript (s : Section) (key : Str) : Section :=
  match mapFind key s.m_keys with
  | some _ => s
  | none =>
    { m_addedKeys := setInsert key s.m_addedKeys,
      m_keys := mapSubscript key [] s.m_keys }

/-- Method `Section::remove`. -/
def Section.remove (s : Section) (key : Str) : Section :=
  match mapFind key s.m_keys with
  | none => s
  | some _ =>
    { m_keys := mapErase key s.m_keys,
      m_addedKeys := setErase key s.m_addedKeys }

/-- Statement `ini[section][key] = value`. -/
def IniFile.setKey (d : IniFile) (section_ key value : Str) : IniFile :=
  let d1 := d.subscript section_
  match mapFind section_ d1.m_sections with
  | some sec =>
    let sec1 := sec.subscript key
    { d1 with
      m_sections :=
        mapAssign section_ { sec1 with m_keys := mapAssign key value sec1.m_keys }
          d1.m_sections }
  | none => d1

/-- Statement `ini[section].remove(key)`. -/
def IniFile.removeKey (d : IniFile) (section_ key : Str) : IniFile :=
  let d1 := d.subscript section_
  match mapFind section_ d1.m_sections with
  | some sec => { d1 with m_sections := mapAssign section_ (sec.remove key) d1.m_sections }
  | none => d1

/-! ## `IniFile::save` -/

/-- Locals of the cached-line walk of `save`, with `m_sections`, which the expression
`currSec->second.m_keys[key]` may extend. -/
structure WalkState where
  m_sections : List (Str × Section)
  newLines : List Line
  saved : List (Str × List Str)
  currSec : Option Str
  isFirst : Bool
  deriving DecidableEq, Repr

/-- Value of `sec.m_keys[key]` (the empty string when the key is missing). -/
def keyValue (sec : Section) (key : Str) : Str :=
  (mapFind key sec.m_keys).getD []

/-- Loop `for(auto &key : currSec->second.m_addedKeys)` of the section branch, for the
section named `cs`; `saved[cs]` exists when it runs. -/
def addNewKeys (cs : Str) (keys : List Str) (st : WalkState) : WalkState :=
  keys.foldl
    (fun (w : WalkState) (key : Str) =>
      match mapFind cs w.m_sections with
      | some sec =>
        { w with
          saved := mapAssign cs (setInsert key ((mapFind cs w.saved).getD [])) w.saved,
          m_sections :=
            mapAssign cs { sec with m_keys := mapSubscript key [] sec.m_keys } w.m_sections,
          newLines := w.newLines ++
            [{ type := LINE_T.KEYVAL, content := key, value := keyValue sec key }] }
      | none => w)
    st

/-- Iterator `m_sections.find(name)`: the key it points at, or `none` for `end()`. -/
def findSection (name : Str) (secs : List (Str × Section)) : Option Str :=
  match mapFind name secs with
  | some _ => some name
  | none => none

/-- Block `if(currSec != m_sections.end() && isFirst)` of the section branch, which appends
the added keys of the section that is being left. -/
def flushAddedKeys (st : WalkState) : WalkState :=
  match st.currSec with
  | some cs =>
    if st.isFirst then
      let st0 := { st with saved := mapSubscript cs [] st.saved }
      match mapFind cs st0.m_sections with
      | some sec => addNewKeys cs sec.m_addedKeys st0
      | none => st0
    else st
  | none => st

/-- Body of the loop `for(auto &line : m_cachedLines)` of `save`. -/
def walkStep (st : WalkState) (line : Line) : WalkState :=
  if line.type ≠ LINE_T.SEC ∧ st.currSec = none then st
  else if line.type = LINE_T.SEC then
    let st1 := flushAddedKeys st
    match findSection line.content st1.m_sections with
    | none => { st1 with currSec := none }
    | some cs' =>
      { st1 with
        currSec := some cs',
        newLines := st1.newLines ++ [line],
        isFirst := (mapFind cs' st1.saved).isNone,
        saved := mapSubscript cs' [] st1.saved }
  else if line.type = LINE_T.KEYVAL then
    match st.currSec with
    | none => st
    | some cs =>
      match mapFind cs st.m_sections with
      | none => st
      | some sec =>
        match mapFind line.content sec.m_keys with
        | none => st
        | some foundValue =>
          let saved1 := mapSubscript cs [] st.saved
          let savedKeys := (mapFind cs saved1).getD []
          if line.content ∈ savedKeys then { st with saved := saved1 }
          else
            { st with
              saved := mapAssign cs (setInsert line.content savedKeys) saved1,
              newLines := st.newLines ++
                [{ type := LINE_T.KEYVAL, content := line.content, value := foundValue,
                   nlAfter := line.nlAfter }] }
  else if line.type = LINE_T.COMMENT ∨ line.type = LINE_T.INVALID then
    { st with newLines := st.newLines ++ [line] }
  else st

/-- State of `save` when the walk starts. -/
def walkInit (d : IniFile) : WalkState :=
  { m_sections := d.m_sections,
    newLines := [],
    saved := mapSubscript [] [] [],
    currSec := findSection [] d.m_sections,
    isFirst := true }

/-- The whole loop `for(auto &line : m_cachedLines)` of `save`. -/
def walk (d : IniFile) : WalkState :=
  d.m_cachedLines.foldl walkStep (walkInit d)

/-- Loop `for(auto &sec : m_addedSections)` of `save`; `none` is `throw 0`. -/
def addNewSections (secs : List (Str × Section)) (saved : List (Str × List Str)) :
    List Str → List Line → Option (List Line)
  | [], newLines => some newLines
  | sec :: more, newLines =>
    match mapFind sec secs with
    | none => none
    | some found =>
      if (mapFind sec saved).isSome then addNewSections secs saved more newLines
      else
        addNewSections secs saved more
          (newLines ++ [{ type := LINE_T.SEC, content := sec }] ++
            found.m_keys.map
              (fun kv => { type := LINE_T.KEYVAL, content := kv.1, value := kv.2 }))

/-- Statement `newLines.back().nlAfter = false`, guarded by `newLines.size()`. -/
def clearLast : List Line → List Line
  | [] => []
  | [l] => [{ l with nlAfter := false }]
  | l :: l' :: ls => l :: clearLast (l' :: ls)

/-- Text a line contributes to `fileStream` in the `switch` of the serialisation loop,
without the spacing in front of a header. -/
def lineText (line : Line) : Str :=
  match line.type with
  | LINE_T.SEC => ['['] ++ line.content ++ [']']
  | LINE_T.KEYVAL => line.content ++ [' ', '=', ' '] ++ line.value
  | LINE_T.COMMENT => line.content
  | LINE_T.INVALID => line.content
  | LINE_T.NL => []

/-- Loop `for(Line &line : newLines)` of the serialisation, from the state
`(firstLine, offsetNC)`; the result is what it appends to `fileStream`. -/
def emitLines : Bool → Int → List Line → Str
  | _, _, [] => []
  | firstLine, offsetNC, line :: more =>
    let spacing : Str :=
      if line.type = LINE_T.SEC ∧ 2 - offsetNC > 0 ∧ !firstLine then
        (if 2 - offsetNC = 1 then ['\n'] else ['\n', '\n'])
      else []
    let offsetNC1 : Int :=
      if line.type ≠ LINE_T.COMMENT then (if line.nlAfter then 1 else 0) else offsetNC
    spacing ++ lineText line ++ (if line.nlAfter then ['\n', '\n'] else ['\n'])
      ++ emitLines false offsetNC1 more

/-- Part `build file content` of `save`: the bytes of `fileStream`. -/
def serialize (newLines : List Line) : Str :=
  let lines := clearLast newLines
  (if lines.length ≠ 0 then ['\n'] else []) ++ emitLines true 0 lines

/-- Part `clear added` of `save` on the sections. -/
def clearAddedKeys (secs : List (Str × Section)) : List (Str × Section) :=
  secs.map (fun p => (p.1, { p.2 with m_addedKeys := [] }))

/-- The line sequence `newLines` of `save` when the serialisation starts; `none` is
`throw 0`. -/
def buildLines (d : IniFile) : Option (List Line) :=
  let w := walk d
  addNewSections w.m_sections w.saved d.m_addedSections w.newLines

/-- Method `IniFile::save()`: the document afterwards and the bytes written to the file,
or `none` when `throw 0` ends the call. -/
def IniFile.save (d : IniFile) : Option (IniFile × Str) :=
  match buildLines d with
  | none => none
  | some newLines =>
    some
      ({ m_sections := clearAddedKeys (walk d).m_sections,
         m_addedSections := [],
         m_cachedLines := d.m_cachedLines },
       serialize newLines)

/-! ## Notions used to state the properties -/

/-- Keys of a `std::map` in iteration order. -/
def keysOf {V : Type} (m : List (Str × V)) : List Str :=
  m.map Prod.fst

/-- Strictly ascending keys: the representation invariant of `std::map` and `std::set`. -/
def SortedKeys (ks : List Str) : Prop :=
  ks.Pairwise (fun a b => strLt a b = true)

/-- Value stored for key `k` of section `s` in a section map, if both exist. -/
def lookupKey (secs : List (Str × Section)) (s k : Str) : Option Str :=
  (mapFind s secs).bind (fun sec => mapFind k sec.m_keys)

/-- Physical lines of a buffer: the pieces between line feeds; a final line feed does not
open another line. -/
def rawLines : List Char → List (List Char)
  | [] => []
  | c :: cs =>
    if c = '\n' then [] :: rawLines cs
    else
      match rawLines cs with
      | [] => [[c]]
      | l :: ls => (c :: l) :: ls

/-- The classifier applied to every physical line of a buffer. -/
def parsedLines (src : List Char) : List Line :=
  (rawLines src).map (fun raw => classify (trim (raw.filter (fun c => c ≠ '\r'))))

/-- The section that is current after the lines `ls`, when `cur` was current before them:
the content of the last header. -/
def ownerAfter (cur : Str) : List Line → Str
  | [] => cur
  | l :: ls => ownerAfter (if l.type = LINE_T.SEC then l.content else cur) ls

/-- Value of the last `KEYVAL` line with key `k` met while `s` is the current section,
in a line sequence entered with current section `cur`. -/
def lastValue (s k : Str) : Str → List Line → Option Str
  | _, [] => none
  | cur, l :: ls =>
    match lastValue s k (if l.type = LINE_T.SEC then l.content else cur) ls with
    | some v => some v
    | none =>
      if l.type = LINE_T.KEYVAL ∧ cur = s ∧ l.content = k then some l.value else none

/-- Comment and Invalid lines. -/
def isRemark (l : Line) : Bool :=
  decide (l.type = LINE_T.COMMENT ∨ l.type = LINE_T.INVALID)

/-- The Comment and Invalid lines of a line sequence, in order. -/
def remarks (ls : List Line) : List Line :=
  ls.filter isRemark

/-- The Comment and Invalid lines of a line sequence that do not sit under a header whose
section is missing from `secs`; `live` tells whether the section current before the
sequence exists. -/
def liveRemarks (secs : List (Str × Section)) : Bool → List Line → List Line
  | _, [] => []
  | live, l :: ls =>
    if l.type = LINE_T.SEC then liveRemarks secs (mapFind l.content secs).isSome ls
    else if live = true ∧ isRemark l = true then l :: liveRemarks secs live ls
    else liveRemarks secs live ls

/-- No section of the map has a pending added key: the state of the key markers right after
`open`, and after `save`. -/
def NoAddedKeys (secs : List (Str × Section)) : Prop :=
  ∀ n sec, mapFind n secs = some sec → sec.m_addedKeys = []

/-- The line sequence the walk of `save` builds from cached lines when no section has a
pending added key, written as a function of the section map alone: `cur` is the section
cursor (`none` after the header of a missing section) and `seen` lists the pairs
(section, key) already emitted. -/
def reconcile (secs : List (Str × Section)) :
    Option Str → List (Str × Str) → List Line → List Line
  | _, _, [] => []
  | cur, seen, l :: ls =>
    if l.type = LINE_T.SEC then
      if (mapFind l.content secs).isSome then l :: reconcile secs (some l.content) seen ls
      else reconcile secs none seen ls
    else
      match cur with
      | none => reconcile secs none seen ls
      | some cs =>
        if l.type = LINE_T.KEYVAL then
          match lookupKey secs cs l.content with
          | some v =>
            if (cs, l.content) ∈ seen then reconcile secs (some cs) seen ls
            else
              { type := LINE_T.KEYVAL, content := l.content, value := v,
                nlAfter := l.nlAfter } ::
                reconcile secs (some cs) ((cs, l.content) :: seen) ls
          | none => reconcile secs (some cs) seen ls
        else if l.type = LINE_T.COMMENT ∨ l.type = LINE_T.INVALID then
          l :: reconcile secs (some cs) seen ls
        else reconcile secs (some cs) seen ls

/-- The pairs (section, key) in `seen` are exactly the keys recorded in `saved`. -/
def SeenRel (seen : List (Str × Str)) (saved : List (Str × List Str)) : Prop :=
  ∀ o k, (o, k) ∈ seen ↔ k ∈ (mapFind o saved).getD []

/-- Representation invariant of the section map: ascending section names and, in every
section, ascending keys. -/
def SortedSections (secs : List (Str × Section)) : Prop :=
  SortedKeys (keysOf secs) ∧ ∀ n sec, mapFind n secs = some sec → SortedKeys (keysOf sec.m_keys)

/-- Every header line of `lines` names a section of `secs`. -/
def HeadersLive (secs : List (Str × Section)) (lines : List Line) : Prop :=
  ∀ l ∈ lines, l.type = LINE_T.SEC → (mapFind l.content secs).isSome = true

/-- What holds of the loop state of `open` after every round. -/
def OpenInv (st : OpenState) : Prop :=
  NoAddedKeys st.m_sections ∧
    (mapFind st.selectedSection st.m_sections).isSome = true ∧
    (mapFind [] st.m_sections).isSome = true ∧
    HeadersLive st.m_sections st.m_cachedLines ∧
    SortedSections st.m_sections ∧
    (∀ l ∈ st.m_cachedLines, l.type ≠ LINE_T.NL)

/-- A line without its blank-line-follows flag. -/
def unflag (l : Line) : Line :=
  { l with nlAfter := false }

/-- A line with the value field of a `KEYVAL` line blanked: what is left is its kind, its
content and its blank-line-follows flag (and, for the other kinds, the whole line). -/
def eraseValue (l : Line) : Line :=
  if l.type = LINE_T.KEYVAL then { l with value := [] } else l

/-- Two section maps with the same section names and, in each section, the same keys. -/
def SameKeys (secs0 secs1 : List (Str × Section)) : Prop :=
  (∀ n, (mapFind n secs0).isSome = (mapFind n secs1).isSome) ∧
    ∀ n k, (lookupKey secs0 n k).isSome = (lookupKey secs1 n k).isSome

/-- A sequence of statements `ini[section][key] = value`, each given as
(section, key, value). -/
def applyEdits (d : IniFile) (edits : List (Str × Str × Str)) : IniFile :=
  edits.foldl (fun doc e => doc.setKey e.1 e.2.1 e.2.2) d

/-- Lines that `open` stores in the line cache: every kind but `NL`. -/
def isStored (l : Line) : Bool :=
  decide (l.type ≠ LINE_T.NL)

/-- No pending added key in the sections the walk can make current: the section under the
cursor `cur` and the sections named by the header lines of `ls`. -/
def NoPendingKeys (secs : List (Str × Section)) (cur : Option Str) (ls : List Line) : Prop :=
  (∀ cs sec, cur = some cs → mapFind cs secs = some sec → sec.m_addedKeys = []) ∧
    ∀ l ∈ ls, l.type = LINE_T.SEC →
      ∀ sec, mapFind l.content secs = some sec → sec.m_addedKeys = []

/-- Value of `offsetNC` after the serialisation loop has gone through `ls`. -/
def offsetAfter (offsetNC : Int) : List Line → Int
  | [] => offsetNC
  | l :: ls =>
    offsetAfter (if l.type ≠ LINE_T.COMMENT then (if l.nlAfter then 1 else 0) else offsetNC) ls

/-- The text `key = value` and a line feed for every pair, in order. -/
def keyValueText : List (Str × Str) → Str
  | [] => []
  | kv :: more => kv.1 ++ [' ', '=', ' '] ++ kv.2 ++ ['\n'] ++ keyValueText more

/-- The `KEYVAL` lines `save` synthesizes for the pairs of a new section. -/
def keyValueLines (kvs : List (Str × Str)) : List Line :=
  kvs.map (fun kv => { type := LINE_T.KEYVAL, content := kv.1, value := kv.2 })

/-- The statement `ini[section]` followed by `ini[section][key] = value` for every pair. -/
def createSection (d : IniFile) (section_ : Str) (kvs : List (Str × Str)) : IniFile :=
  kvs.foldl (fun doc kv => doc.setKey section_ kv.1 kv.2) (d.subscript section_)

/-- Loop `for(auto &key : foundSection->second.m_keys)` of `IniFile::remove`, as the root
section it produces. -/
def mergeKeys (root : Section) (kvs : List (Str × Str)) : Section :=
  kvs.foldl
    (fun (r : Section) (key : Str × Str) =>
      { m_keys := mapInsert key.1 key.2 r.m_keys,
        m_addedKeys := setInsert key.1 r.m_addedKeys })
    root

/-- The `KEYVAL` line the walk appends for an added key of the section it leaves. -/
def addedKeyLine (sec : Section) (key : Str) : Line :=
  { type := LINE_T.KEYVAL, content := key, value := keyValue sec key }

/-- A string without its trailing ASCII spaces. -/
def stripRight : Str → Str
  | [] => []
  | c :: cs =>
    match stripRight cs with
    | [] => if c = ' ' then [] else [c]
    | r :: rs => c :: r :: rs

/-- A string without its leading and trailing ASCII spaces. -/
def stripSpaces (s : Str) : Str :=
  stripRight (s.dropWhile (fun c => c = ' '))

/-- Neither the first nor the last character is an ASCII space. -/
def Trimmed (s : Str) : Prop :=
  stripSpaces s = s

/-- No line feed and no carriage return. -/
def NoBreak (s : Str) : Prop :=
  '\n' ∉ s ∧ '\r' ∉ s

/-- What holds of the key of a `KEYVAL` line the classifier produced. -/
def GoodKey (k : Str) : Prop :=
  Trimmed k ∧ NoBreak k ∧ '=' ∉ k ∧
    ∀ c rest, k = c :: rest → c ≠ ';' ∧ c ≠ '#' ∧ c ≠ '['

/-- What holds of the value of a `KEYVAL` line the classifier produced. -/
def GoodValue (v : Str) : Prop :=
  Trimmed v ∧ NoBreak v

/-- What holds of every line the classifier produced from one physical line, blank lines
excepted; the flag `nlAfter` is free. -/
def Canon (l : Line) : Prop :=
  match l.type with
  | LINE_T.NL => False
  | LINE_T.COMMENT =>
    Trimmed l.content ∧ NoBreak l.content ∧
      (∃ c rest, l.content = c :: rest ∧ (c = ';' ∨ c = '#')) ∧ l.value = []
  | LINE_T.INVALID =>
    Trimmed l.content ∧ NoBreak l.content ∧ '=' ∉ l.content ∧
      (∃ c rest, l.content = c :: rest ∧ c ≠ ';' ∧ c ≠ '#' ∧ c ≠ '[') ∧ l.value = []
  | LINE_T.SEC => Trimmed l.content ∧ NoBreak l.content ∧ ']' ∉ l.content ∧ l.value = []
  | LINE_T.KEYVAL => GoodKey l.content ∧ GoodValue l.value

/-- The classified physical lines of the text the serialisation loop writes for `ls` from
the state `(firstLine, offsetNC)`: a blank line for every line feed of the spacing in front
of a header and for the second line feed after a flagged line. -/
def emitParsed : Bool → Int → List Line → List Line
  | _, _, [] => []
  | firstLine, offsetNC, line :: more =>
    (if line.type = LINE_T.SEC ∧ 2 - offsetNC > 0 ∧ !firstLine then
        (if 2 - offsetNC = 1 then [({} : Line)] else [({} : Line), ({} : Line)])
      else []) ++ [unflag line] ++ (if line.nlAfter then [({} : Line)] else [])
      ++ emitParsed false
        (if line.type ≠ LINE_T.COMMENT then (if line.nlAfter then 1 else 0) else offsetNC)
        more

/-- Whether a line sequence starts with a line of kind `t`. -/
def headIs (t : LINE_T) : List Line → Bool
  | [] => false
  | l :: _ => decide (l.type = t)

/-- The line cache `open` builds from a sequence of classified physical lines: blank lines
are dropped, and a stored line is flagged when the next physical line is blank. -/
def collapse : List Line → List Line
  | [] => []
  | l :: rest =>
    if l.type = LINE_T.NL then collapse rest
    else
      { l with nlAfter := l.nlAfter || headIs LINE_T.NL rest } :: collapse rest

/-- The flags a line sequence has after it was written by `save` and read by `open`: a
line is flagged when it was flagged or a header line follows it. -/
def reflag : List Line → List Line
  | [] => []
  | l :: rest =>
    { l with nlAfter := l.nlAfter || headIs LINE_T.SEC rest } :: reflag rest

/-- The pairs (section, key) of the `KEYVAL` lines of a line sequence, where the section of a
line is the content of the nearest preceding header, or `cur` when there is none. -/
def ownedKeys : Str → List Line → List (Str × Str)
  | _, [] => []
  | cur, l :: ls =>
    if l.type = LINE_T.SEC then ownedKeys l.content ls
    else if l.type = LINE_T.KEYVAL then (cur, l.content) :: ownedKeys cur ls
    else ownedKeys cur ls

/-- Every Comment line that is directly followed by a header line has its
blank-line-follows flag set. -/
def CommentsSpaced : List Line → Prop
  | [] => True
  | l :: rest =>
    (l.type = LINE_T.COMMENT → headIs LINE_T.SEC rest = true → l.nlAfter = true) ∧
      CommentsSpaced rest

/-- The content `save` writes for the document `open` loads from `src`, when nothing is
changed in memory in between. -/
def resave (src : List Char) : Option Str :=
  ((load src).save).map Prod.snd

/-! ## `IniFile::Options` -/

/-- Enumeration `IniFile::Options::LINE_ENDINGS`. -/
inductive LINE_ENDINGS where
  | CRLF
  | LF
  | CR
  deriving DecidableEq, Repr

/-- Enumeration `IniFile::Options::COMMENT_SIGN`. -/
inductive COMMENT_SIGN where
  | BOTH
  | HASH
  | SCLN
  deriving DecidableEq, Repr

/-- Record `IniFile::Options` with its default member initialisers. -/
structure Options where
  save_ln_endings : LINE_ENDINGS := LINE_ENDINGS.CRLF
  read_comment_sign : COMMENT_SIGN := COMMENT_SIGN.BOTH
  deriving DecidableEq, Repr

/-- Method `IniFile::parseLine` called on an object whose member `options` has the given
value. The body of the method reads no member of the object, so the result is that of
`parseLine`. -/
def parseLineWith (_options : Options) (rest : List Char) : Line × List Char :=
  parseLine rest

/-- The comment markers the specification gives for each value of `read_comment_sign`:
`;` and `#` for `BOTH`, `#` for `HASH`, `;` for `SCLN`. -/
def recognised : COMMENT_SIGN → Char → Bool
  | COMMENT_SIGN.BOTH, c => decide (c = ';' ∨ c = '#')
  | COMMENT_SIGN.HASH, c => decide (c = '#')
  | COMMENT_SIGN.SCLN, c => decide (c = ';')

/-- A buffer without its carriage-return bytes. -/
def dropCR (b : List Char) : List Char :=
  b.filter (fun c => c ≠ '\r')

/-- The bytes after the last line feed of a buffer (all its bytes when it has no line feed)
are one or more carriage returns and nothing else. -/
def endsWithBareCR : List Char → Bool
  | [] => false
  | c :: cs =>
    if c = '\n' then endsWithBareCR cs
    else if '\n' ∈ cs then endsWithBareCR cs
    else (c :: cs).all (fun x => decide (x = '\r'))

/-- Every carriage return of a buffer is directly followed by a line feed. -/
def crBeforeLF : List Char → Bool
  | [] => true
  | c :: cs => (if c = '\r' then decide (cs.head? = some '\n') else true) && crBeforeLF cs

/-- The line cache as the specification describes it, for a sequence of classified physical
lines: the lines of a kind other than Blank, in order, each flagged iff at least one blank
line lies between it and the next non-blank line or the end. -/
def storedLines : List Line → List Line
  | [] => []
  | l :: rest =>
    if l.type = LINE_T.NL then storedLines rest
    else
      { l with nlAfter := decide (rest.takeWhile (fun x => decide (x.type = LINE_T.NL)) ≠ []) } ::
        storedLines rest

/-! ## Calls of the public interface -/

/-- The document as `save` leaves it when `throw 0` ends the call: the cached-line walk has
run, with the entries the expression `currSec->second.m_keys[key]` may have created, and
nothing has been cleared. -/
def IniFile.saveAborted (d : IniFile) : IniFile :=
  { d with m_sections := (walk d).m_sections }

/-- A call of a method of `Section` on the object stored under `section_`, reached through a
reference that `operator[]` or `get` returned; `f` is the change the method makes. Without
such an object there is nothing to call the method on. -/
def IniFile.onSection (d : IniFile) (section_ : Str) (f : Section → Section) : IniFile :=
  match mapFind section_ d.m_sections with
  | some sec => { d with m_sections := mapAssign section_ (f sec) d.m_sections }
  | none => d

/-- One call of the public interface: `open(path)` on a file with the bytes `src`,
`ini[section]`, `ini.get(section)`, `ini.remove(section, removeKeys)`, and on the section
stored under `section_`: `sec[key]`, `sec[key] = value`, `sec.get(key)`, `sec.remove(key)`;
and `save()`. -/
inductive Op where
  | openFile (src : List Char)
  | subscript (section_ : Str)
  | get (section_ : Str)
  | remove (section_ : Str) (removeKeys : Bool)
  | keySubscript (section_ key : Str)
  | keyAssign (section_ key value : Str)
  | keyGet (section_ key : Str)
  | keyRemove (section_ key : Str)
  | save
  deriving DecidableEq, Repr

/-- The document after one call of the public interface. The two `get` methods return a
reference or throw `std::out_of_range` and change nothing; `save` either completes or is
ended by `throw 0`. -/
def applyOp (d : IniFile) : Op → IniFile
  | Op.openFile src => d.openFile src
  | Op.subscript section_ => d.subscript section_
  | Op.get _ => d
  | Op.remove section_ removeKeys => d.remove section_ removeKeys
  | Op.keySubscript section_ key => d.onSection section_ (fun sec => sec.subscript key)
  | Op.keyAssign section_ key value =>
    d.onSection section_
      (fun sec =>
        { sec.subscript key with m_keys := mapAssign key value (sec.subscript key).m_keys })
  | Op.keyGet _ _ => d
  | Op.keyRemove section_ key => d.onSection section_ (fun sec => sec.remove key)
  | Op.save =>
    match d.save with
    | some r => r.1
    | none => d.saveAborted

/-- The document after a sequence of calls of the public interface. -/
def run (d : IniFile) (ops : List Op) : IniFile :=
  ops.foldl applyOp d

/-- What the methods of `Section` maintain of its markers: the set of added keys is in
ascending order and every added key is a key of the section. -/
def KeysStored (sec : Section) : Prop :=
  SortedKeys sec.m_addedKeys ∧ ∀ k ∈ sec.m_addedKeys, (mapFind k sec.m_keys).isSome = true

/-- What the public interface maintains of a section map: ascending section names, and in
every section the added keys are keys of the section. -/
def AddedKeysStored (secs : List (Str × Section)) : Prop :=
  SortedKeys (keysOf secs) ∧ ∀ n sec, mapFind n secs = some sec → KeysStored sec

/-! # Theorems -/

/-! ## Containers -/

theorem strLt_irrefl (a : Str) : strLt a a = false := by
  induction a with
  | nil => rfl
  | cons c cs ih => simp [strLt, ih]

theorem char_eq_of_toNat_eq {a b : Char} (h : a.toNat = b.toNat) : a = b := by
  apply Char.ext
  apply UInt32.ext
  exact h

theorem strLt_trans : ∀ (a b c : Str), strLt a b = true → strLt b c = true → strLt a c = true
  | [], [], _, h, _ => by simp [strLt] at h
  | [], _ :: _, [], _, h => by simp [strLt] at h
  | [], _ :: _, _ :: _, _, _ => by simp [strLt]
  | _ :: _, [], _, h, _ => by simp [strLt] at h
  | _ :: _, _ :: _, [], _, h => by simp [strLt] at h
  | x :: xs, y :: ys, z :: zs, h1, h2 => by
    simp only [strLt] at h1 h2 ⊢
    split_ifs at h1 h2 ⊢ <;>
      first | rfl | (exfalso; omega) | exact strLt_trans xs ys zs h1 h2

theorem strLt_total : ∀ (a b : Str), a = b ∨ strLt a b = true ∨ strLt b a = true
  | [], [] => Or.inl rfl
  | [], _ :: _ => by simp [strLt]
  | _ :: _, [] => by simp [strLt]
  | x :: xs, y :: ys => by
    simp only [strLt]
    by_cases h1 : x.toNat < y.toNat
    · simp [h1]
    · by_cases h2 : y.toNat < x.toNat
      · simp [h1, h2]
      · have hxy : x = y := char_eq_of_toNat_eq (by omega)
        subst hxy
        simp only [h1, if_false]
        rcases strLt_total xs ys with h | h | h
        · left; rw [h]
        · right; left; exact h
        · right; right; exact h

@[simp] theorem keysOf_nil {V : Type} : keysOf ([] : List (Str × V)) = [] := rfl

@[simp] theorem keysOf_cons {V : Type} (k : Str) (v : V) (m : List (Str × V)) :
    keysOf ((k, v) :: m) = k :: keysOf m := rfl

theorem mapFind_eq_none_iff {V : Type} (k : Str) (m : List (Str × V)) :
    mapFind k m = none ↔ k ∉ keysOf m := by
  induction m with
  | nil => simp [mapFind]
  | cons p rest ih =>
    obtain ⟨k', v⟩ := p
    by_cases h : k' = k
    · simp [mapFind, h]
    · have h' : ¬ k = k' := fun e => h e.symm
      simpa [mapFind, h, h'] using ih

theorem mapFind_isSome_iff {V : Type} (k : Str) (m : List (Str × V)) :
    (mapFind k m).isSome = true ↔ k ∈ keysOf m := by
  rw [← not_iff_not, ← mapFind_eq_none_iff]
  cases mapFind k m <;> simp

theorem mapFind_mapAssign_self {V : Type} (k : Str) (v : V) (m : List (Str × V)) :
    mapFind k (mapAssign k v m) = some v := by
  induction m with
  | nil => simp [mapAssign, mapFind]
  | cons p rest ih =>
    obtain ⟨k', v'⟩ := p
    by_cases h : k' = k
    · simp [mapAssign, mapFind, h]
    · by_cases h2 : strLt k k' = true
      · simp [mapAssign, mapFind, h, h2]
      · simp [mapAssign, mapFind, h, h2, ih]

theorem mapFind_mapAssign_ne {V : Type} (k k2 : Str) (v : V) (m : List (Str × V))
    (hne : k2 ≠ k) : mapFind k2 (mapAssign k v m) = mapFind k2 m := by
  induction m with
  | nil => simp [mapAssign, mapFind, Ne.symm hne]
  | cons p rest ih =>
    obtain ⟨k', v'⟩ := p
    by_cases h : k' = k
    · subst h
      simp [mapAssign, mapFind, Ne.symm hne]
    · by_cases h2 : strLt k k' = true
      · simp [mapAssign, mapFind, h, h2, Ne.symm hne]
      · by_cases h3 : k' = k2
        · subst h3
          simp [mapAssign, mapFind, h, h2]
        · simp [mapAssign, mapFind, h, h2, h3, ih]

theorem mapFind_mapAssign {V : Type} (k k2 : Str) (v : V) (m : List (Str × V)) :
    mapFind k2 (mapAssign k v m) = if k2 = k then some v else mapFind k2 m := by
  by_cases h : k2 = k
  · subst h
    simp [mapFind_mapAssign_self]
  · simp [h, mapFind_mapAssign_ne _ _ _ _ h]

theorem mapFind_mapSubscript {V : Type} (k k2 : Str) (dflt : V) (m : List (Str × V)) :
    mapFind k2 (mapSubscript k dflt m) =
      if k2 = k then some ((mapFind k m).getD dflt) else mapFind k2 m := by
  unfold mapSubscript
  cases hf : mapFind k m with
  | none =>
    simp [mapFind_mapAssign]
  | some x =>
    by_cases h : k2 = k
    · subst h
      simp [hf]
    · simp [h]

theorem mem_keysOf_mapAssign {V : Type} (k x : Str) (v : V) (m : List (Str × V)) :
    x ∈ keysOf (mapAssign k v m) ↔ x = k ∨ x ∈ keysOf m := by
  rw [← mapFind_isSome_iff, ← mapFind_isSome_iff, mapFind_mapAssign]
  by_cases h : x = k <;> simp [h]

theorem sortedKeys_mapAssign {V : Type} (k : Str) (v : V) (m : List (Str × V))
    (hs : SortedKeys (keysOf m)) : SortedKeys (keysOf (mapAssign k v m)) := by
  induction m with
  | nil => simp [mapAssign, SortedKeys]
  | cons p rest ih =>
    obtain ⟨k', v'⟩ := p
    have hs' : (∀ x ∈ keysOf rest, strLt k' x = true) ∧ SortedKeys (keysOf rest) := by
      simpa [SortedKeys] using hs
    by_cases h : k' = k
    · simpa [mapAssign, h, SortedKeys] using hs
    · by_cases h2 : strLt k k' = true
      · simp only [mapAssign, h, h2, if_true, if_false]
        have : SortedKeys (k :: keysOf ((k', v') :: rest)) := by
          unfold SortedKeys
          refine List.Pairwise.cons ?_ hs
          intro x hx
          have hx' : x = k' ∨ x ∈ keysOf rest := by simpa using hx
          rcases hx' with hx' | hx'
          · rw [hx']; exact h2
          · exact strLt_trans _ _ _ h2 (hs'.1 x hx')
        simpa using this
      · simp only [mapAssign, h, h2, if_false]
        have hlt : strLt k' k = true := by
          rcases strLt_total k k' with e | e | e
          · exact absurd e.symm h
          · exact absurd e h2
          · exact e
        have : SortedKeys (k' :: keysOf (mapAssign k v rest)) := by
          unfold SortedKeys
          refine List.Pairwise.cons ?_ (ih hs'.2)
          intro x hx
          rcases (mem_keysOf_mapAssign k x v rest).1 hx with hx' | hx'
          · rw [hx']; exact hlt
          · exact hs'.1 x hx'
        simpa using this

theorem sortedKeys_mapSubscript {V : Type} (k : Str) (dflt : V) (m : List (Str × V))
    (hs : SortedKeys (keysOf m)) : SortedKeys (keysOf (mapSubscript k dflt m)) := by
  unfold mapSubscript
  cases mapFind k m with
  | none => exact sortedKeys_mapAssign k dflt m hs
  | some _ => exact hs

theorem mapFind_mapErase_ne {V : Type} (k k2 : Str) (m : List (Str × V)) (hne : k2 ≠ k) :
    mapFind k2 (mapErase k m) = mapFind k2 m := by
  induction m with
  | nil => simp [mapErase]
  | cons p rest ih =>
    obtain ⟨k', v'⟩ := p
    by_cases h : k' = k
    · subst h
      simp [mapErase, mapFind, Ne.symm hne]
    · by_cases h3 : k' = k2
      · subst h3
        simp [mapErase, mapFind, h]
      · simp [mapErase, mapFind, h, h3, ih]

theorem mapFind_mapErase_self {V : Type} (k : Str) (m : List (Str × V))
    (hs : SortedKeys (keysOf m)) : mapFind k (mapErase k m) = none := by
  induction m with
  | nil => simp [mapErase, mapFind]
  | cons p rest ih =>
    obtain ⟨k', v'⟩ := p
    have hs' : (∀ x ∈ keysOf rest, strLt k' x = true) ∧ SortedKeys (keysOf rest) := by
      simpa [SortedKeys] using hs
    by_cases h : k' = k
    · subst h
      simp only [mapErase, if_true]
      rw [mapFind_eq_none_iff]
      intro hmem
      have := hs'.1 _ hmem
      rw [strLt_irrefl] at this
      exact Bool.noConfusion this
    · simp [mapErase, mapFind, h, ih hs'.2]

theorem mem_setInsert (k x : Str) (s : List Str) :
    x ∈ setInsert k s ↔ x = k ∨ x ∈ s := by
  induction s with
  | nil => simp [setInsert]
  | cons k' rest ih =>
    by_cases h : k' = k
    · subst h
      simp [setInsert]
    · by_cases h2 : strLt k k' = true
      · simp [setInsert, h, h2]
      · have h2' : strLt k k' = false := by simpa using h2
        simp only [setInsert, h, h2', if_false, List.mem_cons, ih, Bool.false_eq_true]
        tauto

/-! ## Loading -/

theorem scanLine_eq (rest : List Char) :
    scanLine rest =
      ((rest.takeWhile (fun c => c ≠ '\n')).filter (fun c => c ≠ '\r'),
        rest.dropWhile (fun c => c ≠ '\n')) := by
  induction rest with
  | nil => simp [scanLine]
  | cons c cs ih =>
    by_cases h : c = '\n'
    · subst h
      simp [scanLine]
    · by_cases h2 : c = '\r'
      · subst h2
        simp [scanLine, ih, List.takeWhile_cons, List.dropWhile_cons]
      · simp [scanLine, ih, h, h2, List.takeWhile_cons, List.dropWhile_cons]

theorem rawLines_cons (c : Char) (cs : List Char) :
    rawLines (c :: cs) =
      (c :: cs).takeWhile (fun c => c ≠ '\n') ::
        rawLines (((c :: cs).dropWhile (fun c => c ≠ '\n')).drop 1) := by
  induction cs generalizing c with
  | nil =>
    by_cases h : c = '\n'
    · subst h
      simp [rawLines]
    · simp [rawLines, h, List.takeWhile_cons, List.dropWhile_cons]
  | cons d ds ih =>
    by_cases h : c = '\n'
    · subst h
      simp [rawLines]
    · rw [rawLines]
      simp only [h, if_false]
      rw [ih d]
      simp [h, List.takeWhile_cons, List.dropWhile_cons]

theorem parsedLines_cons (c : Char) (cs : List Char) :
    parsedLines (c :: cs) =
      (parseLine (c :: cs)).1 :: parsedLines ((parseLine (c :: cs)).2.drop 1) := by
  unfold parsedLines parseLine
  rw [rawLines_cons, scanLine_eq]
  simp

theorem openLoop_eq_foldl (fuel : Nat) (rest : List Char) (st : OpenState)
    (h : rest.length ≤ fuel) :
    openLoop fuel rest st = (parsedLines rest).foldl openStep st := by
  induction fuel generalizing rest st with
  | zero =>
    have : rest = [] := by simpa using h
    subst this
    simp [openLoop, parsedLines, rawLines]
  | succ n ih =>
    cases rest with
    | nil => simp [openLoop, parsedLines, rawLines]
    | cons c cs =>
      rw [openLoop, parsedLines_cons, List.foldl_cons]
      apply ih
      have h1 : (parseLine (c :: cs)).2 = (c :: cs).dropWhile (fun c => c ≠ '\n') := by
        simp [parseLine, scanLine_eq]
      rw [h1]
      have h2 : ((c :: cs).dropWhile (fun c => c ≠ '\n')).length ≤ (c :: cs).length :=
        (List.dropWhile_sublist _).length_le
      simp only [List.length_drop, List.length_cons] at h h2 ⊢
      omega

theorem lookupKey_assignKey (sel key value s k : Str) (secs : List (Str × Section))
    (hsel : (mapFind sel secs).isSome = true) :
    lookupKey (assignKey sel key value secs) s k =
      if sel = s ∧ key = k then some value else lookupKey secs s k := by
  unfold assignKey lookupKey
  cases hf : mapFind sel secs with
  | none => simp [hf] at hsel
  | some sec =>
    simp only [mapFind_mapAssign]
    by_cases h1 : s = sel
    · subst h1
      simp only [if_true, Option.some_bind, mapFind_mapAssign, hf, true_and]
      by_cases h2 : k = key
      · subst h2; simp
      · simp [h2, Ne.symm h2]
    · simp [h1, Ne.symm h1]

theorem lookupKey_mapSubscript (name s k : Str) (secs : List (Str × Section)) :
    lookupKey (mapSubscript name {} secs) s k = lookupKey secs s k := by
  unfold lookupKey
  rw [mapFind_mapSubscript]
  by_cases h : s = name
  · subst h
    cases hf : mapFind s secs <;> simp [hf, mapFind]
  · simp [h]

theorem lookupKey_openStep (st : OpenState) (l : Line) (s k : Str)
    (hsel : (mapFind st.selectedSection st.m_sections).isSome = true) :
    lookupKey (openStep st l).m_sections s k =
      if l.type = LINE_T.KEYVAL ∧ st.selectedSection = s ∧ l.content = k then some l.value
      else lookupKey st.m_sections s k := by
  unfold openStep
  cases ht : l.type <;> simp [lookupKey_mapSubscript, lookupKey_assignKey, hsel]

theorem selectedSection_openStep (st : OpenState) (l : Line) :
    (openStep st l).selectedSection =
      if l.type = LINE_T.SEC then l.content else st.selectedSection := by
  unfold openStep
  cases ht : l.type <;> simp

theorem mapFind_isSome_assignKey (sel key value n : Str) (secs : List (Str × Section))
    (h : (mapFind n secs).isSome = true) :
    (mapFind n (assignKey sel key value secs)).isSome = true := by
  unfold assignKey
  cases hf : mapFind sel secs with
  | none => exact h
  | some sec =>
    rw [mapFind_mapAssign]
    by_cases h1 : n = sel <;> simp [h1, h]

theorem selected_isSome_openStep (st : OpenState) (l : Line)
    (hsel : (mapFind st.selectedSection st.m_sections).isSome = true) :
    (mapFind (openStep st l).selectedSection (openStep st l).m_sections).isSome = true := by
  unfold openStep
  cases ht : l.type <;> simp [hsel, mapFind_mapSubscript, mapFind_isSome_assignKey]

theorem lookupKey_foldl_openStep (s k : Str) (lines : List Line) (st : OpenState)
    (hsel : (mapFind st.selectedSection st.m_sections).isSome = true) :
    lookupKey (lines.foldl openStep st).m_sections s k =
      ((lastValue s k st.selectedSection lines).or (lookupKey st.m_sections s k)) := by
  induction lines generalizing st with
  | nil => simp [lastValue]
  | cons l ls ih =>
    rw [List.foldl_cons, ih _ (selected_isSome_openStep st l hsel), lastValue,
      selectedSection_openStep, lookupKey_openStep st l s k hsel]
    cases lastValue s k (if l.type = LINE_T.SEC then l.content else st.selectedSection) ls with
    | some v => simp
    | none =>
      by_cases hc : l.type = LINE_T.KEYVAL ∧ st.selectedSection = s ∧ l.content = k
      · simp [hc]
      · simp [hc]

theorem load_sections (src : List Char) :
    (load src).m_sections =
      ((parsedLines src).foldl openStep
        { m_sections := mapSubscript [] {} [], m_cachedLines := [], selectedSection := [] }).m_sections := by
  simp [load, IniFile.openFile, openLoop_eq_foldl]

theorem load_cachedLines (src : List Char) :
    (load src).m_cachedLines =
      ((parsedLines src).foldl openStep
        { m_sections := mapSubscript [] {} [], m_cachedLines := [], selectedSection := [] }).m_cachedLines := by
  simp [load, IniFile.openFile, openLoop_eq_foldl]

/-- The loaded model as a function of the classified physical lines of the input. -/
theorem lookupKey_load (src : List Char) (s k : Str) :
    lookupKey (load src).m_sections s k = lastValue s k [] (parsedLines src) := by
  rw [load_sections, lookupKey_foldl_openStep]
  · cases lastValue s k [] (parsedLines src) <;>
      simp [lookupKey, mapSubscript, mapFind, mapAssign]
  · simp [mapSubscript, mapFind, mapAssign]

/-! ## The cached-line walk of `save` -/

theorem keyValue_mapSubscript (sec : Section) (key key2 : Str) :
    keyValue { sec with m_keys := mapSubscript key [] sec.m_keys } key2 = keyValue sec key2 := by
  unfold keyValue
  simp only [mapFind_mapSubscript]
  by_cases h : key2 = key
  · subst h; simp
  · simp [h]

theorem addNewKeys_cons (cs key : Str) (keys : List Str) (st : WalkState) (sec : Section)
    (h : mapFind cs st.m_sections = some sec) :
    addNewKeys cs (key :: keys) st =
      addNewKeys cs keys
        { st with
          saved := mapAssign cs (setInsert key ((mapFind cs st.saved).getD [])) st.saved,
          m_sections :=
            mapAssign cs { sec with m_keys := mapSubscript key [] sec.m_keys } st.m_sections,
          newLines := st.newLines ++
            [{ type := LINE_T.KEYVAL, content := key, value := keyValue sec key }] } := by
  simp [addNewKeys, h]

theorem addNewKeys_nil (cs : Str) (st : WalkState) : addNewKeys cs [] st = st := rfl

theorem addNewKeys_currSec (cs : Str) (keys : List Str) (st : WalkState) (sec : Section)
    (h : mapFind cs st.m_sections = some sec) :
    (addNewKeys cs keys st).currSec = st.currSec ∧
      (addNewKeys cs keys st).isFirst = st.isFirst := by
  induction keys generalizing st sec with
  | nil => simp [addNewKeys_nil]
  | cons key keys ih =>
    rw [addNewKeys_cons cs key keys st sec h]
    exact ih _ { sec with m_keys := mapSubscript key [] sec.m_keys }
      (by simp [mapFind_mapAssign])

theorem addNewKeys_newLines (cs : Str) (keys : List Str) (st : WalkState) (sec : Section)
    (h : mapFind cs st.m_sections = some sec) :
    (addNewKeys cs keys st).newLines = st.newLines ++ keys.map (addedKeyLine sec) := by
  induction keys generalizing st sec with
  | nil => simp [addNewKeys_nil]
  | cons key keys ih =>
    rw [addNewKeys_cons cs key keys st sec h,
      ih _ { sec with m_keys := mapSubscript key [] sec.m_keys } (by simp [mapFind_mapAssign])]
    simp [addedKeyLine, keyValue_mapSubscript]

theorem addNewKeys_dom (cs : Str) (keys : List Str) (st : WalkState) (sec : Section)
    (h : mapFind cs st.m_sections = some sec) (n : Str) :
    (mapFind n (addNewKeys cs keys st).m_sections).isSome = (mapFind n st.m_sections).isSome := by
  induction keys generalizing st sec with
  | nil => simp [addNewKeys_nil]
  | cons key keys ih =>
    rw [addNewKeys_cons cs key keys st sec h,
      ih _ { sec with m_keys := mapSubscript key [] sec.m_keys } (by simp [mapFind_mapAssign])]
    simp only [mapFind_mapAssign]
    by_cases hn : n = cs
    · subst hn; simp [h]
    · simp [hn]

theorem flushAddedKeys_none (st : WalkState) (hc : st.currSec = none) :
    flushAddedKeys st = st := by
  simp [flushAddedKeys, hc]

theorem flushAddedKeys_notFirst (st : WalkState) (hf : st.isFirst = false) :
    flushAddedKeys st = st := by
  unfold flushAddedKeys
  cases st.currSec <;> simp [hf]

theorem flushAddedKeys_some (st : WalkState) (cs : Str) (sec : Section)
    (hc : st.currSec = some cs) (hf : st.isFirst = true)
    (hs : mapFind cs st.m_sections = some sec) :
    flushAddedKeys st =
      addNewKeys cs sec.m_addedKeys { st with saved := mapSubscript cs [] st.saved } := by
  simp [flushAddedKeys, hc, hf, hs]

theorem flushAddedKeys_missing (st : WalkState) (cs : Str)
    (hc : st.currSec = some cs) (hf : st.isFirst = true)
    (hs : mapFind cs st.m_sections = none) :
    flushAddedKeys st = { st with saved := mapSubscript cs [] st.saved } := by
  simp [flushAddedKeys, hc, hf, hs]

/-- The four ways the block can end, as a case distinction for proofs. -/
theorem flushAddedKeys_cases (st : WalkState) :
    flushAddedKeys st = st ∨
      (∃ cs, st.currSec = some cs ∧ st.isFirst = true ∧ mapFind cs st.m_sections = none ∧
        flushAddedKeys st = { st with saved := mapSubscript cs [] st.saved }) ∨
      (∃ cs sec, st.currSec = some cs ∧ st.isFirst = true ∧
        mapFind cs st.m_sections = some sec ∧
        flushAddedKeys st =
          addNewKeys cs sec.m_addedKeys { st with saved := mapSubscript cs [] st.saved }) := by
  rcases Option.eq_none_or_eq_some st.currSec with hc | ⟨cs, hc⟩
  · exact Or.inl (flushAddedKeys_none st hc)
  · rcases Bool.eq_false_or_eq_true st.isFirst with hf | hf
    · rcases Option.eq_none_or_eq_some (mapFind cs st.m_sections) with hs | ⟨sec, hs⟩
      · exact Or.inr (Or.inl ⟨cs, hc, hf, hs, flushAddedKeys_missing st cs hc hf hs⟩)
      · exact Or.inr (Or.inr ⟨cs, sec, hc, hf, hs, flushAddedKeys_some st cs sec hc hf hs⟩)
    · exact Or.inl (flushAddedKeys_notFirst st hf)

theorem flushAddedKeys_currSec (st : WalkState) :
    (flushAddedKeys st).currSec = st.currSec ∧ (flushAddedKeys st).isFirst = st.isFirst := by
  rcases flushAddedKeys_cases st with h | ⟨cs, _, _, _, h⟩ | ⟨cs, sec, _, _, hs, h⟩
  · rw [h]; exact ⟨rfl, rfl⟩
  · rw [h]; exact ⟨rfl, rfl⟩
  · rw [h]
    exact addNewKeys_currSec cs sec.m_addedKeys
      { st with saved := mapSubscript cs [] st.saved } sec hs

theorem flushAddedKeys_dom (st : WalkState) (n : Str) :
    (mapFind n (flushAddedKeys st).m_sections).isSome = (mapFind n st.m_sections).isSome := by
  rcases flushAddedKeys_cases st with h | ⟨cs, _, _, _, h⟩ | ⟨cs, sec, _, _, hs, h⟩
  · rw [h]
  · rw [h]
  · rw [h]
    exact addNewKeys_dom cs sec.m_addedKeys
      { st with saved := mapSubscript cs [] st.saved } sec hs n

theorem flushAddedKeys_newLines (st : WalkState) :
    ∃ extra, (flushAddedKeys st).newLines = st.newLines ++ extra ∧
      ∀ l ∈ extra, l.type = LINE_T.KEYVAL := by
  rcases flushAddedKeys_cases st with h | ⟨cs, _, _, _, h⟩ | ⟨cs, sec, _, _, hs, h⟩
  · exact ⟨[], by rw [h]; simp, by simp⟩
  · exact ⟨[], by rw [h]; simp, by simp⟩
  · have hn := addNewKeys_newLines cs sec.m_addedKeys
      { st with saved := mapSubscript cs [] st.saved } sec hs
    rw [← h] at hn
    refine ⟨_, hn, ?_⟩
    intro l hl
    simp only [List.mem_map] at hl
    obtain ⟨key, _, rfl⟩ := hl
    rfl

theorem findSection_eq (name : Str) (secs : List (Str × Section)) :
    findSection name secs = if (mapFind name secs).isSome then some name else none := by
  unfold findSection
  cases mapFind name secs <;> simp

theorem walkStep_skip (st : WalkState) (l : Line) (ht : l.type ≠ LINE_T.SEC)
    (hc : st.currSec = none) : walkStep st l = st := by
  simp [walkStep, ht, hc]

theorem walkStep_sec_missing (st : WalkState) (l : Line) (ht : l.type = LINE_T.SEC)
    (hm : mapFind l.content st.m_sections = none) :
    walkStep st l = { flushAddedKeys st with currSec := none } := by
  have hd := flushAddedKeys_dom st l.content
  rw [hm] at hd
  have hm' : mapFind l.content (flushAddedKeys st).m_sections = none := by
    cases h : mapFind l.content (flushAddedKeys st).m_sections with
    | none => rfl
    | some x => simp [h] at hd
  simp [walkStep, ht, findSection, hm']

theorem walkStep_sec_found (st : WalkState) (l : Line) (ht : l.type = LINE_T.SEC)
    (hm : (mapFind l.content st.m_sections).isSome = true) :
    walkStep st l =
      { flushAddedKeys st with
        currSec := some l.content,
        newLines := (flushAddedKeys st).newLines ++ [l],
        isFirst := (mapFind l.content (flushAddedKeys st).saved).isNone,
        saved := mapSubscript l.content [] (flushAddedKeys st).saved } := by
  have hd := flushAddedKeys_dom st l.content
  rw [hm] at hd
  cases h : mapFind l.content (flushAddedKeys st).m_sections with
  | none => simp [h] at hd
  | some x => simp [walkStep, ht, findSection, h]

theorem walkStep_nl (st : WalkState) (l : Line) (ht : l.type = LINE_T.NL) :
    walkStep st l = st := by
  simp [walkStep, ht]

theorem walkStep_remark (st : WalkState) (l : Line) (cs : Str)
    (ht : l.type = LINE_T.COMMENT ∨ l.type = LINE_T.INVALID) (hc : st.currSec = some cs) :
    walkStep st l = { st with newLines := st.newLines ++ [l] } := by
  rcases ht with ht | ht <;> simp [walkStep, ht, hc]

theorem walkStep_keyval_absent (st : WalkState) (l : Line) (cs : Str) (sec : Section)
    (ht : l.type = LINE_T.KEYVAL) (hc : st.currSec = some cs)
    (hs : mapFind cs st.m_sections = some sec) (hk : mapFind l.content sec.m_keys = none) :
    walkStep st l = st := by
  simp [walkStep, ht, hc, hs, hk]

theorem walkStep_keyval_nosec (st : WalkState) (l : Line) (cs : Str)
    (ht : l.type = LINE_T.KEYVAL) (hc : st.currSec = some cs)
    (hs : mapFind cs st.m_sections = none) :
    walkStep st l = st := by
  simp [walkStep, ht, hc, hs]

theorem walkStep_keyval_saved (st : WalkState) (l : Line) (cs : Str) (sec : Section) (v : Str)
    (ht : l.type = LINE_T.KEYVAL) (hc : st.currSec = some cs)
    (hs : mapFind cs st.m_sections = some sec) (hk : mapFind l.content sec.m_keys = some v)
    (hsv : l.content ∈ (mapFind cs (mapSubscript cs [] st.saved)).getD []) :
    walkStep st l = { st with saved := mapSubscript cs [] st.saved } := by
  simp [walkStep, ht, hc, hs, hk, hsv]

theorem walkStep_keyval_fresh (st : WalkState) (l : Line) (cs : Str) (sec : Section) (v : Str)
    (ht : l.type = LINE_T.KEYVAL) (hc : st.currSec = some cs)
    (hs : mapFind cs st.m_sections = some sec) (hk : mapFind l.content sec.m_keys = some v)
    (hsv : l.content ∉ (mapFind cs (mapSubscript cs [] st.saved)).getD []) :
    walkStep st l =
      { st with
        saved := mapAssign cs
          (setInsert l.content ((mapFind cs (mapSubscript cs [] st.saved)).getD []))
          (mapSubscript cs [] st.saved),
        newLines := st.newLines ++
          [{ type := LINE_T.KEYVAL, content := l.content, value := v,
             nlAfter := l.nlAfter }] } := by
  simp [walkStep, ht, hc, hs, hk, hsv]

/-- Every way one round of the walk can go, as a case distinction for proofs. -/
theorem walkStep_cases (st : WalkState) (l : Line) :
    (l.type ≠ LINE_T.SEC ∧
        (st.currSec = none ∨ l.type = LINE_T.NL ∨ l.type = LINE_T.KEYVAL) ∧
        walkStep st l = st) ∨
      (∃ cs, l.type = LINE_T.KEYVAL ∧ st.currSec = some cs ∧
        walkStep st l = { st with saved := mapSubscript cs [] st.saved }) ∨
      (l.type = LINE_T.SEC ∧ mapFind l.content st.m_sections = none ∧
        walkStep st l = { flushAddedKeys st with currSec := none }) ∨
      (l.type = LINE_T.SEC ∧ (mapFind l.content st.m_sections).isSome = true ∧
        walkStep st l =
          { flushAddedKeys st with
            currSec := some l.content,
            newLines := (flushAddedKeys st).newLines ++ [l],
            isFirst := (mapFind l.content (flushAddedKeys st).saved).isNone,
            saved := mapSubscript l.content [] (flushAddedKeys st).saved }) ∨
      (∃ cs sec v, l.type = LINE_T.KEYVAL ∧ st.currSec = some cs ∧
        mapFind cs st.m_sections = some sec ∧ mapFind l.content sec.m_keys = some v ∧
        l.content ∉ (mapFind cs (mapSubscript cs [] st.saved)).getD [] ∧
        walkStep st l =
          { st with
            saved := mapAssign cs
              (setInsert l.content ((mapFind cs (mapSubscript cs [] st.saved)).getD []))
              (mapSubscript cs [] st.saved),
            newLines := st.newLines ++
              [{ type := LINE_T.KEYVAL, content := l.content, value := v,
                 nlAfter := l.nlAfter }] }) ∨
      (∃ cs, (l.type = LINE_T.COMMENT ∨ l.type = LINE_T.INVALID) ∧ st.currSec = some cs ∧
        walkStep st l = { st with newLines := st.newLines ++ [l] }) := by
  by_cases hsec : l.type = LINE_T.SEC
  · rcases Option.eq_none_or_eq_some (mapFind l.content st.m_sections) with hm | ⟨x, hm⟩
    · exact Or.inr (Or.inr (Or.inl ⟨hsec, hm, walkStep_sec_missing st l hsec hm⟩))
    · have hm' : (mapFind l.content st.m_sections).isSome = true := by simp [hm]
      exact Or.inr (Or.inr (Or.inr (Or.inl ⟨hsec, hm', walkStep_sec_found st l hsec hm'⟩)))
  · rcases Option.eq_none_or_eq_some st.currSec with hc | ⟨cs, hc⟩
    · exact Or.inl ⟨hsec, Or.inl hc, walkStep_skip st l hsec hc⟩
    · by_cases hnl : l.type = LINE_T.NL
      · exact Or.inl ⟨hsec, Or.inr (Or.inl hnl), walkStep_nl st l hnl⟩
      · by_cases hkv : l.type = LINE_T.KEYVAL
        · rcases Option.eq_none_or_eq_some (mapFind cs st.m_sections) with hs | ⟨sec, hs⟩
          · exact Or.inl ⟨hsec, Or.inr (Or.inr hkv), walkStep_keyval_nosec st l cs hkv hc hs⟩
          · rcases Option.eq_none_or_eq_some (mapFind l.content sec.m_keys) with hk | ⟨v, hk⟩
            · exact Or.inl ⟨hsec, Or.inr (Or.inr hkv),
                walkStep_keyval_absent st l cs sec hkv hc hs hk⟩
            · by_cases hsv : l.content ∈ (mapFind cs (mapSubscript cs [] st.saved)).getD []
              · exact Or.inr (Or.inl ⟨cs, hkv, hc,
                  walkStep_keyval_saved st l cs sec v hkv hc hs hk hsv⟩)
              · exact Or.inr (Or.inr (Or.inr (Or.inr (Or.inl ⟨cs, sec, v, hkv, hc, hs, hk, hsv,
                  walkStep_keyval_fresh st l cs sec v hkv hc hs hk hsv⟩))))
        · have hr : l.type = LINE_T.COMMENT ∨ l.type = LINE_T.INVALID := by
            cases ht : l.type <;> simp_all
          exact Or.inr (Or.inr (Or.inr (Or.inr (Or.inr ⟨cs, hr, hc,
            walkStep_remark st l cs hr hc⟩))))

theorem walkStep_dom (st : WalkState) (l : Line) (n : Str) :
    (mapFind n (walkStep st l).m_sections).isSome = (mapFind n st.m_sections).isSome := by
  rcases walkStep_cases st l with ⟨_, _, h⟩ | ⟨_, _, _, h⟩ | ⟨_, _, h⟩ | ⟨_, _, h⟩ |
    ⟨_, _, _, _, _, _, _, _, h⟩ | ⟨_, _, _, h⟩ <;> rw [h] <;>
    first | rfl | exact flushAddedKeys_dom st n

theorem walkStep_currSec_isSome (st : WalkState) (l : Line) :
    (walkStep st l).currSec.isSome =
      if l.type = LINE_T.SEC then (mapFind l.content st.m_sections).isSome
      else st.currSec.isSome := by
  rcases walkStep_cases st l with ⟨ht, _, h⟩ | ⟨_, ht, _, h⟩ | ⟨ht, hm, h⟩ | ⟨ht, hm, h⟩ |
    ⟨_, _, _, ht, _, _, _, _, h⟩ | ⟨_, ht, _, h⟩ <;> rw [h]
  · simp [ht]
  · simp [ht]
  · simp [ht, hm]
  · simp [ht, hm]
  · simp [ht]
  · rcases ht with ht | ht <;> simp [ht]

theorem remarks_append (a b : List Line) : remarks (a ++ b) = remarks a ++ remarks b := by
  simp [remarks]

theorem remarks_of_keyval (extra : List Line) (h : ∀ l ∈ extra, l.type = LINE_T.KEYVAL) :
    remarks extra = [] := by
  simp only [remarks, List.filter_eq_nil_iff]
  intro l hl
  simp [isRemark, h l hl]

theorem walkStep_remarks (st : WalkState) (l : Line) :
    remarks (walkStep st l).newLines =
      remarks st.newLines ++
        (if l.type ≠ LINE_T.SEC ∧ st.currSec.isSome = true ∧ isRemark l = true then [l]
         else []) := by
  obtain ⟨extra, he, hk⟩ := flushAddedKeys_newLines st
  rcases walkStep_cases st l with ⟨ht, hw, h⟩ | ⟨_, ht, _, h⟩ | ⟨ht, hm, h⟩ | ⟨ht, hm, h⟩ |
    ⟨_, _, _, ht, _, _, _, _, h⟩ | ⟨_, ht, hc, h⟩ <;> rw [h]
  · rcases hw with hw | hw | hw <;> simp [hw, isRemark]
  · simp [ht, isRemark]
  · simp [ht, he, remarks_append, remarks_of_keyval extra hk]
  · have hl : remarks [l] = [] := by simp [remarks, isRemark, ht]
    simp [ht, he, remarks_append, remarks_of_keyval extra hk, hl]
  · simp [ht, remarks_append, remarks, isRemark]
  · have hr : isRemark l = true := by simpa [isRemark] using ht
    have hs : l.type ≠ LINE_T.SEC := by rcases ht with ht | ht <;> simp [ht]
    simp [remarks_append, remarks, hr, hc, hs]

theorem liveRemarks_congr (secsA secsB : List (Str × Section))
    (h : ∀ n, (mapFind n secsA).isSome = (mapFind n secsB).isSome) (live : Bool)
    (ls : List Line) : liveRemarks secsA live ls = liveRemarks secsB live ls := by
  induction ls generalizing live with
  | nil => rfl
  | cons l ls ih => simp [liveRemarks, ih, h]

theorem walk_foldl_remarks (ls : List Line) (st : WalkState) :
    remarks (ls.foldl walkStep st).newLines =
      remarks st.newLines ++ liveRemarks st.m_sections st.currSec.isSome ls := by
  induction ls generalizing st with
  | nil => simp [liveRemarks]
  | cons l ls ih =>
    rw [List.foldl_cons, ih, walkStep_remarks, walkStep_currSec_isSome,
      liveRemarks_congr _ st.m_sections (walkStep_dom st l), liveRemarks]
    by_cases h1 : l.type = LINE_T.SEC
    · simp [h1]
    · by_cases h2 : st.currSec.isSome = true ∧ isRemark l = true
      · simp [h1, h2]
      · simp only [h1, if_false, ne_eq, not_false_eq_true, true_and]
        rw [if_neg h2, if_neg h2]
        simp

theorem addNewSections_remarks (secs : List (Str × Section)) (saved : List (Str × List Str))
    (names : List Str) (newLines ls : List Line)
    (h : addNewSections secs saved names newLines = some ls) :
    remarks ls = remarks newLines := by
  induction names generalizing newLines with
  | nil =>
    simp only [addNewSections, Option.some.injEq] at h
    rw [h]
  | cons sec more ih =>
    rw [addNewSections] at h
    cases hf : mapFind sec secs with
    | none => simp [hf] at h
    | some found =>
      simp only [hf] at h
      split_ifs at h
      · exact ih _ h
      · rw [ih _ h]
        simp only [remarks_append]
        rw [remarks_of_keyval (found.m_keys.map _)]
        · simp [remarks, isRemark]
        · intro l hl
          simp only [List.mem_map] at hl
          obtain ⟨kv, _, rfl⟩ := hl
          rfl

/-! ## `save` and the line sequence it builds -/

theorem save_eq_buildLines (d : IniFile) :
    (d.save).map Prod.snd = (buildLines d).map serialize := by
  unfold IniFile.save
  cases buildLines d <;> rfl

/-! ## The walk when no key is pending -/

theorem flushAddedKeys_noAdded (st : WalkState)
    (hn : ∀ cs sec, st.currSec = some cs → mapFind cs st.m_sections = some sec →
      sec.m_addedKeys = []) :
    flushAddedKeys st = st ∨
      ∃ cs, st.currSec = some cs ∧
        flushAddedKeys st = { st with saved := mapSubscript cs [] st.saved } := by
  rcases flushAddedKeys_cases st with h | ⟨cs, hc, _, _, h⟩ | ⟨cs, sec, hc, _, hs, h⟩
  · exact Or.inl h
  · exact Or.inr ⟨cs, hc, h⟩
  · refine Or.inr ⟨cs, hc, ?_⟩
    rw [h, hn cs sec hc hs, addNewKeys_nil]

theorem reconcile_cons (secs : List (Str × Section)) (cur : Option Str)
    (seen : List (Str × Str)) (l : Line) (ls : List Line) :
    reconcile secs cur seen (l :: ls) =
      if l.type = LINE_T.SEC then
        if (mapFind l.content secs).isSome then l :: reconcile secs (some l.content) seen ls
        else reconcile secs none seen ls
      else
        match cur with
        | none => reconcile secs none seen ls
        | some cs =>
          if l.type = LINE_T.KEYVAL then
            match lookupKey secs cs l.content with
            | some v =>
              if (cs, l.content) ∈ seen then reconcile secs (some cs) seen ls
              else
                { type := LINE_T.KEYVAL, content := l.content, value := v,
                  nlAfter := l.nlAfter } ::
                  reconcile secs (some cs) ((cs, l.content) :: seen) ls
            | none => reconcile secs (some cs) seen ls
          else if l.type = LINE_T.COMMENT ∨ l.type = LINE_T.INVALID then
            l :: reconcile secs (some cs) seen ls
          else reconcile secs (some cs) seen ls := by
  cases cur <;> rfl

theorem seenRel_mapSubscript (seen : List (Str × Str)) (saved : List (Str × List Str))
    (cs : Str) (h : SeenRel seen saved) : SeenRel seen (mapSubscript cs [] saved) := by
  intro o k
  rw [h o k, mapFind_mapSubscript]
  by_cases ho : o = cs
  · subst ho
    cases mapFind o saved <;> simp
  · simp [ho]

theorem seenRel_insert (seen : List (Str × Str)) (saved : List (Str × List Str))
    (cs key : Str) (h : SeenRel seen saved) :
    SeenRel ((cs, key) :: seen)
      (mapAssign cs (setInsert key ((mapFind cs saved).getD [])) saved) := by
  intro o k
  rw [mapFind_mapAssign, List.mem_cons, h o k]
  by_cases ho : o = cs
  · subst ho
    simp [mem_setInsert]
  · simp [ho]

theorem walk_foldl_noPending (ls : List Line) (st : WalkState) (seen : List (Str × Str))
    (hn : NoPendingKeys st.m_sections st.currSec ls) (hseen : SeenRel seen st.saved) :
    (ls.foldl walkStep st).newLines =
        st.newLines ++ reconcile st.m_sections st.currSec seen ls ∧
      (ls.foldl walkStep st).m_sections = st.m_sections := by
  induction ls generalizing st seen with
  | nil => exact ⟨by simp [reconcile], rfl⟩
  | cons l ls ih =>
    have hn2 : ∀ x ∈ ls, x.type = LINE_T.SEC →
        ∀ sec, mapFind x.content st.m_sections = some sec → sec.m_addedKeys = [] :=
      fun x hx => hn.2 x (List.mem_cons_of_mem _ hx)
    have hnt : NoPendingKeys st.m_sections st.currSec ls := ⟨hn.1, hn2⟩
    rw [List.foldl_cons, reconcile_cons]
    by_cases hsec : l.type = LINE_T.SEC
    · -- header line
      have hflush : ∃ sv, flushAddedKeys st = { st with saved := sv } ∧ SeenRel seen sv := by
        rcases flushAddedKeys_noAdded st hn.1 with h | ⟨cs, _, h⟩
        · exact ⟨st.saved, h, hseen⟩
        · exact ⟨_, h, seenRel_mapSubscript seen st.saved cs hseen⟩
      obtain ⟨sv, hfl, hsv⟩ := hflush
      rcases Option.eq_none_or_eq_some (mapFind l.content st.m_sections) with hm | ⟨x, hm⟩
      · rw [walkStep_sec_missing st l hsec hm, hfl]
        have := ih { st with saved := sv, currSec := none } seen
          ⟨fun cs sec h => Option.noConfusion h, hn2⟩ hsv
        simpa [hsec, hm] using this
      · have hm' : (mapFind l.content st.m_sections).isSome = true := by simp [hm]
        rw [walkStep_sec_found st l hsec hm', hfl]
        have := ih
          { st with
            currSec := some l.content,
            newLines := st.newLines ++ [l],
            isFirst := (mapFind l.content sv).isNone,
            saved := mapSubscript l.content [] sv } seen
          ⟨fun cs sec h1 h2 =>
            hn.2 l (List.mem_cons_self _ _) hsec sec (Option.some.inj h1 ▸ h2), hn2⟩
          (seenRel_mapSubscript seen sv l.content hsv)
        simpa [hsec, hm] using this
    · simp only [hsec, if_false]
      rcases Option.eq_none_or_eq_some st.currSec with hc | ⟨cs, hc⟩
      · rw [walkStep_skip st l hsec hc, hc]
        have := ih st seen hnt hseen
        simpa [hc] using this
      · rw [hc]
        simp only
        by_cases hkv : l.type = LINE_T.KEYVAL
        · simp only [hkv, if_true]
          rcases Option.eq_none_or_eq_some (mapFind cs st.m_sections) with hs | ⟨sec, hs⟩
          · rw [walkStep_keyval_nosec st l cs hkv hc hs]
            have hl : lookupKey st.m_sections cs l.content = none := by
              simp [lookupKey, hs]
            have := ih st seen hnt hseen
            simpa [hl, hc] using this
          · rcases Option.eq_none_or_eq_some (mapFind l.content sec.m_keys) with hk | ⟨v, hk⟩
            · rw [walkStep_keyval_absent st l cs sec hkv hc hs hk]
              have hl : lookupKey st.m_sections cs l.content = none := by
                simp [lookupKey, hs, hk]
              have := ih st seen hnt hseen
              simpa [hl, hc] using this
            · have hl : lookupKey st.m_sections cs l.content = some v := by
                simp [lookupKey, hs, hk]
              have hrel := seenRel_mapSubscript seen st.saved cs hseen
              by_cases hsv : l.content ∈ (mapFind cs (mapSubscript cs [] st.saved)).getD []
              · rw [walkStep_keyval_saved st l cs sec v hkv hc hs hk hsv]
                have hin : (cs, l.content) ∈ seen := (hrel cs l.content).2 hsv
                have := ih { st with saved := mapSubscript cs [] st.saved } seen hnt hrel
                simpa [hl, hc, hin] using this
              · rw [walkStep_keyval_fresh st l cs sec v hkv hc hs hk hsv]
                have hin : (cs, l.content) ∉ seen := fun h => hsv ((hrel cs l.content).1 h)
                have := ih
                  { st with
                    saved := mapAssign cs
                      (setInsert l.content ((mapFind cs (mapSubscript cs [] st.saved)).getD []))
                      (mapSubscript cs [] st.saved),
                    newLines := st.newLines ++
                      [{ type := LINE_T.KEYVAL, content := l.content, value := v,
                         nlAfter := l.nlAfter }] }
                  ((cs, l.content) :: seen) hnt
                  (seenRel_insert seen (mapSubscript cs [] st.saved) cs l.content hrel)
                simpa [hl, hc, hin] using this
        · simp only [hkv, if_false]
          by_cases hr : l.type = LINE_T.COMMENT ∨ l.type = LINE_T.INVALID
          · rw [walkStep_remark st l cs hr hc]
            have := ih { st with newLines := st.newLines ++ [l] } seen hnt hseen
            simpa [hr, hc] using this
          · have hnl : l.type = LINE_T.NL := by
              cases ht : l.type <;> simp_all
            rw [walkStep_nl st l hnl]
            have := ih st seen hnt hseen
            simpa [hr, hc] using this

theorem noPendingKeys_of_noAdded (secs : List (Str × Section)) (cur : Option Str)
    (ls : List Line) (hn : NoAddedKeys secs) : NoPendingKeys secs cur ls :=
  ⟨fun cs sec _ h => hn cs sec h, fun l _ _ sec h => hn l.content sec h⟩

theorem walk_foldl_noAdded (ls : List Line) (st : WalkState) (seen : List (Str × Str))
    (hn : NoAddedKeys st.m_sections) (hseen : SeenRel seen st.saved) :
    (ls.foldl walkStep st).newLines =
        st.newLines ++ reconcile st.m_sections st.currSec seen ls ∧
      (ls.foldl walkStep st).m_sections = st.m_sections := by
  exact walk_foldl_noPending ls st seen (noPendingKeys_of_noAdded _ _ _ hn) hseen

/-! ## Invariants of `open` -/

theorem mapFind_mapAssign_some {V : Type} (k n : Str) (v x : V) (m : List (Str × V))
    (h : mapFind n (mapAssign k v m) = some x) : (n = k ∧ x = v) ∨ mapFind n m = some x := by
  rw [mapFind_mapAssign] at h
  by_cases hn : n = k
  · simp only [hn, if_true, Option.some.injEq] at h
    exact Or.inl ⟨hn, h.symm⟩
  · simp only [hn, if_false] at h
    exact Or.inr h

theorem mapFind_mapSubscript_some {V : Type} (k n : Str) (dflt x : V) (m : List (Str × V))
    (h : mapFind n (mapSubscript k dflt m) = some x) :
    (n = k ∧ x = dflt ∧ mapFind k m = none) ∨ mapFind n m = some x := by
  unfold mapSubscript at h
  cases hf : mapFind k m with
  | none =>
    rw [hf] at h
    rcases mapFind_mapAssign_some k n dflt x m h with ⟨h1, h2⟩ | h1
    · exact Or.inl ⟨h1, h2, rfl⟩
    · exact Or.inr h1
  | some y =>
    rw [hf] at h
    exact Or.inr h

theorem mapFind_isSome_mapSubscript {V : Type} (k n : Str) (dflt : V) (m : List (Str × V)) :
    (mapFind n (mapSubscript k dflt m)).isSome = (decide (n = k) || (mapFind n m).isSome) := by
  rw [mapFind_mapSubscript]
  by_cases hn : n = k
  · subst hn; simp
  · simp [hn]

theorem mapFind_assignKey_some (sel key value n : Str) (x : Section)
    (secs : List (Str × Section)) (h : mapFind n (assignKey sel key value secs) = some x) :
    mapFind n secs = some x ∨
      ∃ sec, mapFind sel secs = some sec ∧ n = sel ∧
        x = { sec with m_keys := mapAssign key value sec.m_keys } := by
  unfold assignKey at h
  cases hf : mapFind sel secs with
  | none =>
    rw [hf] at h
    exact Or.inl h
  | some sec =>
    rw [hf] at h
    rcases mapFind_mapAssign_some _ _ _ _ _ h with ⟨h1, h2⟩ | h1
    · exact Or.inr ⟨sec, rfl, h1, h2⟩
    · exact Or.inl h1

theorem keysOf_assignKey_sorted (sel key value : Str) (secs : List (Str × Section))
    (h : SortedKeys (keysOf secs)) : SortedKeys (keysOf (assignKey sel key value secs)) := by
  unfold assignKey
  cases mapFind sel secs with
  | none => exact h
  | some sec => exact sortedKeys_mapAssign _ _ _ h

theorem mem_markLast (c : List Line) (l : Line) (h : l ∈ markLast c) :
    ∃ l' ∈ c, l.type = l'.type ∧ l.content = l'.content ∧ l.value = l'.value := by
  induction c using markLast.induct with
  | case1 => simp [markLast] at h
  | case2 x =>
    simp only [markLast, List.mem_singleton] at h
    subst h
    exact ⟨x, by simp, rfl, rfl, rfl⟩
  | case3 x y ys ih =>
    simp only [markLast, List.mem_cons] at h
    rcases h with h | h
    · subst h
      exact ⟨l, by simp, rfl, rfl, rfl⟩
    · obtain ⟨l', hl', h3⟩ := ih (by simpa [markLast] using h)
      exact ⟨l', by simp only [List.mem_cons] at hl' ⊢; tauto, h3⟩

theorem openInv_init :
    OpenInv { m_sections := mapSubscript [] {} [], m_cachedLines := [], selectedSection := [] } := by
  refine ⟨?_, by decide, by decide, ?_, ⟨?_, ?_⟩, by simp⟩
  · intro n sec h
    simp only [mapSubscript, mapFind, mapAssign] at h
    split_ifs at h
    cases h
    rfl
  · intro l hl
    simp at hl
  · simp [mapSubscript, mapFind, mapAssign, SortedKeys]
  · intro n sec h
    simp only [mapSubscript, mapFind, mapAssign] at h
    split_ifs at h
    cases h
    simp [SortedKeys]

theorem openInv_openStep (st : OpenState) (l : Line) (h : OpenInv st) :
    OpenInv (openStep st l) := by
  obtain ⟨hna, hsel, hroot, hlive, ⟨hs1, hs2⟩, hnl⟩ := h
  by_cases ht : l.type = LINE_T.NL
  · -- blank line: only the flag of the last cached line changes
    have he : openStep st l = { st with m_cachedLines := markLast st.m_cachedLines } := by
      simp [openStep, ht]
    rw [he]
    refine ⟨hna, hsel, hroot, ?_, ⟨hs1, hs2⟩, ?_⟩
    · intro x hx hxt
      obtain ⟨x', hx', h1, h2, _⟩ := mem_markLast _ _ hx
      rw [h2]
      exact hlive x' hx' (h1 ▸ hxt)
    · intro x hx
      obtain ⟨x', hx', h1, _, _⟩ := mem_markLast _ _ hx
      rw [h1]
      exact hnl x' hx'
  · by_cases hsec : l.type = LINE_T.SEC
    · have he : openStep st l =
          { m_sections := mapSubscript l.content {} st.m_sections,
            m_cachedLines := st.m_cachedLines ++ [l],
            selectedSection := l.content } := by
        simp [openStep, hsec]
      rw [he]
      refine ⟨?_, ?_, ?_, ?_, ⟨?_, ?_⟩, ?_⟩
      · intro n sec hf
        rcases mapFind_mapSubscript_some _ _ _ _ _ hf with ⟨_, h2, _⟩ | h1
        · rw [h2]
        · exact hna n sec h1
      · simp [mapFind_isSome_mapSubscript]
      · simp only [mapFind_isSome_mapSubscript, hroot, Bool.or_true]
      · intro x hx hxt
        simp only [List.mem_append, List.mem_singleton] at hx
        simp only [mapFind_isSome_mapSubscript]
        rcases hx with hx | hx
        · simp [hlive x hx hxt]
        · simp [hx]
      · exact sortedKeys_mapSubscript _ _ _ hs1
      · intro n sec hf
        rcases mapFind_mapSubscript_some _ _ _ _ _ hf with ⟨_, h2, _⟩ | h1
        · rw [h2]; simp [SortedKeys]
        · exact hs2 n sec h1
      · intro x hx
        simp only [List.mem_append, List.mem_singleton] at hx
        rcases hx with hx | hx
        · exact hnl x hx
        · rw [hx]; exact ht
    · by_cases hkv : l.type = LINE_T.KEYVAL
      · have he : openStep st l =
            { m_sections := assignKey st.selectedSection l.content l.value st.m_sections,
              m_cachedLines := st.m_cachedLines ++ [l],
              selectedSection := st.selectedSection } := by
          simp [openStep, hkv]
        rw [he]
        refine ⟨?_, ?_, ?_, ?_, ⟨?_, ?_⟩, ?_⟩
        · intro n sec hf
          rcases mapFind_assignKey_some _ _ _ _ _ _ hf with h1 | ⟨sec0, h1, _, h3⟩
          · exact hna n sec h1
          · rw [h3]
            exact hna _ sec0 h1
        · exact mapFind_isSome_assignKey _ _ _ _ _ hsel
        · exact mapFind_isSome_assignKey _ _ _ _ _ hroot
        · intro x hx hxt
          simp only [List.mem_append, List.mem_singleton] at hx
          rcases hx with hx | hx
          · exact mapFind_isSome_assignKey _ _ _ _ _ (hlive x hx hxt)
          · rw [hx, hkv] at hxt
            cases hxt
        · exact keysOf_assignKey_sorted _ _ _ _ hs1
        · intro n sec hf
          rcases mapFind_assignKey_some _ _ _ _ _ _ hf with h1 | ⟨sec0, h1, _, h3⟩
          · exact hs2 n sec h1
          · rw [h3]
            exact sortedKeys_mapAssign _ _ _ (hs2 _ sec0 h1)
        · intro x hx
          simp only [List.mem_append, List.mem_singleton] at hx
          rcases hx with hx | hx
          · exact hnl x hx
          · rw [hx]; exact ht
      · have he : openStep st l = { st with m_cachedLines := st.m_cachedLines ++ [l] } := by
          cases hT : l.type <;> simp_all [openStep]
        rw [he]
        refine ⟨hna, hsel, hroot, ?_, ⟨hs1, hs2⟩, ?_⟩
        · intro x hx hxt
          simp only [List.mem_append, List.mem_singleton] at hx
          rcases hx with hx | hx
          · exact hlive x hx hxt
          · rw [hx] at hxt
            exact absurd hxt hsec
        · intro x hx
          simp only [List.mem_append, List.mem_singleton] at hx
          rcases hx with hx | hx
          · exact hnl x hx
          · rw [hx]; exact ht

theorem openInv_foldl (ls : List Line) (st : OpenState) (h : OpenInv st) :
    OpenInv (ls.foldl openStep st) := by
  induction ls generalizing st with
  | nil => exact h
  | cons l ls ih => exact ih _ (openInv_openStep st l h)

theorem openFile_sections (d : IniFile) (src : List Char) :
    (d.openFile src).m_sections = (load src).m_sections ∧
      (d.openFile src).m_cachedLines = (load src).m_cachedLines ∧
      (d.openFile src).m_addedSections = d.m_addedSections := by
  simp [load, IniFile.openFile]

theorem load_addedSections (src : List Char) : (load src).m_addedSections = [] := rfl

theorem load_inv (src : List Char) :
    NoAddedKeys (load src).m_sections ∧
      (mapFind [] (load src).m_sections).isSome = true ∧
      HeadersLive (load src).m_sections (load src).m_cachedLines ∧
      SortedSections (load src).m_sections ∧
      (∀ l ∈ (load src).m_cachedLines, l.type ≠ LINE_T.NL) := by
  have h := openInv_foldl (parsedLines src) _ openInv_init
  rw [load_sections, load_cachedLines]
  exact ⟨h.1, h.2.2.1, h.2.2.2.1, h.2.2.2.2.1, h.2.2.2.2.2⟩

/-! ## `save` of a document without pending additions -/

theorem walk_noAdded (d : IniFile) (hn : NoAddedKeys d.m_sections) :
    (walk d).newLines =
        reconcile d.m_sections (findSection [] d.m_sections) [] d.m_cachedLines ∧
      (walk d).m_sections = d.m_sections := by
  have hseen : SeenRel [] (walkInit d).saved := by
    intro o k
    simp only [walkInit, mapSubscript, mapFind, mapAssign, List.not_mem_nil, false_iff]
    by_cases ho : ([] : Str) = o <;> simp [ho]
  have := walk_foldl_noAdded d.m_cachedLines (walkInit d) [] hn hseen
  simpa [walk, walkInit] using this

theorem buildLines_noAdded (d : IniFile) (hn : NoAddedKeys d.m_sections)
    (ha : d.m_addedSections = []) :
    buildLines d =
      some (reconcile d.m_sections (findSection [] d.m_sections) [] d.m_cachedLines) := by
  unfold buildLines
  simp only [ha, addNewSections, (walk_noAdded d hn).1]

theorem eraseValue_keyval (c v : Str) (nl : Bool) :
    eraseValue { type := LINE_T.KEYVAL, content := c, value := v, nlAfter := nl } =
      { type := LINE_T.KEYVAL, content := c, value := [], nlAfter := nl } := by
  simp [eraseValue]

theorem reconcile_sameKeys (secs0 secs1 : List (Str × Section)) (h : SameKeys secs0 secs1)
    (ls : List Line) (cur : Option Str) (seen : List (Str × Str)) :
    (reconcile secs1 cur seen ls).map eraseValue =
      (reconcile secs0 cur seen ls).map eraseValue := by
  induction ls generalizing cur seen with
  | nil => simp [reconcile]
  | cons l ls ih =>
    rw [reconcile_cons, reconcile_cons]
    by_cases hsec : l.type = LINE_T.SEC
    · simp only [hsec, if_true, h.1 l.content]
      split_ifs
      · simp [ih]
      · exact ih _ _
    · simp only [hsec, if_false]
      cases cur with
      | none => exact ih _ _
      | some cs =>
        simp only
        by_cases hkv : l.type = LINE_T.KEYVAL
        · simp only [hkv, if_true]
          have hk := h.2 cs l.content
          cases h0 : lookupKey secs0 cs l.content with
          | none =>
            rw [h0] at hk
            have h1 : lookupKey secs1 cs l.content = none := by
              cases h1 : lookupKey secs1 cs l.content with
              | none => rfl
              | some x => rw [h1] at hk; cases hk
            simp only [h1]
            exact ih _ _
          | some v0 =>
            rw [h0] at hk
            cases h1 : lookupKey secs1 cs l.content with
            | none => rw [h1] at hk; cases hk
            | some v1 =>
              simp only
              split_ifs
              · exact ih _ _
              · simp [ih, eraseValue_keyval]
        · simp only [hkv, if_false]
          split_ifs
          · simp [ih]
          · exact ih _ _

theorem reconcile_values (secs : List (Str × Section)) (ls : List Line) :
    ∀ (cur : Option Str) (seen : List (Str × Str)) (o : Str),
      (∀ c, cur = some c → c = o) →
      ∀ (pre : List Line) (l : Line) (post : List Line),
        reconcile secs cur seen ls = pre ++ l :: post → l.type = LINE_T.KEYVAL →
        lookupKey secs (ownerAfter o pre) l.content = some l.value := by
  induction ls with
  | nil =>
    intro cur seen o _ pre l post h
    simp [reconcile] at h
  | cons x ls ih =>
    intro cur seen o ho pre l post h hl
    rw [reconcile_cons] at h
    by_cases hsec : x.type = LINE_T.SEC
    · simp only [hsec, if_true] at h
      split_ifs at h
      · cases pre with
        | nil =>
          simp only [List.nil_append, List.cons.injEq] at h
          rw [← h.1, hsec] at hl
          cases hl
        | cons y pre' =>
          simp only [List.cons_append, List.cons.injEq] at h
          have := ih (some x.content) seen x.content (by simp) pre' l post h.2 hl
          simpa [ownerAfter, ← h.1, hsec] using this
      · exact ih none seen o (by simp) pre l post h hl
    · simp only [hsec, if_false] at h
      cases cur with
      | none => exact ih none seen o (by simp) pre l post h hl
      | some cs =>
        have hcs : cs = o := ho cs rfl
        simp only at h
        by_cases hkv : x.type = LINE_T.KEYVAL
        · simp only [hkv, if_true] at h
          cases hlk : lookupKey secs cs x.content with
          | none =>
            simp only [hlk] at h
            exact ih (some cs) seen o ho pre l post h hl
          | some v =>
            simp only [hlk] at h
            split_ifs at h
            · exact ih (some cs) seen o ho pre l post h hl
            · cases pre with
              | nil =>
                simp only [List.nil_append, List.cons.injEq] at h
                rw [← h.1]
                simpa [ownerAfter, ← hcs] using hlk
              | cons y pre' =>
                simp only [List.cons_append, List.cons.injEq] at h
                have := ih (some cs) _ o ho pre' l post h.2 hl
                simpa [ownerAfter, ← h.1] using this
        · simp only [hkv, if_false] at h
          split_ifs at h with hr
          · cases pre with
            | nil =>
              simp only [List.nil_append, List.cons.injEq] at h
              rw [← h.1] at hl
              exact absurd hl hkv
            | cons y pre' =>
              simp only [List.cons_append, List.cons.injEq] at h
              have := ih (some cs) _ o ho pre' l post h.2 hl
              simpa [ownerAfter, ← h.1, hsec] using this
          · exact ih (some cs) seen o ho pre l post h hl

/-! ## Editing the value of an existing key -/

theorem setKey_existing (d : IniFile) (s k v v0 : Str) (sec : Section)
    (hs : mapFind s d.m_sections = some sec) (hk : mapFind k sec.m_keys = some v0) :
    d.setKey s k v =
      { d with
        m_sections :=
          mapAssign s { sec with m_keys := mapAssign k v sec.m_keys } d.m_sections } := by
  simp [IniFile.setKey, IniFile.subscript, Section.subscript, hs, hk]

theorem lookupKey_isSome_iff (secs : List (Str × Section)) (s k : Str) :
    (lookupKey secs s k).isSome = true ↔
      ∃ sec v, mapFind s secs = some sec ∧ mapFind k sec.m_keys = some v := by
  unfold lookupKey
  cases hs : mapFind s secs with
  | none => simp
  | some sec =>
    cases hk : mapFind k sec.m_keys with
    | none => simp [hk]
    | some v => simp [hk]

theorem lookupKey_setKey_existing (secs : List (Str × Section)) (s k v n k2 : Str)
    (sec : Section) (hs : mapFind s secs = some sec) :
    lookupKey (mapAssign s { sec with m_keys := mapAssign k v sec.m_keys } secs) n k2 =
      if n = s ∧ k2 = k then some v else lookupKey secs n k2 := by
  unfold lookupKey
  rw [mapFind_mapAssign]
  by_cases hn : n = s
  · subst hn
    simp only [if_true, Option.some_bind, mapFind_mapAssign, true_and, hs]
  · simp [hn]

theorem sameKeys_setKey_existing (secs : List (Str × Section)) (s k v v0 : Str)
    (sec : Section) (hs : mapFind s secs = some sec) (hk : mapFind k sec.m_keys = some v0) :
    SameKeys secs (mapAssign s { sec with m_keys := mapAssign k v sec.m_keys } secs) := by
  constructor
  · intro n
    rw [mapFind_mapAssign]
    by_cases hn : n = s
    · subst hn; simp [hs]
    · simp [hn]
  · intro n k2
    rw [lookupKey_setKey_existing secs s k v n k2 sec hs]
    by_cases hn : n = s ∧ k2 = k
    · obtain ⟨h1, h2⟩ := hn
      subst h1 h2
      simp [lookupKey, hs, hk]
    · simp [hn]

theorem sameKeys_trans (a b c : List (Str × Section)) (h1 : SameKeys a b)
    (h2 : SameKeys b c) : SameKeys a c :=
  ⟨fun n => (h1.1 n).trans (h2.1 n), fun n k => (h1.2 n k).trans (h2.2 n k)⟩

theorem sameKeys_refl (a : List (Str × Section)) : SameKeys a a :=
  ⟨fun _ => rfl, fun _ _ => rfl⟩

theorem noAddedKeys_setKey_existing (secs : List (Str × Section)) (s k v : Str)
    (sec : Section) (hs : mapFind s secs = some sec) (hn : NoAddedKeys secs) :
    NoAddedKeys (mapAssign s { sec with m_keys := mapAssign k v sec.m_keys } secs) := by
  intro n x hx
  rcases mapFind_mapAssign_some _ _ _ _ _ hx with ⟨_, h2⟩ | h1
  · rw [h2]
    exact hn s sec hs
  · exact hn n x h1

theorem applyEdits_existing (d0 : IniFile)
    (edits : List (Str × Str × Str)) :
    ∀ (d : IniFile), d.m_cachedLines = d0.m_cachedLines →
      d.m_addedSections = d0.m_addedSections → NoAddedKeys d.m_sections →
      SameKeys d0.m_sections d.m_sections →
      (∀ e ∈ edits, (lookupKey d0.m_sections e.1 e.2.1).isSome = true) →
      (applyEdits d edits).m_cachedLines = d0.m_cachedLines ∧
        (applyEdits d edits).m_addedSections = d0.m_addedSections ∧
        NoAddedKeys (applyEdits d edits).m_sections ∧
        SameKeys d0.m_sections (applyEdits d edits).m_sections := by
  induction edits with
  | nil =>
    intro d h1 h2 h3 h4 _
    exact ⟨h1, h2, h3, h4⟩
  | cons e es ih =>
    intro d h1 h2 h3 h4 he
    have hex : (lookupKey d.m_sections e.1 e.2.1).isSome = true := by
      rw [← h4.2]
      exact he e (by simp)
    obtain ⟨sec, v0, hs, hk⟩ := (lookupKey_isSome_iff _ _ _).1 hex
    have hset := setKey_existing d e.1 e.2.1 e.2.2 v0 sec hs hk
    have : applyEdits d (e :: es) = applyEdits (d.setKey e.1 e.2.1 e.2.2) es := rfl
    rw [this]
    apply ih
    · rw [hset]; exact h1
    · rw [hset]; exact h2
    · rw [hset]; exact noAddedKeys_setKey_existing _ _ _ _ _ hs h3
    · rw [hset]
      exact sameKeys_trans _ _ _ h4 (sameKeys_setKey_existing _ _ _ _ v0 _ hs hk)
    · intro e' he'
      exact he e' (by simp [he'])

/-! ## The line cache and the physical lines -/

theorem classify_nlAfter (s : Str) : (classify s).nlAfter = false := by
  unfold classify
  cases s with
  | nil => rfl
  | cons c cs =>
    simp only
    split_ifs
    · rfl
    · rfl
    · cases findChar '=' (c :: cs) <;> rfl

theorem unflag_parsed (src : List Char) (l : Line) (h : l ∈ parsedLines src) : unflag l = l := by
  simp only [parsedLines, List.mem_map] at h
  obtain ⟨raw, _, rfl⟩ := h
  have := classify_nlAfter (trim (raw.filter (fun c => c ≠ '\r')))
  cases hc : classify (trim (raw.filter (fun c => c ≠ '\r'))) with
  | mk t c v nl =>
    rw [hc] at this
    simp only at this
    simp [unflag, this]

theorem map_unflag_markLast (c : List Line) : (markLast c).map unflag = c.map unflag := by
  induction c using markLast.induct with
  | case1 => rfl
  | case2 x => simp [markLast, unflag]
  | case3 x y ys ih => simpa [markLast] using ih

theorem openStep_cachedLines (st : OpenState) (l : Line) :
    (openStep st l).m_cachedLines.map unflag =
      st.m_cachedLines.map unflag ++
        (if isStored l = true then [unflag l] else []) := by
  unfold openStep
  by_cases ht : l.type = LINE_T.NL
  · simp [ht, map_unflag_markLast, isStored]
  · cases hT : l.type <;> simp_all [isStored]

theorem foldl_openStep_cachedLines (ls : List Line) (st : OpenState) :
    (ls.foldl openStep st).m_cachedLines.map unflag =
      st.m_cachedLines.map unflag ++
        (ls.filter isStored).map unflag := by
  induction ls generalizing st with
  | nil => simp
  | cons l ls ih =>
    rw [List.foldl_cons, ih, openStep_cachedLines]
    by_cases ht : isStored l = true
    · simp [ht, List.filter_cons]
    · simp [ht, List.filter_cons]

/-- Without their flags, the cached lines are the classified physical lines of the input that
are not blank, in order. -/
theorem load_cachedLines_unflag (src : List Char) :
    (load src).m_cachedLines.map unflag =
      (parsedLines src).filter isStored := by
  rw [load_cachedLines, foldl_openStep_cachedLines]
  simp only [List.map_nil, List.nil_append]
  conv_rhs => rw [← List.map_id ((parsedLines src).filter isStored)]
  apply List.map_congr_left
  intro l hl
  exact unflag_parsed src l (List.mem_of_mem_filter hl)

theorem lastValue_cons (s k cur : Str) (l : Line) (ls : List Line) :
    lastValue s k cur (l :: ls) =
      match lastValue s k (if l.type = LINE_T.SEC then l.content else cur) ls with
      | some v => some v
      | none =>
        if l.type = LINE_T.KEYVAL ∧ cur = s ∧ l.content = k then some l.value else none := rfl

theorem lastValue_map_unflag (s k : Str) (ls : List Line) (cur : Str) :
    lastValue s k cur (ls.map unflag) = lastValue s k cur ls := by
  induction ls generalizing cur with
  | nil => rfl
  | cons l ls ih =>
    simp only [List.map_cons, lastValue_cons, ih]
    rfl

theorem lastValue_filter (s k : Str) (ls : List Line) (cur : Str) :
    lastValue s k cur (ls.filter isStored) = lastValue s k cur ls := by
  induction ls generalizing cur with
  | nil => rfl
  | cons l ls ih =>
    by_cases ht : l.type = LINE_T.NL
    · have hf : (l :: ls).filter isStored = ls.filter isStored := by
        simp [List.filter_cons, isStored, ht]
      rw [hf, ih, lastValue_cons]
      simp only [ht]
      cases hv : lastValue s k cur ls <;> simp [hv]
    · have hf : (l :: ls).filter isStored = l :: ls.filter isStored := by
        simp [List.filter_cons, isStored, ht]
      rw [hf, lastValue_cons, lastValue_cons, ih]

theorem lastValue_cache (src : List Char) (s k : Str) :
    lastValue s k [] (load src).m_cachedLines = lastValue s k [] (parsedLines src) := by
  rw [← lastValue_map_unflag, load_cachedLines_unflag, lastValue_filter]

/-! ## Removing a key -/

theorem removeKey_existing (d : IniFile) (s k : Str) (sec : Section)
    (hs : mapFind s d.m_sections = some sec) :
    d.removeKey s k = { d with m_sections := mapAssign s (sec.remove k) d.m_sections } := by
  simp [IniFile.removeKey, IniFile.subscript, hs]

theorem mapFind_remove (sec : Section) (k k2 : Str) (hsort : SortedKeys (keysOf sec.m_keys)) :
    mapFind k2 (sec.remove k).m_keys = if k2 = k then none else mapFind k2 sec.m_keys := by
  unfold Section.remove
  cases hf : mapFind k sec.m_keys with
  | none =>
    by_cases h : k2 = k
    · subst h; simp [hf]
    · simp [h]
  | some v =>
    by_cases h : k2 = k
    · subst h
      simp [mapFind_mapErase_self _ _ hsort]
    · simp [h, mapFind_mapErase_ne _ _ _ h]

theorem addedKeys_remove (sec : Section) (k : Str) (h : sec.m_addedKeys = []) :
    (sec.remove k).m_addedKeys = [] := by
  unfold Section.remove
  cases mapFind k sec.m_keys with
  | none => exact h
  | some v => simp [h, setErase]

theorem lookupKey_removeKey (secs : List (Str × Section)) (s k n k2 : Str) (sec : Section)
    (hs : mapFind s secs = some sec) (hsort : SortedKeys (keysOf sec.m_keys)) :
    lookupKey (mapAssign s (sec.remove k) secs) n k2 =
      if n = s ∧ k2 = k then none else lookupKey secs n k2 := by
  unfold lookupKey
  rw [mapFind_mapAssign]
  by_cases hn : n = s
  · subst hn
    simp only [if_true, Option.some_bind, mapFind_remove sec k k2 hsort, true_and, hs]
  · simp [hn]

theorem lastValue_isSome_tail (s k cur : Str) (l : Line) (ls : List Line)
    (h : (lastValue s k cur (l :: ls)).isSome = true)
    (hne : ¬ (l.type = LINE_T.KEYVAL ∧ cur = s ∧ l.content = k)) :
    (lastValue s k (if l.type = LINE_T.SEC then l.content else cur) ls).isSome = true := by
  rw [lastValue_cons] at h
  cases hv : lastValue s k (if l.type = LINE_T.SEC then l.content else cur) ls with
  | none => simp [hv, hne] at h
  | some v => rfl

/-- A key of section `o` that has a line under `o` and is in the model is emitted under `o`
with its current value. -/
theorem reconcile_emits (secs : List (Str × Section)) (o k v : Str)
    (hv : lookupKey secs o k = some v) (ls : List Line) :
    ∀ (cur : Str) (seen : List (Str × Str)), HeadersLive secs ls →
      (lastValue o k cur ls).isSome = true → (o, k) ∉ seen →
      ∃ pre nl post,
        reconcile secs (some cur) seen ls =
          pre ++ { type := LINE_T.KEYVAL, content := k, value := v, nlAfter := nl } :: post ∧
        ownerAfter cur pre = o := by
  induction ls with
  | nil =>
    intro cur seen _ h
    simp [lastValue] at h
  | cons l ls ih =>
    intro cur seen hlive h hseen
    have hlive' : HeadersLive secs ls := fun x hx => hlive x (List.mem_cons_of_mem _ hx)
    rw [reconcile_cons]
    by_cases hsec : l.type = LINE_T.SEC
    · have hl := hlive l (List.mem_cons_self _ _) hsec
      have ht := lastValue_isSome_tail o k cur l ls h (by simp [hsec])
      simp only [hsec, if_true] at ht
      obtain ⟨pre, nl, post, h1, h2⟩ := ih l.content seen hlive' ht hseen
      refine ⟨l :: pre, nl, post, ?_, ?_⟩
      · simp [hsec, hl, h1]
      · simpa [ownerAfter, hsec] using h2
    · simp only [hsec, if_false]
      by_cases hkv : l.type = LINE_T.KEYVAL
      · simp only [hkv, if_true]
        by_cases hm : cur = o ∧ l.content = k
        · obtain ⟨hm1, hm2⟩ := hm
          subst hm1 hm2
          simp only [hv, hseen, if_false]
          exact ⟨[], l.nlAfter, _, rfl, rfl⟩
        · have ht := lastValue_isSome_tail o k cur l ls h (by tauto)
          simp only [hsec, if_false] at ht
          cases hlk : lookupKey secs cur l.content with
          | none =>
            simp only
            exact ih cur seen hlive' ht hseen
          | some w =>
            simp only
            split_ifs with hin
            · exact ih cur seen hlive' ht hseen
            · have hseen' : (o, k) ∉ (cur, l.content) :: seen := by
                simp only [List.mem_cons, Prod.mk.injEq, not_or]
                exact ⟨fun hh => hm ⟨hh.1.symm, hh.2.symm⟩, hseen⟩
              obtain ⟨pre, nl, post, h1, h2⟩ := ih cur _ hlive' ht hseen'
              refine ⟨_ :: pre, nl, post, by rw [h1]; rfl, ?_⟩
              simpa [ownerAfter] using h2
      · have ht := lastValue_isSome_tail o k cur l ls h (by tauto)
        simp only [hsec, if_false] at ht
        simp only [hkv, if_false]
        split_ifs with hr
        · obtain ⟨pre, nl, post, h1, h2⟩ := ih cur seen hlive' ht hseen
          refine ⟨l :: pre, nl, post, by rw [h1]; rfl, ?_⟩
          simpa [ownerAfter, hsec] using h2
        · exact ih cur seen hlive' ht hseen

/-! ## Which sections the walk records in `saved` -/

theorem addNewKeys_saved (cs : Str) (keys : List Str) (st : WalkState) (sec : Section)
    (h : mapFind cs st.m_sections = some sec) (n : Str)
    (hn : (mapFind n (addNewKeys cs keys st).saved).isSome = true) :
    (mapFind n st.saved).isSome = true ∨ n = cs := by
  induction keys generalizing st sec with
  | nil => exact Or.inl hn
  | cons key keys ih =>
    rw [addNewKeys_cons cs key keys st sec h] at hn
    rcases ih _ { sec with m_keys := mapSubscript key [] sec.m_keys }
      (by simp [mapFind_mapAssign]) hn with h1 | h1
    · simp only [mapFind_mapAssign] at h1
      by_cases hc : n = cs
      · exact Or.inr hc
      · simp only [hc, if_false] at h1
        exact Or.inl h1
    · exact Or.inr h1

theorem flushAddedKeys_saved (st : WalkState) (n : Str)
    (hn : (mapFind n (flushAddedKeys st).saved).isSome = true) :
    (mapFind n st.saved).isSome = true ∨ st.currSec = some n := by
  rcases flushAddedKeys_cases st with h | ⟨cs, hc, _, _, h⟩ | ⟨cs, sec, hc, _, hs, h⟩
  · rw [h] at hn; exact Or.inl hn
  · rw [h] at hn
    simp only [mapFind_isSome_mapSubscript, Bool.or_eq_true, decide_eq_true_eq] at hn
    rcases hn with hn | hn
    · exact Or.inr (hn ▸ hc)
    · exact Or.inl hn
  · rw [h] at hn
    rcases addNewKeys_saved cs sec.m_addedKeys
      { st with saved := mapSubscript cs [] st.saved } sec hs n hn with h1 | h1
    · simp only [mapFind_isSome_mapSubscript, Bool.or_eq_true, decide_eq_true_eq] at h1
      rcases h1 with h1 | h1
      · exact Or.inr (h1 ▸ hc)
      · exact Or.inl h1
    · exact Or.inr (h1 ▸ hc)

theorem walkStep_saved (st : WalkState) (l : Line) (n : Str)
    (hn : (mapFind n (walkStep st l).saved).isSome = true) :
    (mapFind n st.saved).isSome = true ∨ st.currSec = some n ∨
      (l.type = LINE_T.SEC ∧ l.content = n) := by
  rcases walkStep_cases st l with ⟨_, _, h⟩ | ⟨cs, _, hc, h⟩ | ⟨_, _, h⟩ | ⟨ht, _, h⟩ |
    ⟨cs, _, _, _, hc, _, _, _, h⟩ | ⟨_, _, _, h⟩ <;> rw [h] at hn
  · exact Or.inl hn
  · simp only [mapFind_isSome_mapSubscript, Bool.or_eq_true, decide_eq_true_eq] at hn
    rcases hn with hn | hn
    · exact Or.inr (Or.inl (hn ▸ hc))
    · exact Or.inl hn
  · rcases flushAddedKeys_saved st n hn with h1 | h1
    · exact Or.inl h1
    · exact Or.inr (Or.inl h1)
  · simp only [mapFind_isSome_mapSubscript, Bool.or_eq_true, decide_eq_true_eq] at hn
    rcases hn with hn | hn
    · exact Or.inr (Or.inr ⟨ht, hn.symm⟩)
    · rcases flushAddedKeys_saved st n hn with h1 | h1
      · exact Or.inl h1
      · exact Or.inr (Or.inl h1)
  · simp only [mapFind_mapAssign, mapFind_isSome_mapSubscript] at hn
    by_cases hcs : n = cs
    · exact Or.inr (Or.inl (hcs ▸ hc))
    · simp only [hcs, if_false, mapFind_mapSubscript] at hn
      exact Or.inl hn
  · exact Or.inl hn

theorem walkStep_currSec (st : WalkState) (l : Line) (n : Str)
    (hn : (walkStep st l).currSec = some n) :
    st.currSec = some n ∨ (l.type = LINE_T.SEC ∧ l.content = n) := by
  rcases walkStep_cases st l with ⟨_, _, h⟩ | ⟨cs, _, hc, h⟩ | ⟨_, _, h⟩ | ⟨ht, _, h⟩ |
    ⟨cs, _, _, _, hc, _, _, _, h⟩ | ⟨_, _, _, h⟩ <;> rw [h] at hn
  · exact Or.inl hn
  · exact Or.inl hn
  · cases hn
  · simp only [Option.some.injEq] at hn
    exact Or.inr ⟨ht, hn⟩
  · exact Or.inl hn
  · exact Or.inl hn

theorem walk_foldl_saved (ls : List Line) (st : WalkState) (n : Str) :
    ((mapFind n (ls.foldl walkStep st).saved).isSome = true ∨
        (ls.foldl walkStep st).currSec = some n) →
      (mapFind n st.saved).isSome = true ∨ st.currSec = some n ∨
        ∃ l ∈ ls, l.type = LINE_T.SEC ∧ l.content = n := by
  induction ls generalizing st with
  | nil =>
    intro h
    rcases h with h | h
    · exact Or.inl h
    · exact Or.inr (Or.inl h)
  | cons l ls ih =>
    intro h
    rw [List.foldl_cons] at h
    have hstep : ((mapFind n (walkStep st l).saved).isSome = true ∨
        (walkStep st l).currSec = some n) →
        (mapFind n st.saved).isSome = true ∨ st.currSec = some n ∨
          (l.type = LINE_T.SEC ∧ l.content = n) := by
      intro h'
      rcases h' with h' | h'
      · exact walkStep_saved st l n h'
      · exact Or.inr (walkStep_currSec st l n h')
    rcases ih (walkStep st l) h with h1 | h1 | ⟨x, hx, h1⟩
    · rcases hstep (Or.inl h1) with h2 | h2 | h2
      · exact Or.inl h2
      · exact Or.inr (Or.inl h2)
      · exact Or.inr (Or.inr ⟨l, List.mem_cons_self _ _, h2⟩)
    · rcases hstep (Or.inr h1) with h2 | h2 | h2
      · exact Or.inl h2
      · exact Or.inr (Or.inl h2)
      · exact Or.inr (Or.inr ⟨l, List.mem_cons_self _ _, h2⟩)
    · exact Or.inr (Or.inr ⟨x, List.mem_cons_of_mem _ hx, h1⟩)

/-! ## Sections of a loaded document come from headers -/

theorem mapFind_isSome_assignKey_iff (sel key value n : Str) (secs : List (Str × Section)) :
    (mapFind n (assignKey sel key value secs)).isSome = (mapFind n secs).isSome := by
  unfold assignKey
  cases hf : mapFind sel secs with
  | none => rfl
  | some sec =>
    simp only [mapFind_mapAssign]
    by_cases h1 : n = sel
    · subst h1; simp [hf]
    · simp [h1]

theorem openStep_dom (st : OpenState) (l : Line) (n : Str)
    (h : (mapFind n (openStep st l).m_sections).isSome = true) :
    (mapFind n st.m_sections).isSome = true ∨ (l.type = LINE_T.SEC ∧ l.content = n) := by
  unfold openStep at h
  cases ht : l.type <;> simp only [ht, if_true, if_false, reduceCtorEq] at h
  · exact Or.inl h
  · exact Or.inl h
  · simp only [mapFind_isSome_mapSubscript, Bool.or_eq_true, decide_eq_true_eq] at h
    rcases h with h | h
    · exact Or.inr ⟨rfl, h.symm⟩
    · exact Or.inl h
  · rw [mapFind_isSome_assignKey_iff] at h
    exact Or.inl h
  · exact Or.inl h

theorem foldl_openStep_dom (ls : List Line) (st : OpenState) (n : Str)
    (h : (mapFind n (ls.foldl openStep st).m_sections).isSome = true) :
    (mapFind n st.m_sections).isSome = true ∨
      ∃ l ∈ ls, l.type = LINE_T.SEC ∧ l.content = n := by
  induction ls generalizing st with
  | nil => exact Or.inl h
  | cons l ls ih =>
    rw [List.foldl_cons] at h
    rcases ih _ h with h1 | ⟨x, hx, h1⟩
    · rcases openStep_dom st l n h1 with h2 | h2
      · exact Or.inl h2
      · exact Or.inr ⟨l, List.mem_cons_self _ _, h2⟩
    · exact Or.inr ⟨x, List.mem_cons_of_mem _ hx, h1⟩

/-- A section of a loaded document is the root section or is named by a header line of the
file. -/
theorem load_dom (src : List Char) (n : Str)
    (h : (mapFind n (load src).m_sections).isSome = true) :
    n = [] ∨ ∃ l ∈ parsedLines src, l.type = LINE_T.SEC ∧ l.content = n := by
  rw [load_sections] at h
  rcases foldl_openStep_dom _ _ n h with h1 | h1
  · left
    simp only [mapSubscript, mapFind, mapAssign] at h1
    by_contra hne
    simp [Ne.symm hne] at h1
  · exact Or.inr h1

/-- A header line of the line cache is a header line of the file. -/
theorem load_cache_header (src : List Char) (l : Line) (h : l ∈ (load src).m_cachedLines)
    (ht : l.type = LINE_T.SEC) :
    ∃ l' ∈ parsedLines src, l'.type = LINE_T.SEC ∧ l'.content = l.content := by
  have h1 : unflag l ∈ (load src).m_cachedLines.map unflag := List.mem_map_of_mem _ h
  rw [load_cachedLines_unflag] at h1
  exact ⟨unflag l, List.mem_of_mem_filter h1, ht, rfl⟩

/-! ## Serialisation -/

theorem emitLines_cons (firstLine : Bool) (offsetNC : Int) (line : Line) (more : List Line) :
    emitLines firstLine offsetNC (line :: more) =
      (if line.type = LINE_T.SEC ∧ 2 - offsetNC > 0 ∧ (!firstLine) = true then
          (if 2 - offsetNC = 1 then ['\n'] else ['\n', '\n'])
        else []) ++ lineText line ++ (if line.nlAfter then ['\n', '\n'] else ['\n'])
        ++ emitLines false
          (if line.type ≠ LINE_T.COMMENT then (if line.nlAfter then 1 else 0) else offsetNC)
          more := rfl

theorem emitLines_append (a b : List Line) (firstLine : Bool) (offsetNC : Int) :
    emitLines firstLine offsetNC (a ++ b) =
      emitLines firstLine offsetNC a ++
        emitLines (firstLine && a.isEmpty) (offsetAfter offsetNC a) b := by
  induction a generalizing firstLine offsetNC with
  | nil => simp [emitLines, offsetAfter]
  | cons l ls ih =>
    rw [List.cons_append, emitLines_cons, emitLines_cons, ih]
    simp [offsetAfter]

theorem clearLast_append (a b : List Line) (hb : b ≠ []) :
    clearLast (a ++ b) = a ++ clearLast b := by
  induction a with
  | nil => rfl
  | cons x xs ih =>
    cases hxs : xs ++ b with
    | nil => simp [hb] at hxs
    | cons y ys =>
      rw [List.cons_append, hxs, clearLast, ← hxs, ih]
      rfl

theorem clearLast_eq_self (b : List Line) (h : ∀ l ∈ b, l.nlAfter = false) :
    clearLast b = b := by
  induction b using clearLast.induct with
  | case1 => rfl
  | case2 x =>
    have := h x (by simp)
    cases x
    simp_all [clearLast]
  | case3 x y ys ih =>
    rw [clearLast, ih (fun l hl => h l (List.mem_cons_of_mem _ hl))]

theorem emitLines_keyValueLines (kvs : List (Str × Str)) (firstLine : Bool) (offsetNC : Int) :
    emitLines firstLine offsetNC (keyValueLines kvs) = keyValueText kvs := by
  induction kvs generalizing firstLine offsetNC with
  | nil => rfl
  | cons kv more ih =>
    have : keyValueLines (kv :: more) =
        { type := LINE_T.KEYVAL, content := kv.1, value := kv.2 } :: keyValueLines more := rfl
    rw [this, emitLines_cons, ih]
    simp [keyValueText, lineText]

/-- A section block appended at the end of the line sequence ends the written text with its
header and its `key = value` lines. -/
theorem serialize_new_section (pre : List Line) (s : Str) (kvs : List (Str × Str)) :
    (['['] ++ s ++ [']', '\n'] ++ keyValueText kvs) <:+
      serialize (pre ++ { type := LINE_T.SEC, content := s } :: keyValueLines kvs) := by
  have hflags : ∀ l ∈ ({ type := LINE_T.SEC, content := s } : Line) :: keyValueLines kvs,
      l.nlAfter = false := by
    intro l hl
    simp only [List.mem_cons, keyValueLines, List.mem_map] at hl
    rcases hl with hl | ⟨kv, _, hl⟩
    · rw [hl]
    · rw [← hl]
  unfold serialize
  simp only
  rw [clearLast_append _ _ (by simp), clearLast_eq_self _ hflags, emitLines_append,
    emitLines_cons, emitLines_keyValueLines]
  simp only [lineText, Bool.false_eq_true, if_false, List.append_assoc, List.cons_append,
    List.nil_append]
  exact (List.suffix_append _ _).trans
    ((List.suffix_append _ _).trans (List.suffix_append _ _))

theorem lineText_clearLast (ls : List Line) (l : Line) (h : l ∈ ls) :
    ∃ l' ∈ clearLast ls, lineText l' = lineText l := by
  induction ls using clearLast.induct with
  | case1 => simp at h
  | case2 x =>
    simp only [List.mem_singleton] at h
    subst h
    exact ⟨{ l with nlAfter := false }, by simp [clearLast], by simp [lineText]⟩
  | case3 x y ys ih =>
    simp only [List.mem_cons] at h
    rcases h with h | h
    · exact ⟨x, by simp [clearLast, h], by rw [h]⟩
    · obtain ⟨l', hl', ht⟩ := ih (by simpa using h)
      exact ⟨l', by rw [clearLast]; exact List.mem_cons_of_mem _ hl', ht⟩

theorem lineText_infix_emitLines (ls : List Line) (l : Line) (h : l ∈ ls) (firstLine : Bool)
    (offsetNC : Int) : (lineText l ++ ['\n']) <:+: emitLines firstLine offsetNC ls := by
  induction ls generalizing firstLine offsetNC with
  | nil => simp at h
  | cons x xs ih =>
    rw [emitLines_cons]
    simp only [List.mem_cons] at h
    rcases h with h | h
    · subst h
      have key : ∀ (sp t r : Str),
          (lineText l ++ ['\n']) <:+: sp ++ lineText l ++ ('\n' :: t) ++ r :=
        fun sp t r => ⟨sp, t ++ r, by simp⟩
      by_cases hnl : l.nlAfter = true
      · simp only [hnl, if_true]
        exact key _ _ _
      · simp only [hnl]
        exact key _ _ _
    · exact (ih h false _).trans (List.suffix_append _ _).isInfix

/-- Every line of the sequence `save` built is in the written text, followed by a line
feed. -/
theorem lineText_infix_serialize (ls : List Line) (l : Line) (h : l ∈ ls) :
    (lineText l ++ ['\n']) <:+: serialize ls := by
  obtain ⟨l', hl', ht⟩ := lineText_clearLast ls l h
  unfold serialize
  rw [← ht]
  exact (lineText_infix_emitLines _ l' hl' true 0).trans (List.suffix_append _ _).isInfix

/-! ## Appending a new section -/

theorem walk_noPending (d : IniFile)
    (hn : NoPendingKeys d.m_sections (findSection [] d.m_sections) d.m_cachedLines) :
    (walk d).newLines =
        reconcile d.m_sections (findSection [] d.m_sections) [] d.m_cachedLines ∧
      (walk d).m_sections = d.m_sections := by
  have hseen : SeenRel [] (walkInit d).saved := by
    intro o k
    simp only [walkInit, mapSubscript, mapFind, mapAssign, List.not_mem_nil, false_iff]
    by_cases ho : ([] : Str) = o <;> simp [ho]
  have := walk_foldl_noPending d.m_cachedLines (walkInit d) [] hn hseen
  simpa [walk, walkInit] using this

theorem walk_saved (d : IniFile) (n : Str)
    (h : (mapFind n (walk d).saved).isSome = true) :
    n = [] ∨ ∃ l ∈ d.m_cachedLines, l.type = LINE_T.SEC ∧ l.content = n := by
  rcases walk_foldl_saved d.m_cachedLines (walkInit d) n (Or.inl h) with h1 | h1 | h1
  · left
    simp only [walkInit, mapSubscript, mapFind, mapAssign] at h1
    by_contra hne
    simp [Ne.symm hne] at h1
  · left
    simp only [walkInit, findSection_eq] at h1
    split_ifs at h1
    simp only [Option.some.injEq] at h1
    exact h1.symm
  · exact Or.inr h1

theorem sortedKeys_subscript (sec : Section) (k : Str) (h : SortedKeys (keysOf sec.m_keys)) :
    SortedKeys (keysOf (sec.subscript k).m_keys) := by
  unfold Section.subscript
  cases mapFind k sec.m_keys with
  | none => exact sortedKeys_mapSubscript _ _ _ h
  | some _ => exact h

/-- What `ini[s]` and the assignments `ini[s][k] = v` keep true of a document in which `s`
was missing. -/
theorem createSection_inv (d0 : IniFile) (s : Str) (kvs : List (Str × Str)) :
    ∀ (d : IniFile), d.m_cachedLines = d0.m_cachedLines → d.m_addedSections = [s] →
      (∃ sec, mapFind s d.m_sections = some sec ∧ SortedKeys (keysOf sec.m_keys)) →
      (∀ n, n ≠ s → mapFind n d.m_sections = mapFind n d0.m_sections) →
      (kvs.foldl (fun doc kv => doc.setKey s kv.1 kv.2) d).m_cachedLines = d0.m_cachedLines ∧
        (kvs.foldl (fun doc kv => doc.setKey s kv.1 kv.2) d).m_addedSections = [s] ∧
        (∃ sec, mapFind s (kvs.foldl (fun doc kv => doc.setKey s kv.1 kv.2) d).m_sections =
            some sec ∧ SortedKeys (keysOf sec.m_keys)) ∧
        (∀ n, n ≠ s →
          mapFind n (kvs.foldl (fun doc kv => doc.setKey s kv.1 kv.2) d).m_sections =
            mapFind n d0.m_sections) := by
  induction kvs with
  | nil =>
    intro d h1 h2 h3 h4
    exact ⟨h1, h2, h3, h4⟩
  | cons kv more ih =>
    intro d h1 h2 h3 h4
    obtain ⟨sec, hsec, hsort⟩ := h3
    have hset : d.setKey s kv.1 kv.2 =
        { d with
          m_sections :=
            mapAssign s
              { sec.subscript kv.1 with
                m_keys := mapAssign kv.1 kv.2 (sec.subscript kv.1).m_keys }
              d.m_sections } := by
      simp [IniFile.setKey, IniFile.subscript, hsec]
    rw [List.foldl_cons]
    apply ih
    · rw [hset]; exact h1
    · rw [hset]; exact h2
    · rw [hset]
      exact ⟨_, mapFind_mapAssign_self _ _ _,
        sortedKeys_mapAssign _ _ _ (sortedKeys_subscript sec kv.1 hsort)⟩
    · intro n hn
      rw [hset]
      simp only
      rw [mapFind_mapAssign_ne _ _ _ _ hn]
      exact h4 n hn

theorem mapFind_eq_none_of_isSome_false {V : Type} (k : Str) (m : List (Str × V))
    (h : ¬ (mapFind k m).isSome = true) : mapFind k m = none := by
  cases hf : mapFind k m with
  | none => rfl
  | some x => simp [hf] at h

/-! ## Removing a section with merge -/

theorem mergeKeys_cons (root : Section) (kv : Str × Str) (kvs : List (Str × Str)) :
    mergeKeys root (kv :: kvs) =
      mergeKeys
        { m_keys := mapInsert kv.1 kv.2 root.m_keys,
          m_addedKeys := setInsert kv.1 root.m_addedKeys } kvs := rfl

theorem mapFind_mapInsert {V : Type} (k k2 : Str) (v : V) (m : List (Str × V)) :
    mapFind k2 (mapInsert k v m) =
      match mapFind k2 m with
      | some x => some x
      | none => if k2 = k then some v else none := by
  unfold mapInsert
  cases hf : mapFind k m with
  | none =>
    simp only [mapFind_mapAssign]
    by_cases h : k2 = k
    · subst h; simp [hf]
    · simp only [h, if_false]
      cases mapFind k2 m <;> rfl
  | some x =>
    by_cases h : k2 = k
    · subst h; simp [hf]
    · simp only [h, if_false]
      cases mapFind k2 m <;> rfl

theorem mergeKeys_find (kvs : List (Str × Str)) (root : Section) (k : Str) :
    mapFind k (mergeKeys root kvs).m_keys =
      match mapFind k root.m_keys with
      | some x => some x
      | none => mapFind k kvs := by
  induction kvs generalizing root with
  | nil =>
    simp only [mergeKeys, List.foldl_nil, mapFind]
    cases mapFind k root.m_keys <;> rfl
  | cons kv more ih =>
    rw [mergeKeys_cons, ih]
    simp only [mapFind_mapInsert]
    cases hr : mapFind k root.m_keys with
    | some x => rfl
    | none =>
      simp only [mapFind]
      by_cases h : k = kv.1
      · simp [h]
      · simp [h, Ne.symm h]

theorem mergeKeys_added (kvs : List (Str × Str)) (root : Section) (k : Str) :
    k ∈ (mergeKeys root kvs).m_addedKeys ↔ k ∈ root.m_addedKeys ∨ k ∈ keysOf kvs := by
  induction kvs generalizing root with
  | nil => simp [mergeKeys]
  | cons kv more ih =>
    rw [mergeKeys_cons, ih]
    obtain ⟨a, b⟩ := kv
    simp only [mem_setInsert, keysOf_cons, List.mem_cons]
    tauto

theorem remove_merge (d : IniFile) (s : Str) (found root : Section) (hs : s ≠ [])
    (hf : mapFind s d.m_sections = some found) (hr : mapFind [] d.m_sections = some root) :
    d.remove s false =
      { d with
        m_sections := mapErase s (mapAssign [] (mergeKeys root found.m_keys) d.m_sections),
        m_addedSections := setErase s d.m_addedSections } := by
  have h1 : mapSubscript [] ({} : Section) d.m_sections = d.m_sections := by
    simp [mapSubscript, hr]
  simp [IniFile.remove, hf, hs, h1, hr, mergeKeys]

theorem walkStep_nonsec (st : WalkState) (l : Line) (ht : l.type ≠ LINE_T.SEC) :
    (walkStep st l).currSec = st.currSec ∧ (walkStep st l).isFirst = st.isFirst ∧
      (walkStep st l).m_sections = st.m_sections ∧
      ∃ extra, (walkStep st l).newLines = st.newLines ++ extra ∧
        ∀ x ∈ extra, x.type ≠ LINE_T.SEC := by
  rcases walkStep_cases st l with ⟨_, _, h⟩ | ⟨cs, _, hc, h⟩ | ⟨ht', _, _⟩ | ⟨ht', _, _⟩ |
    ⟨cs, _, _, _, hc, _, _, _, h⟩ | ⟨_, _, _, h⟩
  · rw [h]; exact ⟨rfl, rfl, rfl, [], by simp, by simp⟩
  · rw [h]; exact ⟨rfl, rfl, rfl, [], by simp, by simp⟩
  · exact absurd ht' ht
  · exact absurd ht' ht
  · rw [h]; exact ⟨rfl, rfl, rfl, _, rfl, by simp⟩
  · rw [h]; exact ⟨rfl, rfl, rfl, [l], rfl, by simpa using ht⟩

theorem walk_foldl_nonsec (ls : List Line) (st : WalkState)
    (h : ∀ l ∈ ls, l.type ≠ LINE_T.SEC) :
    (ls.foldl walkStep st).currSec = st.currSec ∧
      (ls.foldl walkStep st).isFirst = st.isFirst ∧
      (ls.foldl walkStep st).m_sections = st.m_sections ∧
      ∃ extra, (ls.foldl walkStep st).newLines = st.newLines ++ extra ∧
        ∀ x ∈ extra, x.type ≠ LINE_T.SEC := by
  induction ls generalizing st with
  | nil => exact ⟨rfl, rfl, rfl, [], by simp, by simp⟩
  | cons l ls ih =>
    obtain ⟨a1, a2, a3, e1, a4, a5⟩ := walkStep_nonsec st l (h l (List.mem_cons_self _ _))
    obtain ⟨b1, b2, b3, e2, b4, b5⟩ :=
      ih (walkStep st l) (fun x hx => h x (List.mem_cons_of_mem _ hx))
    rw [List.foldl_cons]
    refine ⟨b1.trans a1, b2.trans a2, b3.trans a3, e1 ++ e2, ?_, ?_⟩
    · rw [b4, a4, List.append_assoc]
    · intro x hx
      rcases List.mem_append.1 hx with hx | hx
      · exact a5 x hx
      · exact b5 x hx

theorem walkStep_grows (st : WalkState) (l : Line) :
    ∃ extra, (walkStep st l).newLines = st.newLines ++ extra ∧
      ∀ x ∈ extra, x.type = LINE_T.SEC → (mapFind x.content st.m_sections).isSome = true := by
  obtain ⟨fx, hf, hk⟩ := flushAddedKeys_newLines st
  rcases walkStep_cases st l with ⟨_, _, h⟩ | ⟨cs, _, hc, h⟩ | ⟨ht, _, h⟩ | ⟨ht, hm, h⟩ |
    ⟨cs, _, _, _, hc, _, _, _, h⟩ | ⟨_, hr, _, h⟩ <;> rw [h]
  · exact ⟨[], by simp, by simp⟩
  · exact ⟨[], by simp, by simp⟩
  · refine ⟨fx, hf, ?_⟩
    intro x hx hxt
    rw [hk x hx] at hxt
    cases hxt
  · refine ⟨fx ++ [l], by simp [hf], ?_⟩
    intro x hx hxt
    simp only [List.mem_append, List.mem_singleton] at hx
    rcases hx with hx | hx
    · rw [hk x hx] at hxt
      cases hxt
    · rw [hx]; exact hm
  · exact ⟨_, rfl, by simp⟩
  · refine ⟨[l], rfl, ?_⟩
    intro x hx hxt
    simp only [List.mem_singleton] at hx
    subst hx
    rcases hr with hr | hr <;> rw [hr] at hxt <;> cases hxt

theorem walk_foldl_grows (ls : List Line) (st : WalkState) :
    ∃ extra, (ls.foldl walkStep st).newLines = st.newLines ++ extra ∧
      ∀ x ∈ extra, x.type = LINE_T.SEC → (mapFind x.content st.m_sections).isSome = true := by
  induction ls generalizing st with
  | nil => exact ⟨[], by simp, by simp⟩
  | cons l ls ih =>
    obtain ⟨e1, a1, a2⟩ := walkStep_grows st l
    obtain ⟨e2, b1, b2⟩ := ih (walkStep st l)
    rw [List.foldl_cons]
    refine ⟨e1 ++ e2, by rw [b1, a1, List.append_assoc], ?_⟩
    intro x hx hxt
    rcases List.mem_append.1 hx with hx | hx
    · exact a2 x hx hxt
    · rw [← walkStep_dom st l]
      exact b2 x hx hxt

theorem exists_first_header (ls : List Line) (h : ∃ l ∈ ls, l.type = LINE_T.SEC) :
    ∃ pre hd post, ls = pre ++ hd :: post ∧ hd.type = LINE_T.SEC ∧
      ∀ x ∈ pre, x.type ≠ LINE_T.SEC := by
  induction ls with
  | nil => simp at h
  | cons x xs ih =>
    by_cases hx : x.type = LINE_T.SEC
    · exact ⟨[], x, xs, rfl, hx, by simp⟩
    · obtain ⟨l, hl, ht⟩ := h
      have hl' : l ∈ xs := by
        rcases List.mem_cons.1 hl with e | e
        · rw [e] at ht; exact absurd ht hx
        · exact e
      obtain ⟨pre, hd, post, e1, e2, e3⟩ := ih ⟨l, hl', ht⟩
      refine ⟨x :: pre, hd, post, by rw [e1]; rfl, e2, ?_⟩
      intro y hy
      rcases List.mem_cons.1 hy with e | e
      · rw [e]; exact hx
      · exact e3 y e

theorem ownerAfter_nonsec (cur : Str) (ls : List Line) (h : ∀ x ∈ ls, x.type ≠ LINE_T.SEC) :
    ownerAfter cur ls = cur := by
  induction ls with
  | nil => rfl
  | cons x xs ih =>
    rw [ownerAfter, if_neg (h x (List.mem_cons_self _ _))]
    exact ih (fun y hy => h y (List.mem_cons_of_mem _ hy))

/-- A header line of the file is in the line cache. -/
theorem load_header_cached (src : List Char) (l : Line) (h : l ∈ parsedLines src)
    (ht : l.type = LINE_T.SEC) :
    ∃ l' ∈ (load src).m_cachedLines, l'.type = LINE_T.SEC ∧ l'.content = l.content := by
  have h1 : l ∈ (parsedLines src).filter isStored := by
    rw [List.mem_filter]
    exact ⟨h, by simp [isStored, ht]⟩
  rw [← load_cachedLines_unflag, List.mem_map] at h1
  obtain ⟨l', hl', he⟩ := h1
  refine ⟨l', hl', ?_, ?_⟩
  · rw [← ht, ← he]; rfl
  · rw [← he]; rfl

theorem save_of_buildLines (d : IniFile) (ls : List Line) (h : buildLines d = some ls) :
    ∃ d', d.save = some (d', serialize ls) := by
  unfold IniFile.save
  rw [h]
  exact ⟨_, rfl⟩

/-! ## `trim` removes the spaces at both ends -/

theorem stripRight_cons (c : Char) (cs : Str) :
    stripRight (c :: cs) =
      if stripRight cs = [] then (if c = ' ' then [] else [c]) else c :: stripRight cs := by
  rw [stripRight]
  cases h : stripRight cs <;> simp

theorem stripRight_prefix (s : Str) : s.take (stripRight s).length = stripRight s := by
  induction s with
  | nil => rfl
  | cons c cs ih =>
    rw [stripRight_cons]
    by_cases h : stripRight cs = []
    · by_cases hc : c = ' ' <;> simp [h, hc]
    · simp [h, ih]

theorem trimLoop_nonempty (cs : List Char) (out : Str) (n : Nat) (h : out ≠ []) :
    trimLoop cs out n =
      (out ++ cs, if stripRight cs = [] then n else (out ++ stripRight cs).length) := by
  induction cs generalizing out n with
  | nil => simp [trimLoop, stripRight]
  | cons c cs ih =>
    have hlen : out.length ≠ 0 := by
      intro h0
      exact h (List.length_eq_zero.1 h0)
    rw [trimLoop]
    simp only [hlen, ne_eq, not_false_eq_true, true_or, if_true]
    rw [ih _ _ (by simp), stripRight_cons]
    by_cases hs : stripRight cs = []
    · by_cases hc : c = ' '
      · simp [hs, hc]
      · simp [hs, hc]
    · by_cases hc : c = ' '
      · simp [hs, hc]
      · simp [hs, hc]

theorem trim_eq_loop (s : Str) :
    trim s = (trimLoop s [] 0).1.take (trimLoop s [] 0).2 := by
  unfold trim
  by_cases h : s = []
  · subst h; rfl
  · simp [h]

theorem trim_cons_space (s : Str) : trim (' ' :: s) = trim s := by
  rw [trim_eq_loop, trim_eq_loop, trimLoop]
  simp

theorem trimLoop_first (c : Char) (s : Str) (hc : c ≠ ' ') :
    trimLoop (c :: s) [] 0 = trimLoop s [c] 1 := by
  rw [trimLoop]
  simp [hc]

theorem trim_cons_nonspace (c : Char) (s : Str) (hc : c ≠ ' ') :
    trim (c :: s) = stripRight (c :: s) := by
  rw [trim_eq_loop, trimLoop_first c s hc, trimLoop_nonempty _ _ _ (by simp), stripRight_cons]
  by_cases hs : stripRight s = []
  · simp [hs, hc]
  · have := stripRight_prefix s
    simp [hs, this]

/-- The loop of `trim` computes the string without its leading and trailing spaces. -/
theorem trim_eq (s : Str) : trim s = stripSpaces s := by
  unfold stripSpaces
  induction s with
  | nil => rfl
  | cons c cs ih =>
    by_cases hc : c = ' '
    · subst hc
      rw [trim_cons_space, ih]
      simp [List.dropWhile_cons]
    · rw [trim_cons_nonspace c cs hc]
      simp [List.dropWhile_cons, hc]

theorem stripRight_length_le (s : Str) : (stripRight s).length ≤ s.length := by
  induction s with
  | nil => simp [stripRight]
  | cons c cs ih =>
    rw [stripRight_cons]
    split_ifs <;> simp only [List.length_nil, List.length_cons, List.length_singleton] <;>
      omega

theorem mem_stripRight (s : Str) (c : Char) (h : c ∈ stripRight s) : c ∈ s := by
  have := stripRight_prefix s
  rw [← this] at h
  exact List.mem_of_mem_take h

theorem stripRight_eq_self_of_length (s : Str) (h : (stripRight s).length = s.length) :
    stripRight s = s := by
  have := stripRight_prefix s
  rw [h, List.take_length] at this
  exact this.symm

theorem stripRight_append (x y : Str) (h : stripRight y ≠ []) :
    stripRight (x ++ y) = x ++ stripRight y := by
  induction x with
  | nil => rfl
  | cons c cs ih =>
    rw [List.cons_append, stripRight_cons, ih]
    simp [h]

theorem stripRight_append_nonspace (x : Str) (d : Char) (hd : d ≠ ' ') :
    stripRight (x ++ [d]) = x ++ [d] := by
  have h1 : stripRight [d] = [d] := by simp [stripRight, hd]
  rw [stripRight_append x [d] (by rw [h1]; simp), h1]

theorem stripRight_append_space (x : Str) : stripRight (x ++ [' ']) = stripRight x := by
  induction x with
  | nil => rfl
  | cons c cs ih =>
    rw [List.cons_append, stripRight_cons, stripRight_cons, ih]

theorem stripRight_idem (s : Str) : stripRight (stripRight s) = stripRight s := by
  induction s with
  | nil => rfl
  | cons c cs ih =>
    rw [stripRight_cons]
    by_cases h : stripRight cs = []
    · by_cases hc : c = ' ' <;> simp [h, hc, stripRight]
    · simp only [h, if_false]
      rw [stripRight_cons, ih]
      simp [h]

theorem stripRight_head (s : Str) (c : Char) (rest : Str) (h : stripRight s = c :: rest) :
    ∃ rest', s = c :: rest' := by
  cases s with
  | nil => simp [stripRight] at h
  | cons d ds =>
    rw [stripRight_cons] at h
    split_ifs at h <;> simp_all

theorem dropSpaces_head (s : Str) (c : Char) (rest : Str)
    (h : s.dropWhile (fun c => c = ' ') = c :: rest) : c ≠ ' ' := by
  have := List.head_dropWhile_not (fun c => decide (c = ' ')) s (by rw [h]; simp)
  simp only [h, List.head_cons, decide_eq_true_eq] at this
  simpa using this

theorem stripSpaces_cons_space (s : Str) : stripSpaces (' ' :: s) = stripSpaces s := by
  simp [stripSpaces, List.dropWhile_cons]

theorem stripSpaces_cons_nonspace (c : Char) (s : Str) (hc : c ≠ ' ') :
    stripSpaces (c :: s) = stripRight (c :: s) := by
  simp [stripSpaces, List.dropWhile_cons, hc]

theorem stripSpaces_head (s : Str) (c : Char) (rest : Str) (h : stripSpaces s = c :: rest) :
    c ≠ ' ' := by
  obtain ⟨rest', h'⟩ := stripRight_head _ c rest h
  exact dropSpaces_head s c rest' h'

theorem stripSpaces_idem (s : Str) : stripSpaces (stripSpaces s) = stripSpaces s := by
  cases h : stripSpaces s with
  | nil => rfl
  | cons c rest =>
    have hc := stripSpaces_head s c rest h
    rw [stripSpaces_cons_nonspace c rest hc, ← h]
    unfold stripSpaces
    exact stripRight_idem _

theorem trimmed_trim (s : Str) : Trimmed (trim s) := by
  unfold Trimmed
  rw [trim_eq, stripSpaces_idem]

theorem trim_of_trimmed (s : Str) (h : Trimmed s) : trim s = s := by
  rw [trim_eq]
  exact h

theorem mem_stripSpaces (s : Str) (c : Char) (h : c ∈ stripSpaces s) : c ∈ s :=
  (List.dropWhile_sublist _).mem (mem_stripRight _ c h)

theorem mem_trim (s : Str) (c : Char) (h : c ∈ trim s) : c ∈ s := by
  rw [trim_eq] at h
  exact mem_stripSpaces s c h

theorem trimmed_head (s : Str) (c : Char) (rest : Str) (ht : Trimmed s) (h : s = c :: rest) :
    c ≠ ' ' := by
  unfold Trimmed at ht
  rw [h] at ht
  exact stripSpaces_head _ c rest ht

theorem trimmed_stripRight (s : Str) (ht : Trimmed s) : stripRight s = s := by
  cases s with
  | nil => rfl
  | cons c rest =>
    have hc := trimmed_head _ c rest ht rfl
    unfold Trimmed at ht
    rw [stripSpaces_cons_nonspace c rest hc] at ht
    exact ht

theorem trimmed_nil : Trimmed [] := rfl

theorem stripSpaces_append_space (s : Str) : stripSpaces (s ++ [' ']) = stripSpaces s := by
  induction s with
  | nil => rfl
  | cons c cs ih =>
    by_cases hc : c = ' '
    · subst hc
      rw [List.cons_append, stripSpaces_cons_space, stripSpaces_cons_space, ih]
    · rw [List.cons_append, stripSpaces_cons_nonspace _ _ hc, stripSpaces_cons_nonspace _ _ hc,
        ← List.cons_append, stripRight_append_space]

/-! ## Printing a classified line and classifying it again -/

theorem findChar_eq_none (c : Char) (s : Str) : findChar c s = none ↔ c ∉ s := by
  induction s with
  | nil => simp [findChar]
  | cons x xs ih =>
    by_cases h : x = c
    · subst h; simp [findChar]
    · have h' : ¬ c = x := fun e => h e.symm
      simp [findChar, h, h', ih]

theorem findChar_append (c : Char) (x y : Str) (h : c ∉ x) :
    findChar c (x ++ c :: y) = some x.length := by
  induction x with
  | nil => simp [findChar]
  | cons a as ih =>
    have ha : ¬ a = c := fun e => h (by simp [e])
    have has : c ∉ as := fun e => h (List.mem_cons_of_mem _ e)
    simp [findChar, ha, ih has]

theorem findChar_some (c : Char) (s : Str) (i : Nat) (h : findChar c s = some i) :
    c ∉ s.take i ∧ s = s.take i ++ c :: s.drop (i + 1) := by
  induction s generalizing i with
  | nil => simp [findChar] at h
  | cons x xs ih =>
    by_cases hx : x = c
    · subst hx
      simp only [findChar, if_true, Option.some.injEq] at h
      subst h
      simp
    · simp only [findChar, hx, if_false, Option.map_eq_some'] at h
      obtain ⟨j, hj, rfl⟩ := h
      obtain ⟨h1, h2⟩ := ih j hj
      refine ⟨?_, ?_⟩
      · simp only [List.take_succ_cons, List.mem_cons, not_or]
        exact ⟨fun e => hx e.symm, h1⟩
      · simp only [List.take_succ_cons, List.drop_succ_cons, List.cons_append]
        rw [← h2]

theorem trimmed_ne_nil_stripRight (v : Str) (ht : Trimmed v) (hv : v ≠ []) :
    stripRight v ≠ [] := by
  rw [trimmed_stripRight v ht]
  exact hv

/-- The trimmed text of a `key = value` line: the space next to an empty key or an empty
value is trimmed away. -/
theorem trim_keyValue (k v : Str) (hk : Trimmed k) (hv : Trimmed v) :
    trim (k ++ [' ', '=', ' '] ++ v) =
      (if k = [] then [] else k ++ [' ']) ++ '=' :: (if v = [] then [] else ' ' :: v) := by
  rw [trim_eq]
  have hright : stripRight ('=' :: ' ' :: v) = '=' :: (if v = [] then [] else ' ' :: v) := by
    by_cases hv0 : v = []
    · subst hv0
      rfl
    · have : stripRight (['=', ' '] ++ v) = ['=', ' '] ++ stripRight v :=
        stripRight_append _ _ (trimmed_ne_nil_stripRight v hv hv0)
      rw [trimmed_stripRight v hv] at this
      simpa [hv0] using this
  cases k with
  | nil =>
    simp only [List.nil_append, List.cons_append, if_true]
    rw [stripSpaces_cons_space, stripSpaces_cons_nonspace _ _ (by decide), hright]
  | cons c rest =>
    have hc := trimmed_head _ c rest hk rfl
    simp only [List.cons_append, List.append_assoc, List.nil_append, reduceCtorEq, if_false]
    rw [stripSpaces_cons_nonspace _ _ hc]
    have h2 : stripRight ((c :: rest ++ [' ']) ++ ('=' :: ' ' :: v)) =
        (c :: rest ++ [' ']) ++ stripRight ('=' :: ' ' :: v) :=
      stripRight_append _ _ (by rw [hright]; simp)
    rw [hright] at h2
    simpa using h2

theorem trim_space_value (v : Str) (hv : Trimmed v) :
    trim (if v = [] then [] else ' ' :: v) = v := by
  by_cases h : v = []
  · subst h; rfl
  · rw [if_neg h, trim_cons_space, trim_of_trimmed v hv]

theorem trim_key_space (k : Str) (hk : Trimmed k) :
    trim (if k = [] then [] else k ++ [' ']) = k := by
  by_cases h : k = []
  · subst h; rfl
  · rw [if_neg h, trim_eq, stripSpaces_append_space]
    exact hk

theorem drop_length_succ (a : Str) (c : Char) (b : Str) :
    (a ++ c :: b).drop (a.length + 1) = b := by
  induction a with
  | nil => rfl
  | cons x xs ih => simp [ih]

theorem take_length_append (a b : Str) : (a ++ b).take a.length = a := by
  induction a with
  | nil => rfl
  | cons x xs ih => simp [ih]

theorem classify_header (x : Str) :
    classify ('[' :: x) =
      { type := LINE_T.SEC, content := trim (resizeAtBracket (' ' :: x)) } := by
  simp [classify]

theorem classify_lineText (l : Line) (h : Canon l) :
    classify (trim (lineText l)) = unflag l := by
  obtain ⟨t, c, v, nl⟩ := l
  cases t with
  | NL => simp [Canon] at h
  | COMMENT =>
    simp only [Canon] at h
    obtain ⟨ht, _, ⟨c0, rest, hc, hc0⟩, hv⟩ := h
    subst hc hv
    simp only [lineText, unflag]
    rw [trim_of_trimmed _ ht]
    simp [classify, hc0]
  | INVALID =>
    simp only [Canon] at h
    obtain ⟨ht, _, heq, ⟨c0, rest, hc, h1, h2, h3⟩, hv⟩ := h
    subst hv
    simp only [lineText, unflag]
    rw [trim_of_trimmed _ ht]
    have hf := (findChar_eq_none '=' c).2 heq
    subst hc
    simp only [classify, h1, h2, h3, or_self, if_false]
    rw [hf]
  | SEC =>
    simp only [Canon] at h
    obtain ⟨ht, _, hbr, hv⟩ := h
    subst hv
    simp only [lineText, unflag]
    have h1 : trim (['['] ++ c ++ [']']) = ['['] ++ c ++ [']'] := by
      rw [trim_eq, List.append_assoc, List.singleton_append,
        stripSpaces_cons_nonspace _ _ (by decide), ← List.singleton_append,
        ← List.append_assoc, stripRight_append_nonspace _ _ (by decide)]
    rw [h1]
    have h2 : findChar ']' ((' ' :: c) ++ ']' :: []) = some (' ' :: c).length :=
      findChar_append ']' (' ' :: c) []
        (by simp only [List.mem_cons, not_or]; exact ⟨by decide, hbr⟩)
    have h3 : ['['] ++ c ++ [']'] = '[' :: (c ++ [']']) := by simp
    have h4 : ' ' :: (c ++ [']']) = (' ' :: c) ++ ']' :: [] := by simp
    rw [h3, classify_header, h4, resizeAtBracket, h2]
    simp only [take_length_append, trim_cons_space, trim_of_trimmed c ht]
  | KEYVAL =>
    simp only [Canon] at h
    obtain ⟨⟨hkt, _, hkeq, hk0⟩, ⟨hvt, _⟩⟩ := h
    simp only [lineText, unflag]
    rw [trim_keyValue c v hkt hvt]
    have hnot : '=' ∉ (if c = [] then [] else c ++ [' ']) := by
      by_cases hc : c = []
      · simp [hc]
      · simp only [hc, if_false, List.mem_append, List.mem_singleton, not_or]
        exact ⟨hkeq, by decide⟩
    have hfind := findChar_append '=' _ (if v = [] then [] else ' ' :: v) hnot
    -- the first character is neither a comment marker nor a bracket
    cases hT : (if c = [] then [] else c ++ [' ']) ++ '=' :: (if v = [] then [] else ' ' :: v)
      with
    | nil => simp at hT
    | cons c0 tl =>
      have hc0 : c0 ≠ ';' ∧ c0 ≠ '#' ∧ c0 ≠ '[' := by
        cases c with
        | nil =>
          simp only [if_true, List.nil_append, List.cons.injEq] at hT
          rw [← hT.1]
          decide
        | cons k0 krest =>
          simp only [reduceCtorEq, if_false, List.cons_append, List.cons.injEq] at hT
          rw [← hT.1]
          exact hk0 k0 krest rfl
      rw [hT] at hfind
      simp only [classify, hc0.1, hc0.2.1, hc0.2.2, or_self, if_false, hfind]
      rw [← hT, take_length_append, drop_length_succ, trim_key_space c hkt,
        trim_space_value v hvt]

theorem noBreak_of_subset (a b : Str) (h : ∀ c ∈ a, c ∈ b) (hb : NoBreak b) : NoBreak a :=
  ⟨fun e => hb.1 (h _ e), fun e => hb.2 (h _ e)⟩

theorem noBreak_trim (s : Str) (h : NoBreak s) : NoBreak (trim s) :=
  noBreak_of_subset _ _ (fun c hc => mem_trim s c hc) h

theorem mem_resizeAtBracket (s : Str) (c : Char) (h : c ∈ resizeAtBracket s) : c ∈ s := by
  unfold resizeAtBracket at h
  cases hf : findChar ']' s with
  | none => rw [hf] at h; exact h
  | some i => rw [hf] at h; exact List.mem_of_mem_take h

theorem bracket_not_mem_resizeAtBracket (s : Str) : ']' ∉ resizeAtBracket s := by
  unfold resizeAtBracket
  cases hf : findChar ']' s with
  | none => exact (findChar_eq_none _ _).1 hf
  | some i => exact (findChar_some _ _ _ hf).1

/-- Every line the classifier makes of a physical line is canonical, blank lines
excepted. -/
theorem canon_classify (s : Str) (hs : NoBreak s) (hn : (classify (trim s)).type ≠ LINE_T.NL) :
    Canon (classify (trim s)) := by
  have ht := trimmed_trim s
  have hb := noBreak_trim s hs
  cases hT : trim s with
  | nil =>
    rw [hT] at hn
    simp [classify] at hn
  | cons c0 tl =>
    rw [hT] at ht hb
    have hc0 : c0 ≠ ' ' := trimmed_head _ c0 tl ht rfl
    by_cases hcm : c0 = ';' ∨ c0 = '#'
    · have : classify (c0 :: tl) = { type := LINE_T.COMMENT, content := c0 :: tl } := by
        simp [classify, hcm]
      rw [this]
      exact ⟨ht, hb, ⟨c0, tl, rfl, hcm⟩, rfl⟩
    · by_cases hbr : c0 = '['
      · subst hbr
        rw [classify_header]
        refine ⟨trimmed_trim _, ?_, ?_, rfl⟩
        · apply noBreak_trim
          apply noBreak_of_subset _ (' ' :: tl) (fun c hc => mem_resizeAtBracket _ c hc)
          constructor
          · simp only [List.mem_cons, not_or]
            exact ⟨by decide, fun e => hb.1 (List.mem_cons_of_mem _ e)⟩
          · simp only [List.mem_cons, not_or]
            exact ⟨by decide, fun e => hb.2 (List.mem_cons_of_mem _ e)⟩
        · intro e
          exact bracket_not_mem_resizeAtBracket _ (mem_trim _ _ e)
      · have hsp : c0 ≠ ';' ∧ c0 ≠ '#' ∧ c0 ≠ '[' := by
          simp only [not_or] at hcm
          exact ⟨hcm.1, hcm.2, hbr⟩
        cases hf : findChar '=' (c0 :: tl) with
        | none =>
          have : classify (c0 :: tl) = { type := LINE_T.INVALID, content := c0 :: tl } := by
            simp [classify, hcm, hbr, hf]
          rw [this]
          exact ⟨ht, hb, (findChar_eq_none _ _).1 hf, ⟨c0, tl, rfl, hsp⟩, rfl⟩
        | some i =>
          have : classify (c0 :: tl) =
              { type := LINE_T.KEYVAL, content := trim ((c0 :: tl).take i),
                value := trim ((c0 :: tl).drop (i + 1)) } := by
            simp [classify, hcm, hbr, hf]
          rw [this]
          obtain ⟨hnot, _⟩ := findChar_some _ _ _ hf
          refine ⟨⟨trimmed_trim _, ?_, ?_, ?_⟩, ⟨trimmed_trim _, ?_⟩⟩
          · exact noBreak_trim _ (noBreak_of_subset _ _ (fun c hc => List.mem_of_mem_take hc) hb)
          · intro e
            exact hnot (mem_trim _ _ e)
          · intro c rest hk
            cases i with
            | zero => simp [trim, trimLoop] at hk
            | succ j =>
              rw [List.take_succ_cons, trim_eq, stripSpaces_cons_nonspace _ _ hc0] at hk
              obtain ⟨rest', hr⟩ := stripRight_head _ c rest hk
              simp only [List.cons.injEq] at hr
              rw [← hr.1]
              exact hsp
          · exact noBreak_trim _ (noBreak_of_subset _ _ (fun c hc => List.mem_of_mem_drop hc) hb)

theorem lineText_noBreak (l : Line) (h : Canon l) : NoBreak (lineText l) := by
  obtain ⟨t, c, v, nl⟩ := l
  cases t with
  | NL => simp [Canon] at h
  | COMMENT => exact h.2.1
  | INVALID => exact h.2.1
  | SEC =>
    simp only [Canon] at h
    obtain ⟨_, hb, _, _⟩ := h
    simp only [lineText, NoBreak, List.mem_append, List.mem_singleton, not_or]
    exact ⟨⟨⟨by decide, hb.1⟩, by decide⟩, ⟨⟨by decide, hb.2⟩, by decide⟩⟩
  | KEYVAL =>
    simp only [Canon] at h
    obtain ⟨⟨_, hk, _, _⟩, ⟨_, hv⟩⟩ := h
    simp only [lineText, NoBreak, List.mem_append, List.mem_cons, List.mem_singleton, not_or,
      List.not_mem_nil, or_false]
    exact ⟨⟨⟨hk.1, by decide, by decide, by decide⟩, hv.1⟩,
      ⟨⟨hk.2, by decide, by decide, by decide⟩, hv.2⟩⟩

theorem canon_flag (l : Line) (nl : Bool) (h : Canon l) : Canon { l with nlAfter := nl } := by
  obtain ⟨t, c, v, x⟩ := l
  cases t <;> exact h

/-! ## Reading back what `save` wrote -/

theorem rawLines_line (a rest : List Char) (h : '\n' ∉ a) :
    rawLines (a ++ '\n' :: rest) = a :: rawLines rest := by
  induction a with
  | nil => simp [rawLines]
  | cons c cs ih =>
    have hc : c ≠ '\n' := fun e => h (by simp [e])
    have hcs : '\n' ∉ cs := fun e => h (List.mem_cons_of_mem _ e)
    rw [List.cons_append, rawLines]
    simp only [hc, if_false]
    rw [ih hcs]

theorem mem_rawLines (src : List Char) (raw : List Char) (h : raw ∈ rawLines src) :
    '\n' ∉ raw := by
  induction src generalizing raw with
  | nil => simp [rawLines] at h
  | cons c cs ih =>
    rw [rawLines] at h
    by_cases hc : c = '\n'
    · simp only [hc, if_true, List.mem_cons] at h
      rcases h with h | h
      · rw [h]; simp
      · exact ih raw h
    · simp only [hc, if_false] at h
      cases hr : rawLines cs with
      | nil =>
        rw [hr] at h
        simp only [List.mem_singleton] at h
        rw [h]
        simp only [List.mem_singleton]
        exact fun e => hc e.symm
      | cons l ls =>
        rw [hr] at h
        simp only [List.mem_cons] at h
        rcases h with h | h
        · rw [h]
          simp only [List.mem_cons, not_or]
          exact ⟨fun e => hc e.symm, ih l (by rw [hr]; simp)⟩
        · exact ih raw (by rw [hr]; exact List.mem_cons_of_mem _ h)

theorem filter_noCR (a : Str) (h : '\r' ∉ a) : a.filter (fun c => c ≠ '\r') = a := by
  rw [List.filter_eq_self]
  intro c hc
  simp only [ne_eq, decide_not, Bool.not_eq_true', decide_eq_false_iff_not]
  exact fun e => h (e ▸ hc)

theorem parsedLines_blank (rest : List Char) :
    parsedLines ('\n' :: rest) = ({} : Line) :: parsedLines rest := by
  unfold parsedLines
  rw [show ('\n' :: rest) = [] ++ '\n' :: rest from rfl, rawLines_line [] rest (by simp)]
  rfl

theorem parsedLines_lineText (l : Line) (rest : List Char) (h : Canon l) :
    parsedLines (lineText l ++ '\n' :: rest) = unflag l :: parsedLines rest := by
  obtain ⟨h1, h2⟩ := lineText_noBreak l h
  unfold parsedLines
  rw [rawLines_line _ rest h1, List.map_cons, filter_noCR _ h2, classify_lineText l h]

/-- Every stored line of a file is canonical. -/
theorem canon_parsedLines (src : List Char) (l : Line) (h : l ∈ parsedLines src)
    (hn : l.type ≠ LINE_T.NL) : Canon l := by
  simp only [parsedLines, List.mem_map] at h
  obtain ⟨raw, hraw, rfl⟩ := h
  apply canon_classify _ _ hn
  constructor
  · intro e
    exact mem_rawLines src raw hraw (List.mem_of_mem_filter e)
  · intro e
    have := List.of_mem_filter e
    simp at this

theorem canon_unflag (l : Line) : Canon (unflag l) ↔ Canon l := by
  obtain ⟨t, c, v, x⟩ := l
  cases t <;> exact Iff.rfl

theorem canon_cache (src : List Char) (l : Line) (h : l ∈ (load src).m_cachedLines) :
    Canon l := by
  have h1 : unflag l ∈ (load src).m_cachedLines.map unflag := List.mem_map_of_mem _ h
  rw [load_cachedLines_unflag] at h1
  have h2 := List.mem_of_mem_filter h1
  have h3 : (unflag l).type ≠ LINE_T.NL := by
    have := List.of_mem_filter h1
    simpa [isStored] using this
  exact (canon_unflag l).1 (canon_parsedLines src _ h2 h3)

theorem emitParsed_cons (firstLine : Bool) (offsetNC : Int) (line : Line) (more : List Line) :
    emitParsed firstLine offsetNC (line :: more) =
      (if line.type = LINE_T.SEC ∧ 2 - offsetNC > 0 ∧ (!firstLine) = true then
          (if 2 - offsetNC = 1 then [({} : Line)] else [({} : Line), ({} : Line)])
        else []) ++ [unflag line] ++ (if line.nlAfter then [({} : Line)] else [])
        ++ emitParsed false
          (if line.type ≠ LINE_T.COMMENT then (if line.nlAfter then 1 else 0) else offsetNC)
          more := rfl

/-- Reading the text of the serialisation loop line by line. -/
theorem parsedLines_emitLines (ls : List Line) (h : ∀ l ∈ ls, Canon l) (firstLine : Bool)
    (offsetNC : Int) (rest : List Char) :
    parsedLines (emitLines firstLine offsetNC ls ++ rest) =
      emitParsed firstLine offsetNC ls ++ parsedLines rest := by
  induction ls generalizing firstLine offsetNC with
  | nil => simp [emitLines, emitParsed]
  | cons l ls ih =>
    have hl := h l (List.mem_cons_self _ _)
    have ih' := fun f o => ih (fun x hx => h x (List.mem_cons_of_mem _ hx)) f o
    rw [emitLines_cons, emitParsed_cons]
    generalize (if l.type ≠ LINE_T.COMMENT then (if l.nlAfter then 1 else 0) else offsetNC)
      = o1
    -- the text of the line itself with its line feeds
    have hbody : ∀ tail : List Char,
        parsedLines (lineText l ++ (if l.nlAfter then ['\n', '\n'] else ['\n']) ++ tail) =
          [unflag l] ++ (if l.nlAfter then [({} : Line)] else []) ++ parsedLines tail := by
      intro tail
      by_cases hnl : l.nlAfter = true
      · simp only [hnl, if_true, List.append_assoc, List.cons_append, List.nil_append]
        rw [parsedLines_lineText l _ hl, parsedLines_blank]
      · simp only [hnl, Bool.false_eq_true, if_false, List.append_assoc, List.cons_append,
          List.nil_append]
        rw [parsedLines_lineText l _ hl]
    -- the spacing in front of a header
    have hspace : ∀ tail : List Char,
        parsedLines
          ((if l.type = LINE_T.SEC ∧ 2 - offsetNC > 0 ∧ (!firstLine) = true then
              (if 2 - offsetNC = 1 then ['\n'] else ['\n', '\n'])
            else []) ++ tail) =
          (if l.type = LINE_T.SEC ∧ 2 - offsetNC > 0 ∧ (!firstLine) = true then
              (if 2 - offsetNC = 1 then [({} : Line)] else [({} : Line), ({} : Line)])
            else []) ++ parsedLines tail := by
      intro tail
      by_cases hsp : l.type = LINE_T.SEC ∧ 2 - offsetNC > 0 ∧ (!firstLine) = true
      · rw [if_pos hsp, if_pos hsp]
        by_cases h1 : 2 - offsetNC = 1
        · rw [if_pos h1, if_pos h1]
          exact parsedLines_blank tail
        · rw [if_neg h1, if_neg h1]
          simp only [List.cons_append, List.nil_append]
          rw [parsedLines_blank, parsedLines_blank]
      · rw [if_neg hsp, if_neg hsp]
        rfl
    simp only [List.append_assoc] at hbody hspace ⊢
    rw [hspace, hbody, ih']

theorem markLast_append_singleton (c : List Line) (l : Line) :
    markLast (c ++ [l]) = c ++ [{ l with nlAfter := true }] := by
  induction c with
  | nil => rfl
  | cons x xs ih =>
    cases hxs : xs ++ [l] with
    | nil => simp at hxs
    | cons y ys =>
      rw [List.cons_append, hxs, markLast, ← hxs, ih]
      rfl

theorem markLast_length (c : List Line) : (markLast c).length = c.length := by
  induction c using markLast.induct with
  | case1 => rfl
  | case2 x => rfl
  | case3 x y ys ih => simp [markLast, ih]

theorem markLast_idem (c : List Line) : markLast (markLast c) = markLast c := by
  induction c using markLast.induct with
  | case1 => rfl
  | case2 x => rfl
  | case3 x y ys ih =>
    rw [markLast]
    cases hm : markLast (y :: ys) with
    | nil =>
      have := markLast_length (y :: ys)
      rw [hm] at this
      simp at this
    | cons z zs =>
      rw [hm] at ih
      rw [markLast, ih]

theorem openStep_cache_blank (st : OpenState) (l : Line) (h : l.type = LINE_T.NL) :
    (openStep st l).m_cachedLines = markLast st.m_cachedLines := by
  simp [openStep, h]

theorem openStep_cache_stored (st : OpenState) (l : Line) (h : l.type ≠ LINE_T.NL) :
    (openStep st l).m_cachedLines = st.m_cachedLines ++ [l] := by
  unfold openStep
  cases ht : l.type <;> simp_all

theorem collapse_cons (l : Line) (rest : List Line) :
    collapse (l :: rest) =
      if l.type = LINE_T.NL then collapse rest
      else { l with nlAfter := l.nlAfter || headIs LINE_T.NL rest } :: collapse rest := rfl

theorem headIs_cons (t : LINE_T) (l : Line) (rest : List Line) :
    headIs t (l :: rest) = decide (l.type = t) := rfl

theorem foldl_openStep_cache (ps : List Line) (st : OpenState) :
    (ps.foldl openStep st).m_cachedLines =
      (if headIs LINE_T.NL ps = true then markLast st.m_cachedLines else st.m_cachedLines) ++
        collapse ps := by
  induction ps generalizing st with
  | nil => simp [headIs, collapse]
  | cons l rest ih =>
    rw [List.foldl_cons, ih, collapse_cons]
    by_cases h : l.type = LINE_T.NL
    · rw [openStep_cache_blank st l h]
      simp only [headIs_cons, h, decide_True, if_true, markLast_idem]
      split_ifs <;> rfl
    · rw [openStep_cache_stored st l h]
      simp only [headIs_cons, h, decide_False, Bool.false_eq_true, if_false,
        markLast_append_singleton]
      by_cases hb : headIs LINE_T.NL rest = true
      · simp [hb]
      · simp [hb]

/-- The line cache as a function of the classified physical lines. -/
theorem load_cache_collapse (src : List Char) :
    (load src).m_cachedLines = collapse (parsedLines src) := by
  rw [load_cachedLines, foldl_openStep_cache]
  simp [markLast]

theorem collapse_blank_append (x : List Line) :
    collapse (({} : Line) :: x) = collapse x := rfl

theorem headIs_emitParsed (ls : List Line) (o : Int) (ho : o < 2)
    (h : ∀ l ∈ ls, l.type ≠ LINE_T.NL) :
    headIs LINE_T.NL (emitParsed false o ls) = headIs LINE_T.SEC ls := by
  cases ls with
  | nil => rfl
  | cons l rest =>
    have hl := h l (List.mem_cons_self _ _)
    rw [emitParsed_cons]
    by_cases hs : l.type = LINE_T.SEC
    · have hc : l.type = LINE_T.SEC ∧ 2 - o > 0 ∧ (!false) = true := ⟨hs, by omega, rfl⟩
      rw [if_pos hc]
      by_cases h1 : 2 - o = 1
      · rw [if_pos h1]
        simp [headIs_cons, hs]
      · rw [if_neg h1]
        simp [headIs_cons, hs]
    · have hc : ¬ (l.type = LINE_T.SEC ∧ 2 - o > 0 ∧ (!false) = true) := fun e => hs e.1
      rw [if_neg hc]
      simp [headIs_cons, hs, unflag, hl]

/-- Reading what the serialisation loop wrote gives the same lines, flagged where a blank
line followed. -/
theorem collapse_emitParsed (ls : List Line) (h : ∀ l ∈ ls, l.type ≠ LINE_T.NL)
    (firstLine : Bool) (o : Int) (ho : o < 2) :
    collapse (emitParsed firstLine o ls) = reflag ls := by
  induction ls generalizing firstLine o with
  | nil => rfl
  | cons l rest ih =>
    have hl := h l (List.mem_cons_self _ _)
    have hrest : ∀ x ∈ rest, x.type ≠ LINE_T.NL := fun x hx => h x (List.mem_cons_of_mem _ hx)
    rw [emitParsed_cons]
    have ho1 : (if l.type ≠ LINE_T.COMMENT then (if l.nlAfter then (1 : Int) else 0) else o) < 2 := by
      split_ifs <;> omega
    generalize (if l.type ≠ LINE_T.COMMENT then (if l.nlAfter then (1 : Int) else 0) else o)
      = o1 at ho1
    have hsp : ∀ x : List Line,
        collapse
          ((if l.type = LINE_T.SEC ∧ 2 - o > 0 ∧ (!firstLine) = true then
              (if 2 - o = 1 then [({} : Line)] else [({} : Line), ({} : Line)])
            else []) ++ x) = collapse x := by
      intro x
      split_ifs <;> rfl
    simp only [List.append_assoc]
    rw [hsp, List.singleton_append, collapse_cons]
    have hu : (unflag l).type ≠ LINE_T.NL := hl
    rw [if_neg hu]
    have hc : collapse ((if l.nlAfter then [({} : Line)] else []) ++ emitParsed false o1 rest) =
        reflag rest := by
      rw [← ih hrest false o1 ho1]
      split_ifs <;> rfl
    have hh : headIs LINE_T.NL
        ((if l.nlAfter then [({} : Line)] else []) ++ emitParsed false o1 rest) =
        (l.nlAfter || headIs LINE_T.SEC rest) := by
      rw [← headIs_emitParsed rest o1 ho1 hrest]
      by_cases hn : l.nlAfter = true
      · simp [hn, headIs_cons]
      · simp [hn]
    rw [hc, hh, reflag]
    simp [unflag]

theorem canon_clearLast (ls : List Line) (h : ∀ l ∈ ls, Canon l) :
    ∀ l ∈ clearLast ls, Canon l := by
  induction ls using clearLast.induct with
  | case1 => simp [clearLast]
  | case2 x =>
    intro l hl
    simp only [clearLast, List.mem_singleton] at hl
    rw [hl]
    exact canon_flag x false (h x (by simp))
  | case3 x y ys ih =>
    intro l hl
    rw [clearLast] at hl
    rcases List.mem_cons.1 hl with e | e
    · rw [e]; exact h x (by simp)
    · exact ih (fun z hz => h z (List.mem_cons_of_mem _ hz)) l e

theorem canon_not_blank (l : Line) (h : Canon l) : l.type ≠ LINE_T.NL := by
  intro e
  obtain ⟨t, c, v, x⟩ := l
  simp only at e
  subst e
  exact h

/-- The line cache after `save` wrote a canonical line sequence and `open` read the text. -/
theorem load_serialize_cache (ls : List Line) (h : ∀ l ∈ ls, Canon l) :
    (load (serialize ls)).m_cachedLines = reflag (clearLast ls) := by
  have hc := canon_clearLast ls h
  have hn : ∀ l ∈ clearLast ls, l.type ≠ LINE_T.NL := fun l hl => canon_not_blank l (hc l hl)
  rw [load_cache_collapse]
  unfold serialize
  simp only
  have hp := parsedLines_emitLines (clearLast ls) hc true 0 []
  simp only [List.append_nil] at hp
  by_cases he : (clearLast ls).length ≠ 0
  · rw [if_pos he]
    simp only [List.singleton_append]
    rw [parsedLines_blank, hp]
    have : parsedLines [] = [] := rfl
    rw [this, List.append_nil, collapse_blank_append]
    exact collapse_emitParsed _ hn true 0 (by omega)
  · rw [if_neg he, List.nil_append, hp]
    have : parsedLines [] = [] := rfl
    rw [this, List.append_nil]
    exact collapse_emitParsed _ hn true 0 (by omega)

/-! ## The line sequence `save` builds for a loaded document -/

theorem ownedKeys_cons (cur : Str) (l : Line) (ls : List Line) :
    ownedKeys cur (l :: ls) =
      if l.type = LINE_T.SEC then ownedKeys l.content ls
      else if l.type = LINE_T.KEYVAL then (cur, l.content) :: ownedKeys cur ls
      else ownedKeys cur ls := rfl

theorem lastValue_mem (s k : Str) (ls : List Line) (cur v : Str)
    (h : lastValue s k cur ls = some v) :
    ∃ l ∈ ls, l.type = LINE_T.KEYVAL ∧ l.content = k ∧ l.value = v := by
  induction ls generalizing cur with
  | nil => simp [lastValue] at h
  | cons l ls ih =>
    rw [lastValue_cons] at h
    cases hv : lastValue s k (if l.type = LINE_T.SEC then l.content else cur) ls with
    | some w =>
      rw [hv] at h
      simp only [Option.some.injEq] at h
      subst h
      obtain ⟨x, hx, h3⟩ := ih _ hv
      exact ⟨x, List.mem_cons_of_mem _ hx, h3⟩
    | none =>
      rw [hv] at h
      simp only at h
      split_ifs at h with hc
      simp only [Option.some.injEq] at h
      exact ⟨l, List.mem_cons_self _ _, hc.1, hc.2.2, h⟩

theorem lastValue_none_of_not_mem (s k : Str) (ls : List Line) (cur : Str)
    (h : (s, k) ∉ ownedKeys cur ls) : lastValue s k cur ls = none := by
  induction ls generalizing cur with
  | nil => rfl
  | cons l ls ih =>
    rw [ownedKeys_cons] at h
    rw [lastValue_cons]
    by_cases hsec : l.type = LINE_T.SEC
    · simp only [hsec, if_true] at h ⊢
      rw [ih _ h]
      simp
    · simp only [hsec, if_false] at h ⊢
      by_cases hkv : l.type = LINE_T.KEYVAL
      · simp only [hkv, if_true, List.mem_cons, not_or, Prod.mk.injEq] at h
        rw [ih _ h.2]
        simp only [hkv, true_and]
        rw [if_neg]
        intro e
        exact h.1 ⟨e.1.symm, e.2.symm⟩
      · simp only [hkv, if_false] at h
        rw [ih _ h]
        simp [hkv]

theorem lastValue_isSome_of_mem (s k : Str) (ls : List Line) (cur : Str)
    (h : (s, k) ∈ ownedKeys cur ls) : (lastValue s k cur ls).isSome = true := by
  induction ls generalizing cur with
  | nil => simp [ownedKeys] at h
  | cons l ls ih =>
    rw [ownedKeys_cons] at h
    rw [lastValue_cons]
    by_cases hsec : l.type = LINE_T.SEC
    · simp only [hsec, if_true] at h ⊢
      have := ih _ h
      cases hv : lastValue s k l.content ls with
      | none => rw [hv] at this; cases this
      | some w => rfl
    · simp only [hsec, if_false] at h ⊢
      cases hv : lastValue s k cur ls with
      | some w => rfl
      | none =>
        by_cases hkv : l.type = LINE_T.KEYVAL
        · simp only [hkv, if_true, List.mem_cons, Prod.mk.injEq] at h
          rcases h with h | h
          · simp [hkv, h.1, h.2]
          · have := ih _ h
            rw [hv] at this
            cases this
        · simp only [hkv, if_false] at h
          have := ih _ h
          rw [hv] at this
          cases this

theorem remark_of_not (l : Line) (h1 : l.type ≠ LINE_T.NL) (h2 : l.type ≠ LINE_T.SEC)
    (h3 : l.type ≠ LINE_T.KEYVAL) : l.type = LINE_T.COMMENT ∨ l.type = LINE_T.INVALID := by
  revert h1 h2 h3
  cases l.type <;> simp

theorem line_eta_keyval (l : Line) (h : l.type = LINE_T.KEYVAL) :
    ({ type := LINE_T.KEYVAL, content := l.content, value := l.value,
       nlAfter := l.nlAfter } : Line) = l := by
  obtain ⟨t, c, v, x⟩ := l
  simp only at h
  subst h
  rfl

/-- A line sequence without blank lines and without a second line for any key, whose headers
name sections of the model and whose values are those of the model, is what the walk builds
from it. -/
theorem reconcile_fixed (secs : List (Str × Section)) (ls : List Line) :
    ∀ (cur : Str) (seen : List (Str × Str)),
      (∀ l ∈ ls, l.type ≠ LINE_T.NL) → HeadersLive secs ls →
      (ownedKeys cur ls).Nodup → (∀ p ∈ ownedKeys cur ls, p ∉ seen) →
      (∀ o k, (o, k) ∈ ownedKeys cur ls → lookupKey secs o k = lastValue o k cur ls) →
      reconcile secs (some cur) seen ls = ls := by
  induction ls with
  | nil => intros; rfl
  | cons l ls ih =>
    intro cur seen hnl hlive hnd hseen hval
    have hnl' : ∀ x ∈ ls, x.type ≠ LINE_T.NL := fun x hx => hnl x (List.mem_cons_of_mem _ hx)
    have hlive' : HeadersLive secs ls := fun x hx => hlive x (List.mem_cons_of_mem _ hx)
    rw [reconcile_cons]
    rw [ownedKeys_cons] at hnd hseen
    by_cases hsec : l.type = LINE_T.SEC
    · simp only [hsec, if_true] at hnd hseen ⊢
      rw [if_pos (hlive l (List.mem_cons_self _ _) hsec)]
      have hval' : ∀ o k, (o, k) ∈ ownedKeys l.content ls →
          lookupKey secs o k = lastValue o k l.content ls := by
        intro o k hm
        have h1 := hval o k (by rw [ownedKeys_cons]; simpa [hsec] using hm)
        rw [h1, lastValue_cons]
        simp only [hsec, if_true]
        have := lastValue_isSome_of_mem o k ls l.content hm
        cases hv : lastValue o k l.content ls with
        | none => rw [hv] at this; cases this
        | some w => rfl
      rw [ih l.content seen hnl' hlive' hnd hseen hval']
    · simp only [hsec, if_false] at hnd hseen ⊢
      by_cases hkv : l.type = LINE_T.KEYVAL
      · simp only [hkv, if_true] at hnd hseen ⊢
        have hnd' := List.nodup_cons.1 hnd
        have hlk : lookupKey secs cur l.content = some l.value := by
          have h1 := hval cur l.content (by rw [ownedKeys_cons]; simp [hsec, hkv])
          rw [h1, lastValue_cons]
          simp only [hsec, if_false]
          rw [lastValue_none_of_not_mem _ _ _ _ hnd'.1]
          simp [hkv]
        have hns : (cur, l.content) ∉ seen := hseen _ (List.mem_cons_self _ _)
        have hval' : ∀ o k, (o, k) ∈ ownedKeys cur ls →
            lookupKey secs o k = lastValue o k cur ls := by
          intro o k hm
          have h1 := hval o k (by
            rw [ownedKeys_cons]
            simp only [hsec, if_false, hkv, if_true]
            exact List.mem_cons_of_mem _ hm)
          rw [h1, lastValue_cons]
          simp only [hsec, if_false]
          have := lastValue_isSome_of_mem o k ls cur hm
          cases hv : lastValue o k cur ls with
          | none => rw [hv] at this; cases this
          | some w => rfl
        simp only [hlk, hns, if_false]
        rw [ih cur ((cur, l.content) :: seen) hnl' hlive' hnd'.2 ?_ hval', line_eta_keyval l hkv]
        intro p hp
        simp only [List.mem_cons, not_or]
        exact ⟨fun e => hnd'.1 (e ▸ hp), hseen p (List.mem_cons_of_mem _ hp)⟩
      · simp only [hkv, if_false] at hnd hseen ⊢
        have hr : l.type = LINE_T.COMMENT ∨ l.type = LINE_T.INVALID :=
          remark_of_not l (hnl l (List.mem_cons_self _ _)) hsec hkv
        have hval' : ∀ o k, (o, k) ∈ ownedKeys cur ls →
            lookupKey secs o k = lastValue o k cur ls := by
          intro o k hm
          have h1 := hval o k (by rw [ownedKeys_cons]; simpa [hsec, hkv] using hm)
          rw [h1, lastValue_cons]
          simp only [hsec, if_false]
          have := lastValue_isSome_of_mem o k ls cur hm
          cases hv : lastValue o k cur ls with
          | none => rw [hv] at this; cases this
          | some w => rfl
        rw [if_pos hr, ih cur seen hnl' hlive' hnd hseen hval']

/-- The walk emits at most one line per pair (section, key), none of them for a pair already
seen. -/
theorem reconcile_nodup (secs : List (Str × Section)) (ls : List Line) :
    ∀ (cur : Option Str) (seen : List (Str × Str)) (o : Str),
      (∀ c, cur = some c → c = o) →
      (ownedKeys o (reconcile secs cur seen ls)).Nodup ∧
        ∀ p ∈ ownedKeys o (reconcile secs cur seen ls), p ∉ seen := by
  induction ls with
  | nil =>
    intro cur seen o _
    simp [reconcile, ownedKeys]
  | cons l ls ih =>
    intro cur seen o ho
    rw [reconcile_cons]
    by_cases hsec : l.type = LINE_T.SEC
    · simp only [hsec, if_true]
      split_ifs
      · rw [ownedKeys_cons]
        simp only [hsec, if_true]
        exact ih (some l.content) seen l.content (by simp)
      · exact ih none seen o (by simp)
    · simp only [hsec, if_false]
      cases cur with
      | none => exact ih none seen o (by simp)
      | some cs =>
        have hcs : cs = o := ho cs rfl
        subst hcs
        simp only
        by_cases hkv : l.type = LINE_T.KEYVAL
        · simp only [hkv, if_true]
          cases lookupKey secs cs l.content with
          | none => exact ih (some cs) seen cs ho
          | some v =>
            simp only
            split_ifs with hin
            · exact ih (some cs) seen cs ho
            · rw [ownedKeys_cons]
              simp only [reduceCtorEq, if_false, if_true]
              obtain ⟨h1, h2⟩ := ih (some cs) ((cs, l.content) :: seen) cs ho
              refine ⟨List.nodup_cons.2 ⟨fun e => h2 _ e (List.mem_cons_self _ _), h1⟩, ?_⟩
              intro p hp
              rcases List.mem_cons.1 hp with e | e
              · rw [e]; exact hin
              · exact fun e' => h2 p e (List.mem_cons_of_mem _ e')
        · simp only [hkv, if_false]
          split_ifs with hr
          · rw [ownedKeys_cons]
            simp only [hsec, hkv, if_false]
            exact ih (some cs) seen cs ho
          · exact ih (some cs) seen cs ho

/-- Where the lines of the walk come from. -/
theorem reconcile_mem (secs : List (Str × Section)) (ls : List Line) (x : Line) :
    ∀ (cur : Option Str) (seen : List (Str × Str)),
      x ∈ reconcile secs cur seen ls →
      (x ∈ ls ∧ x.type ≠ LINE_T.KEYVAL) ∨
        ∃ l ∈ ls, ∃ cs, l.type = LINE_T.KEYVAL ∧ x.type = LINE_T.KEYVAL ∧
          x.content = l.content ∧ lookupKey secs cs l.content = some x.value := by
  induction ls with
  | nil =>
    intro cur seen h
    simp [reconcile] at h
  | cons l ls ih =>
    intro cur seen h
    have lift : ((x ∈ ls ∧ x.type ≠ LINE_T.KEYVAL) ∨
        ∃ l' ∈ ls, ∃ cs, l'.type = LINE_T.KEYVAL ∧ x.type = LINE_T.KEYVAL ∧
          x.content = l'.content ∧ lookupKey secs cs l'.content = some x.value) →
        (x ∈ l :: ls ∧ x.type ≠ LINE_T.KEYVAL) ∨
        ∃ l' ∈ l :: ls, ∃ cs, l'.type = LINE_T.KEYVAL ∧ x.type = LINE_T.KEYVAL ∧
          x.content = l'.content ∧ lookupKey secs cs l'.content = some x.value := by
      intro hh
      rcases hh with ⟨h1, h2⟩ | ⟨l', hl', h2⟩
      · exact Or.inl ⟨List.mem_cons_of_mem _ h1, h2⟩
      · exact Or.inr ⟨l', List.mem_cons_of_mem _ hl', h2⟩
    rw [reconcile_cons] at h
    by_cases hsec : l.type = LINE_T.SEC
    · simp only [hsec, if_true] at h
      split_ifs at h
      · rcases List.mem_cons.1 h with e | e
        · exact Or.inl ⟨by rw [e]; exact List.mem_cons_self _ _, by rw [e, hsec]; simp⟩
        · exact lift (ih _ _ e)
      · exact lift (ih _ _ h)
    · simp only [hsec, if_false] at h
      cases cur with
      | none => exact lift (ih _ _ h)
      | some cs =>
        simp only at h
        by_cases hkv : l.type = LINE_T.KEYVAL
        · simp only [hkv, if_true] at h
          cases hlk : lookupKey secs cs l.content with
          | none =>
            rw [hlk] at h
            exact lift (ih _ _ h)
          | some v =>
            rw [hlk] at h
            simp only at h
            split_ifs at h
            · exact lift (ih _ _ h)
            · rcases List.mem_cons.1 h with e | e
              · right
                refine ⟨l, List.mem_cons_self _ _, cs, hkv, ?_, ?_, ?_⟩
                · rw [e]
                · rw [e]
                · rw [e]; exact hlk
              · exact lift (ih _ _ e)
        · simp only [hkv, if_false] at h
          split_ifs at h
          · rcases List.mem_cons.1 h with e | e
            · exact Or.inl ⟨by rw [e]; exact List.mem_cons_self _ _, by rw [e]; exact hkv⟩
            · exact lift (ih _ _ e)
          · exact lift (ih _ _ h)

/-! ## Flags after a round trip -/

theorem reflag_cons (l : Line) (rest : List Line) :
    reflag (l :: rest) =
      { l with nlAfter := l.nlAfter || headIs LINE_T.SEC rest } :: reflag rest := rfl

theorem headIs_reflag (t : LINE_T) (ls : List Line) : headIs t (reflag ls) = headIs t ls := by
  cases ls <;> rfl

theorem headIs_clearLast (t : LINE_T) (ls : List Line) :
    headIs t (clearLast ls) = headIs t ls := by
  induction ls using clearLast.induct <;> rfl

theorem reflag_idem (ls : List Line) : reflag (reflag ls) = reflag ls := by
  induction ls with
  | nil => rfl
  | cons l rest ih =>
    rw [reflag_cons, reflag_cons, ih, headIs_reflag]
    simp

theorem reflag_length (ls : List Line) : (reflag ls).length = ls.length := by
  induction ls with
  | nil => rfl
  | cons l rest ih => simp [reflag_cons, ih]

theorem clearLast_length (ls : List Line) : (clearLast ls).length = ls.length := by
  induction ls using clearLast.induct with
  | case1 => rfl
  | case2 x => rfl
  | case3 x y ys ih => simp [clearLast, ih]

theorem clearLast_cons_cons (x y : Line) (ys : List Line) :
    clearLast (x :: y :: ys) = x :: clearLast (y :: ys) := rfl

theorem clearLast_reflag_clearLast (ls : List Line) :
    clearLast (reflag (clearLast ls)) = reflag (clearLast ls) := by
  induction ls using clearLast.induct with
  | case1 => rfl
  | case2 x => simp [clearLast, reflag, headIs]
  | case3 x y ys ih =>
    rw [clearLast_cons_cons, reflag_cons]
    cases hr : reflag (clearLast (y :: ys)) with
    | nil =>
      have := reflag_length (clearLast (y :: ys))
      rw [hr, clearLast_length] at this
      simp at this
    | cons z zs =>
      rw [clearLast_cons_cons, ← hr, ih]

theorem reflag_clearLast_idem (ls : List Line) :
    reflag (clearLast (reflag (clearLast ls))) = reflag (clearLast ls) := by
  rw [clearLast_reflag_clearLast, reflag_idem]

theorem ownedKeys_reflag (ls : List Line) (cur : Str) :
    ownedKeys cur (reflag ls) = ownedKeys cur ls := by
  induction ls generalizing cur with
  | nil => rfl
  | cons l rest ih =>
    rw [reflag_cons, ownedKeys_cons, ownedKeys_cons]
    simp only [ih]

theorem ownedKeys_clearLast (ls : List Line) (cur : Str) :
    ownedKeys cur (clearLast ls) = ownedKeys cur ls := by
  induction ls using clearLast.induct generalizing cur with
  | case1 => rfl
  | case2 x => rfl
  | case3 x y ys ih =>
    rw [clearLast_cons_cons, ownedKeys_cons, ownedKeys_cons]
    simp only [ih]

theorem canon_reflag (ls : List Line) (h : ∀ l ∈ ls, Canon l) : ∀ l ∈ reflag ls, Canon l := by
  induction ls with
  | nil => simp [reflag]
  | cons x rest ih =>
    intro l hl
    rw [reflag_cons] at hl
    rcases List.mem_cons.1 hl with e | e
    · rw [e]
      exact canon_flag x _ (h x (List.mem_cons_self _ _))
    · exact ih (fun z hz => h z (List.mem_cons_of_mem _ hz)) l e

/-! ## Spacing in front of a header -/

theorem emitLines_header_offset (h : Line) (rest : List Line) (ht : h.type = LINE_T.SEC) :
    ['\n'] ++ emitLines false 1 (h :: rest) = emitLines false 0 (h :: rest) := by
  rw [emitLines_cons, emitLines_cons]
  simp [ht]

theorem commentsSpaced_cons (l : Line) (rest : List Line) :
    CommentsSpaced (l :: rest) ↔
      (l.type = LINE_T.COMMENT → headIs LINE_T.SEC rest = true → l.nlAfter = true) ∧
        CommentsSpaced rest := Iff.rfl

theorem emitLines_reflag (ls : List Line) (h : CommentsSpaced ls) (firstLine : Bool)
    (o : Int) : emitLines firstLine o (reflag ls) = emitLines firstLine o ls := by
  induction ls generalizing firstLine o with
  | nil => rfl
  | cons l rest ih =>
    obtain ⟨h1, h2⟩ := (commentsSpaced_cons l rest).1 h
    rw [reflag_cons]
    by_cases hsame : l.nlAfter = true ∨ headIs LINE_T.SEC rest = false
    · have hl : ({ l with nlAfter := l.nlAfter || headIs LINE_T.SEC rest } : Line) = l := by
        obtain ⟨t, c, v, x⟩ := l
        rcases hsame with e | e
        · simp only at e
          simp [e]
        · simp [e]
      rw [hl, emitLines_cons, emitLines_cons, ih h2]
    · simp only [not_or, Bool.not_eq_true, Bool.not_eq_false] at hsame
      obtain ⟨hnl, hsec⟩ := hsame
      have hcom : l.type ≠ LINE_T.COMMENT := by
        intro e
        have := h1 e hsec
        rw [hnl] at this
        cases this
      cases rest with
      | nil => simp [headIs] at hsec
      | cons hd rest' =>
        have hhd : hd.type = LINE_T.SEC := by simpa [headIs_cons] using hsec
        rw [emitLines_cons, emitLines_cons, ih h2]
        simp only [hnl, hsec, Bool.or_true, Bool.false_or, if_true, hcom, ne_eq,
          not_false_eq_true, Bool.false_eq_true, if_false]
        rw [← emitLines_header_offset hd rest' hhd]
        have ht : lineText { l with nlAfter := true } = lineText l := rfl
        simp [ht]

theorem commentsSpaced_clearLast (ls : List Line) (h : CommentsSpaced ls) :
    CommentsSpaced (clearLast ls) := by
  induction ls using clearLast.induct with
  | case1 => exact h
  | case2 x =>
    refine ⟨?_, trivial⟩
    intro _ hh
    simp [headIs] at hh
  | case3 x y ys ih =>
    obtain ⟨h1, h2⟩ := (commentsSpaced_cons _ _).1 h
    rw [clearLast_cons_cons]
    refine ⟨?_, ih h2⟩
    intro ht hh
    rw [headIs_clearLast] at hh
    exact h1 ht hh

/-- Writing the sequence read back gives the text that was written before, when every
comment in front of a header is followed by a blank line. -/
theorem serialize_reflag (ls : List Line) (h : CommentsSpaced ls) :
    serialize (reflag (clearLast ls)) = serialize ls := by
  unfold serialize
  simp only
  rw [clearLast_reflag_clearLast, reflag_length,
    emitLines_reflag _ (commentsSpaced_clearLast ls h)]

/-! ## Saving a loaded document, loading the text and saving again -/

theorem canon_keyval (l : Line) (h : l.type = LINE_T.KEYVAL) :
    Canon l ↔ GoodKey l.content ∧ GoodValue l.value := by
  obtain ⟨t, c, v, x⟩ := l
  simp only at h
  subst h
  exact Iff.rfl

/-- Every value of a loaded model is trimmed and has no line break. -/
theorem load_goodValue (src : List Char) (cs k v : Str)
    (h : lookupKey (load src).m_sections cs k = some v) : GoodValue v := by
  rw [lookupKey_load] at h
  obtain ⟨l, hl, ht, _, hv⟩ := lastValue_mem _ _ _ _ _ h
  have hc := canon_parsedLines src l hl (by rw [ht]; simp)
  rw [← hv]
  exact ((canon_keyval l ht).1 hc).2

theorem canon_reconcile_load (src : List Char) (cur : Option Str) (seen : List (Str × Str))
    (x : Line) (h : x ∈ reconcile (load src).m_sections cur seen (load src).m_cachedLines) :
    Canon x := by
  rcases reconcile_mem _ _ x cur seen h with ⟨h1, _⟩ | ⟨l, hl, cs, ht, hx, hc, hv⟩
  · exact canon_cache src x h1
  · rw [canon_keyval x hx]
    refine ⟨?_, load_goodValue src cs _ _ hv⟩
    rw [hc]
    exact ((canon_keyval l ht).1 (canon_cache src l hl)).1

theorem resave_eq (src : List Char) : resave src = (buildLines (load src)).map serialize :=
  save_eq_buildLines (load src)

/-- The line sequence `save` builds for a freshly loaded document. -/
theorem buildLines_load (src : List Char) :
    buildLines (load src) =
      some (reconcile (load src).m_sections (some []) [] (load src).m_cachedLines) := by
  obtain ⟨hna, hroot, _, _, _⟩ := load_inv src
  rw [buildLines_noAdded (load src) hna rfl, findSection_eq, hroot]
  rfl

/-- Saving a canonical line sequence without repeated keys, loading the text and building
the lines again gives the same sequence with the flags `open` sets. -/
theorem buildLines_load_serialize (ls : List Line) (hc : ∀ l ∈ ls, Canon l)
    (hn : (ownedKeys [] ls).Nodup) :
    buildLines (load (serialize ls)) = some (reflag (clearLast ls)) := by
  obtain ⟨_, _, hlive, _, hnl⟩ := load_inv (serialize ls)
  rw [buildLines_load]
  have hcache := load_serialize_cache ls hc
  rw [hcache] at hlive hnl ⊢
  rw [reconcile_fixed _ _ [] [] hnl hlive
    (by rw [ownedKeys_reflag, ownedKeys_clearLast]; exact hn) (by simp)]
  intro o k _
  rw [lookupKey_load, ← lastValue_cache, hcache]

theorem classify_comment_iff (t : Str) :
    (classify t).type = LINE_T.COMMENT ↔ ∃ c tl, t = c :: tl ∧ (c = ';' ∨ c = '#') := by
  cases t with
  | nil => simp [classify]
  | cons c0 tl =>
    simp only [classify]
    by_cases h1 : c0 = ';' ∨ c0 = '#'
    · simp [h1]
    · rw [if_neg h1]
      by_cases h2 : c0 = '['
      · simp [h2]
      · rw [if_neg h2]
        cases hf : findChar '=' (c0 :: tl) <;> simp [h1]

theorem classify_comment_content (t : Str) (h : (classify t).type = LINE_T.COMMENT) :
    (classify t).content = t := by
  obtain ⟨c, tl, rfl, hc⟩ := (classify_comment_iff t).1 h
  simp [classify, hc]

theorem resizeAtBracket_eq (s : Str) :
    resizeAtBracket s = s.takeWhile (fun c => c ≠ ']') := by
  induction s with
  | nil => simp [resizeAtBracket, findChar]
  | cons c cs ih =>
    unfold resizeAtBracket at ih ⊢
    by_cases hc : c = ']'
    · simp [findChar, hc]
    · simp only [findChar, if_neg hc]
      cases hf : findChar ']' cs with
      | none =>
        rw [hf] at ih
        simp only [Option.map_none']
        rw [List.takeWhile_cons_of_pos (by simpa using hc), ← ih]
      | some i =>
        rw [hf] at ih
        simp only [Option.map_some']
        rw [List.takeWhile_cons_of_pos (by simpa using hc), ← ih]
        rfl

theorem classify_header_content (tl : Str) :
    classify ('[' :: tl) =
      { type := LINE_T.SEC, content := trim (tl.takeWhile (fun c => c ≠ ']')) } := by
  rw [classify_header, resizeAtBracket_eq,
    List.takeWhile_cons_of_pos (by decide), trim_cons_space]

theorem takeWhile_append_stop (a b : Str) (ha : ']' ∉ a) :
    (a ++ ']' :: b).takeWhile (fun c => c ≠ ']') = a := by
  induction a with
  | nil => simp
  | cons x xs ih =>
    have hx : x ≠ ']' := fun h => ha (by simp [h])
    have hxs : ']' ∉ xs := fun h => ha (by simp [h])
    rw [List.cons_append, List.takeWhile_cons_of_pos (by simpa using hx), ih hxs]

theorem takeWhile_no_stop (a : Str) (ha : ']' ∉ a) :
    a.takeWhile (fun c => c ≠ ']') = a := by
  rw [List.takeWhile_eq_self_iff]
  intro c hc
  have : c ≠ ']' := fun h => ha (h ▸ hc)
  simpa using this

theorem classify_keyValue (a b : Str) (ha : '=' ∉ a)
    (h0 : ∀ c tl, a ++ '=' :: b = c :: tl → c ≠ ';' ∧ c ≠ '#' ∧ c ≠ '[') :
    classify (a ++ '=' :: b) = { type := LINE_T.KEYVAL, content := trim a, value := trim b } := by
  have hf := findChar_append '=' a b ha
  cases hcons : a ++ '=' :: b with
  | nil => simp at hcons
  | cons c0 tl =>
    obtain ⟨h1, h2, h3⟩ := h0 c0 tl hcons
    simp only [classify]
    rw [if_neg (by simp [h1, h2]), if_neg h3, ← hcons, hf]
    simp only [take_length_append, drop_length_succ]

theorem rawLines_noLF (s : List Char) (h : '\n' ∉ s) :
    rawLines s = if s = [] then [] else [s] := by
  induction s with
  | nil => rfl
  | cons c cs ih =>
    have hc : c ≠ '\n' := fun e => h (by simp [e])
    have hcs : '\n' ∉ cs := fun e => h (by simp [e])
    simp only [rawLines, if_neg hc, ih hcs]
    cases cs <;> simp

theorem rawLines_ne_nil (s : List Char) (h : s ≠ []) : rawLines s ≠ [] := by
  cases s with
  | nil => exact absurd rfl h
  | cons c cs =>
    simp only [rawLines]
    split_ifs
    · simp
    · cases rawLines cs <;> simp

theorem dropCR_cons (c : Char) (cs : List Char) :
    dropCR (c :: cs) = if c = '\r' then dropCR cs else c :: dropCR cs := by
  unfold dropCR
  by_cases h : c = '\r'
  · simp [h]
  · simp [h]

theorem dropCR_eq_nil (s : List Char) : dropCR s = [] ↔ s.all (fun x => decide (x = '\r')) = true := by
  unfold dropCR
  simp [List.filter_eq_nil_iff]

theorem mem_dropCR (s : List Char) (c : Char) : c ∈ dropCR s ↔ c ∈ s ∧ c ≠ '\r' := by
  unfold dropCR
  simp

theorem rawLines_map_dropCR (b : List Char) :
    (rawLines b).map dropCR =
      rawLines (dropCR b) ++ (if endsWithBareCR b = true then [[]] else []) := by
  induction b with
  | nil => rfl
  | cons c cs ih =>
    by_cases hc : c = '\n'
    · subst hc
      have : dropCR ('\n' :: cs) = '\n' :: dropCR cs := by rw [dropCR_cons]; simp
      rw [this]
      simp only [rawLines, endsWithBareCR, if_true, List.map_cons, ih, List.cons_append]
      rfl
    · by_cases hm : '\n' ∈ cs
      · have hne : rawLines cs ≠ [] := rawLines_ne_nil cs (List.ne_nil_of_mem hm)
        have hm2 : '\n' ∈ dropCR cs := (mem_dropCR cs '\n').2 ⟨hm, by decide⟩
        have hne2 : rawLines (dropCR cs) ≠ [] := rawLines_ne_nil _ (List.ne_nil_of_mem hm2)
        obtain ⟨l, ls, hl⟩ := List.exists_cons_of_ne_nil hne
        obtain ⟨l2, ls2, hl2⟩ := List.exists_cons_of_ne_nil hne2
        rw [hl, hl2] at ih
        simp only [List.map_cons, List.cons_append, List.cons.injEq] at ih
        have he : endsWithBareCR (c :: cs) = endsWithBareCR cs := by
          simp only [endsWithBareCR, if_neg hc, if_pos hm]
        rw [he]
        simp only [rawLines, if_neg hc, hl, List.map_cons]
        by_cases hr : c = '\r'
        · have h1 : dropCR (c :: l) = dropCR l := by rw [dropCR_cons, if_pos hr]
          have h2 : dropCR (c :: cs) = dropCR cs := by rw [dropCR_cons, if_pos hr]
          rw [h1, h2, hl2, List.cons_append, ← ih.2, ih.1]
        · have h1 : dropCR (c :: l) = c :: dropCR l := by rw [dropCR_cons, if_neg hr]
          have h2 : dropCR (c :: cs) = c :: dropCR cs := by rw [dropCR_cons, if_neg hr]
          rw [h1, h2]
          simp only [rawLines, if_neg hc, hl2, List.cons_append]
          rw [← ih.2, ih.1]
      · have hb : '\n' ∉ c :: cs := by simp [hm, Ne.symm hc]
        have hb2 : '\n' ∉ dropCR (c :: cs) := fun h => hb ((mem_dropCR _ _).1 h).1
        have he : endsWithBareCR (c :: cs) = (c :: cs).all (fun x => decide (x = '\r')) := by
          simp only [endsWithBareCR, if_neg hc, if_neg hm]
        rw [rawLines_noLF _ hb, rawLines_noLF _ hb2, he, if_neg (List.cons_ne_nil _ _)]
        by_cases ha : (c :: cs).all (fun x => decide (x = '\r')) = true
        · rw [if_pos ha, if_pos ((dropCR_eq_nil _).2 ha)]
          simp [(dropCR_eq_nil _).2 ha]
        · rw [if_neg ha, if_neg (fun h => ha ((dropCR_eq_nil _).1 h))]
          simp

theorem endsWithBareCR_noCR (s : List Char) (h : '\r' ∉ s) : endsWithBareCR s = false := by
  induction s with
  | nil => rfl
  | cons c cs ih =>
    have hc : c ≠ '\r' := fun e => h (by simp [e])
    have hcs : '\r' ∉ cs := fun e => h (by simp [e])
    simp only [endsWithBareCR, ih hcs]
    split_ifs
    · rfl
    · rfl
    · simp [hc]

theorem dropCR_noCR (s : List Char) : '\r' ∉ dropCR s := by
  intro h
  exact ((mem_dropCR s _).1 h).2 rfl

theorem dropCR_idem (s : List Char) : dropCR (dropCR s) = dropCR s := by
  unfold dropCR
  exact filter_noCR _ (dropCR_noCR s)

theorem parsedLines_eq_map (b : List Char) :
    parsedLines b = ((rawLines b).map dropCR).map (fun raw => classify (trim raw)) := by
  unfold parsedLines dropCR
  rw [List.map_map]
  rfl

theorem parsedLines_dropCR (b : List Char) :
    parsedLines b =
      parsedLines (dropCR b) ++ (if endsWithBareCR b = true then [({} : Line)] else []) := by
  rw [parsedLines_eq_map b, parsedLines_eq_map (dropCR b), rawLines_map_dropCR b,
    rawLines_map_dropCR (dropCR b), dropCR_idem, endsWithBareCR_noCR _ (dropCR_noCR b)]
  by_cases h : endsWithBareCR b = true
  · simp only [h, if_true, List.map_append, List.append_nil, Bool.false_eq_true, if_false]
    rfl
  · simp [h]

theorem endsWithBareCR_crBeforeLF (b : List Char) (h : crBeforeLF b = true) :
    endsWithBareCR b = false := by
  induction b with
  | nil => rfl
  | cons c cs ih =>
    simp only [crBeforeLF, Bool.and_eq_true] at h
    simp only [endsWithBareCR, ih h.2]
    split_ifs with h1 h2
    · rfl
    · rfl
    · have hc : c ≠ '\r' := by
        intro e
        rw [if_pos e] at h
        have := h.1
        simp only [decide_eq_true_eq] at this
        cases cs with
        | nil => simp at this
        | cons x xs =>
          simp only [List.head?_cons, Option.some.injEq] at this
          exact h2 (by simp [this])
      simp [hc]

theorem load_dropCR (b : List Char) :
    (load b).m_sections = (load (dropCR b)).m_sections ∧
    (load b).m_cachedLines =
      (if endsWithBareCR b = true then markLast (load (dropCR b)).m_cachedLines
       else (load (dropCR b)).m_cachedLines) := by
  rw [load_sections b, load_sections (dropCR b), load_cachedLines b,
    load_cachedLines (dropCR b), parsedLines_dropCR b]
  by_cases h : endsWithBareCR b = true
  · simp only [h, if_true, List.foldl_append, List.foldl_cons, List.foldl_nil]
    exact ⟨rfl, rfl⟩
  · simp [h]

theorem iniFile_eq_of_fields (d1 d2 : IniFile) (h1 : d1.m_sections = d2.m_sections)
    (h2 : d1.m_addedSections = d2.m_addedSections) (h3 : d1.m_cachedLines = d2.m_cachedLines) :
    d1 = d2 := by
  cases d1
  cases d2
  simp only [IniFile.mk.injEq]
  exact ⟨h1, h2, h3⟩

theorem load_eq_dropCR (b : List Char) (h : endsWithBareCR b = false) :
    load b = load (dropCR b) := by
  apply iniFile_eq_of_fields
  · exact (load_dropCR b).1
  · rw [load_addedSections, load_addedSections]
  · rw [(load_dropCR b).2, h]
    simp

theorem storedLines_cons (l : Line) (rest : List Line) :
    storedLines (l :: rest) =
      if l.type = LINE_T.NL then storedLines rest
      else
        { l with nlAfter := decide (rest.takeWhile (fun x => decide (x.type = LINE_T.NL)) ≠ []) } ::
          storedLines rest := rfl

theorem takeWhile_blank_ne_nil (rest : List Line) :
    decide (rest.takeWhile (fun x => decide (x.type = LINE_T.NL)) ≠ []) = headIs LINE_T.NL rest := by
  cases rest with
  | nil => rfl
  | cons x xs =>
    by_cases h : x.type = LINE_T.NL
    · simp [headIs, h]
    · simp [headIs, h]

theorem storedLines_eq_collapse (ps : List Line) (h : ∀ l ∈ ps, l.nlAfter = false) :
    storedLines ps = collapse ps := by
  induction ps with
  | nil => rfl
  | cons l rest ih =>
    have hl : l.nlAfter = false := h l (by simp)
    have hr := ih (fun x hx => h x (by simp [hx]))
    rw [storedLines_cons, collapse_cons, hr, takeWhile_blank_ne_nil, hl, Bool.false_or]

theorem storedLines_skip_blanks (pre rest : List Line) (h : ∀ l ∈ pre, l.type = LINE_T.NL) :
    storedLines (pre ++ rest) = storedLines rest := by
  induction pre with
  | nil => rfl
  | cons l more ih =>
    rw [List.cons_append, storedLines_cons, if_pos (h l (by simp))]
    exact ih (fun x hx => h x (by simp [hx]))

theorem parsedLines_nlAfter (src : List Char) (l : Line) (h : l ∈ parsedLines src) :
    l.nlAfter = false := by
  unfold parsedLines at h
  obtain ⟨raw, _, rfl⟩ := List.mem_map.1 h
  exact classify_nlAfter _

theorem stripRight_eq_rdropWhile (s : Str) :
    stripRight s = List.rdropWhile (fun c => decide (c = ' ')) s := by
  induction s using List.reverseRecOn with
  | nil => rfl
  | append_singleton l x ih =>
    by_cases hx : x = ' '
    · subst hx
      rw [stripRight_append_space, ih, List.rdropWhile_concat_pos _ _ _ (by simp)]
    · rw [stripRight_append_nonspace l x hx, List.rdropWhile_concat_neg _ _ _ (by simpa using hx)]

theorem stripRight_rest (s : Str) : ∃ b, s = stripRight s ++ b ∧ ∀ c ∈ b, c = ' ' := by
  induction s using List.reverseRecOn with
  | nil => exact ⟨[], rfl, by simp⟩
  | append_singleton l x ih =>
    by_cases hx : x = ' '
    · subst hx
      obtain ⟨b, hb, hall⟩ := ih
      refine ⟨b ++ [' '], ?_, ?_⟩
      · rw [stripRight_append_space, ← List.append_assoc, ← hb]
      · intro c hc
        rcases List.mem_append.1 hc with h | h
        · exact hall c h
        · simpa using h
    · exact ⟨[], by rw [stripRight_append_nonspace l x hx, List.append_nil], by simp⟩

theorem trim_eq_rdropWhile (s : Str) :
    trim s =
      List.rdropWhile (fun c => decide (c = ' ')) (s.dropWhile (fun c => decide (c = ' '))) := by
  rw [trim_eq, stripSpaces, stripRight_eq_rdropWhile]

theorem trim_decompose (s : Str) :
    ∃ a b, s = a ++ trim s ++ b ∧ (∀ c ∈ a, c = ' ') ∧ (∀ c ∈ b, c = ' ') := by
  obtain ⟨b, hb, hall⟩ := stripRight_rest (s.dropWhile (fun c => decide (c = ' ')))
  refine ⟨s.takeWhile (fun c => decide (c = ' ')), b, ?_, ?_, hall⟩
  · rw [trim_eq, stripSpaces, List.append_assoc, ← hb, List.takeWhile_append_dropWhile]
  · intro c hc
    simpa using List.mem_takeWhile_imp hc

theorem trim_head (s : Str) : (trim s).head? ≠ some ' ' := by
  intro h
  cases ht : trim s with
  | nil => rw [ht] at h; simp at h
  | cons c rest =>
    rw [ht] at h
    simp only [List.head?_cons, Option.some.injEq] at h
    rw [trim_eq] at ht
    exact stripSpaces_head s c rest ht h

theorem trim_last (s : Str) : (trim s).getLast? ≠ some ' ' := by
  intro h
  rw [trim_eq_rdropWhile] at h
  have hne : List.rdropWhile (fun c => decide (c = ' '))
      (s.dropWhile (fun c => decide (c = ' '))) ≠ [] := by
    intro e
    rw [e] at h
    simp at h
  have := List.rdropWhile_last_not (fun c => decide (c = ' ')) _ hne
  rw [List.getLast?_eq_getLast _ hne] at h
  simp only [Option.some.injEq] at h
  rw [h] at this
  simp at this

theorem trim_all_spaces (s : Str) (h : ∀ c ∈ s, c = ' ') : trim s = [] := by
  rw [trim_eq_rdropWhile, List.rdropWhile_eq_nil_iff]
  intro x hx
  have := h x ((List.dropWhile_sublist _).subset hx)
  simpa using this

theorem sortedKeys_cons (k : Str) (ks : List Str) :
    SortedKeys (k :: ks) ↔ (∀ x ∈ ks, strLt k x = true) ∧ SortedKeys ks := by
  simp [SortedKeys]

theorem sortedKeys_not_mem (k : Str) (ks : List Str) (h : SortedKeys (k :: ks)) : k ∉ ks := by
  intro hm
  have := ((sortedKeys_cons k ks).1 h).1 k hm
  rw [strLt_irrefl] at this
  exact Bool.false_ne_true this

theorem sortedKeys_setInsert (k : Str) (s : List Str) (hs : SortedKeys s) :
    SortedKeys (setInsert k s) := by
  induction s with
  | nil => simp [setInsert, SortedKeys]
  | cons k' rest ih =>
    have hs' := (sortedKeys_cons k' rest).1 hs
    by_cases h : k' = k
    · simpa [setInsert, h] using hs
    · by_cases h2 : strLt k k' = true
      · simp only [setInsert, if_neg h, if_pos h2]
        rw [sortedKeys_cons]
        refine ⟨?_, hs⟩
        intro x hx
        rcases List.mem_cons.1 hx with hx' | hx'
        · rw [hx']; exact h2
        · exact strLt_trans _ _ _ h2 (hs'.1 x hx')
      · simp only [setInsert, if_neg h, if_neg h2]
        have hlt : strLt k' k = true := by
          rcases strLt_total k k' with e | e | e
          · exact absurd e.symm h
          · exact absurd e h2
          · exact e
        rw [sortedKeys_cons]
        refine ⟨?_, ih hs'.2⟩
        intro x hx
        rcases (mem_setInsert k x rest).1 hx with hx' | hx'
        · rw [hx']; exact hlt
        · exact hs'.1 x hx'

theorem mem_setErase (k x : Str) (s : List Str) (hs : SortedKeys s) :
    x ∈ setErase k s ↔ x ≠ k ∧ x ∈ s := by
  induction s with
  | nil => simp [setErase]
  | cons k' rest ih =>
    have hs' := (sortedKeys_cons k' rest).1 hs
    have hnm := sortedKeys_not_mem k' rest hs
    by_cases h : k' = k
    · subst h
      simp only [setErase, if_true, List.mem_cons]
      constructor
      · intro hx
        exact ⟨fun e => hnm (e ▸ hx), Or.inr hx⟩
      · rintro ⟨hne, hx | hx⟩
        · exact absurd hx hne
        · exact hx
    · simp only [setErase, if_neg h, List.mem_cons, ih hs'.2]
      constructor
      · rintro (hx | ⟨hne, hx⟩)
        · exact ⟨fun e => h (hx ▸ e), Or.inl hx⟩
        · exact ⟨hne, Or.inr hx⟩
      · rintro ⟨hne, hx | hx⟩
        · exact Or.inl hx
        · exact Or.inr ⟨hne, hx⟩

theorem setErase_sublist (k : Str) (s : List Str) : (setErase k s).Sublist s := by
  induction s with
  | nil => exact List.Sublist.refl _
  | cons k' rest ih =>
    by_cases h : k' = k
    · simp only [setErase, if_pos h]
      exact List.sublist_cons_self _ _
    · simp only [setErase, if_neg h]
      exact ih.cons₂ _

theorem sortedKeys_setErase (k : Str) (s : List Str) (hs : SortedKeys s) :
    SortedKeys (setErase k s) :=
  List.Pairwise.sublist (setErase_sublist k s) hs

theorem keysOf_mapErase_sublist {V : Type} (k : Str) (m : List (Str × V)) :
    (keysOf (mapErase k m)).Sublist (keysOf m) := by
  induction m with
  | nil => exact List.Sublist.refl _
  | cons p rest ih =>
    obtain ⟨k', v⟩ := p
    by_cases h : k' = k
    · simp only [mapErase, if_pos h, keysOf_cons]
      exact List.sublist_cons_self _ _
    · simp only [mapErase, if_neg h, keysOf_cons]
      exact ih.cons₂ _

theorem sortedKeys_mapErase {V : Type} (k : Str) (m : List (Str × V))
    (hs : SortedKeys (keysOf m)) : SortedKeys (keysOf (mapErase k m)) :=
  List.Pairwise.sublist (keysOf_mapErase_sublist k m) hs

theorem mapFind_mapErase_some {V : Type} (k n : Str) (x : V) (m : List (Str × V))
    (hs : SortedKeys (keysOf m)) (h : mapFind n (mapErase k m) = some x) :
    n ≠ k ∧ mapFind n m = some x := by
  by_cases hn : n = k
  · subst hn
    rw [mapFind_mapErase_self n m hs] at h
    exact Option.noConfusion h
  · rw [mapFind_mapErase_ne k n m hn] at h
    exact ⟨hn, h⟩

theorem mapAssign_of_find {V : Type} (k : Str) (v : V) (m : List (Str × V))
    (hs : SortedKeys (keysOf m)) (h : mapFind k m = some v) : mapAssign k v m = m := by
  induction m with
  | nil => simp [mapFind] at h
  | cons p rest ih =>
    obtain ⟨k', v'⟩ := p
    have hs' : (∀ x ∈ keysOf rest, strLt k' x = true) ∧ SortedKeys (keysOf rest) := by
      simpa [SortedKeys] using hs
    by_cases hk : k' = k
    · simp only [mapFind, if_pos hk, Option.some.injEq] at h
      simp only [mapAssign, if_pos hk, h]
    · simp only [mapFind, if_neg hk] at h
      have hmem : k ∈ keysOf rest := (mapFind_isSome_iff k rest).1 (by rw [h]; rfl)
      have hlt : strLt k' k = true := hs'.1 k hmem
      have hnlt : ¬ strLt k k' = true := by
        intro e
        have := strLt_trans _ _ _ e hlt
        rw [strLt_irrefl] at this
        exact Bool.false_ne_true this
      simp only [mapAssign, if_neg hk, if_neg hnlt, ih hs'.2 h]

theorem mapSubscript_of_find {V : Type} (k : Str) (dflt v : V) (m : List (Str × V))
    (h : mapFind k m = some v) : mapSubscript k dflt m = m := by
  simp [mapSubscript, h]

theorem mapSubscript_of_isSome {V : Type} (k : Str) (dflt : V) (m : List (Str × V))
    (h : (mapFind k m).isSome = true) : mapSubscript k dflt m = m := by
  obtain ⟨v, hv⟩ := Option.isSome_iff_exists.1 h
  exact mapSubscript_of_find k dflt v m hv

theorem addNewKeys_sections (cs : Str) (keys : List Str) (sec : Section) :
    ∀ (st : WalkState), mapFind cs st.m_sections = some sec →
      SortedKeys (keysOf st.m_sections) →
      (∀ k ∈ keys, (mapFind k sec.m_keys).isSome = true) →
      (addNewKeys cs keys st).m_sections = st.m_sections := by
  induction keys with
  | nil => intro st _ _ _; rfl
  | cons key more ih =>
    intro st hf hs hk
    rw [addNewKeys_cons cs key more st sec hf]
    have h1 : mapSubscript key [] sec.m_keys = sec.m_keys :=
      mapSubscript_of_isSome key [] sec.m_keys (hk key (by simp))
    have h2 : mapAssign cs { sec with m_keys := mapSubscript key [] sec.m_keys } st.m_sections =
        st.m_sections := by
      rw [h1]
      exact mapAssign_of_find cs sec st.m_sections hs hf
    rw [ih _ (by simpa only [h2] using hf) (by simpa only [h2] using hs)
      (fun k hk' => hk k (by simp [hk']))]
    exact h2

theorem flushAddedKeys_sections (st : WalkState) (hs : SortedKeys (keysOf st.m_sections))
    (hp : ∀ n sec, mapFind n st.m_sections = some sec →
      ∀ k ∈ sec.m_addedKeys, (mapFind k sec.m_keys).isSome = true) :
    (flushAddedKeys st).m_sections = st.m_sections := by
  rcases flushAddedKeys_cases st with h | ⟨cs, _, _, _, h⟩ | ⟨cs, sec, _, _, hf, h⟩
  · rw [h]
  · rw [h]
  · rw [h]
    exact addNewKeys_sections cs sec.m_addedKeys sec _ hf hs (hp cs sec hf)

theorem walkStep_sections (st : WalkState) (l : Line) (hs : SortedKeys (keysOf st.m_sections))
    (hp : ∀ n sec, mapFind n st.m_sections = some sec →
      ∀ k ∈ sec.m_addedKeys, (mapFind k sec.m_keys).isSome = true) :
    (walkStep st l).m_sections = st.m_sections := by
  rcases walkStep_cases st l with ⟨_, _, h⟩ | ⟨cs, _, _, h⟩ | ⟨_, _, h⟩ | ⟨_, _, h⟩ |
    ⟨cs, sec, v, _, _, _, _, _, h⟩ | ⟨cs, _, _, h⟩
  · rw [h]
  · rw [h]
  · rw [h]
    exact flushAddedKeys_sections st hs hp
  · rw [h]
    exact flushAddedKeys_sections st hs hp
  · rw [h]
  · rw [h]

theorem walk_foldl_sections (ls : List Line) :
    ∀ (st : WalkState), SortedKeys (keysOf st.m_sections) →
      (∀ n sec, mapFind n st.m_sections = some sec →
        ∀ k ∈ sec.m_addedKeys, (mapFind k sec.m_keys).isSome = true) →
      (ls.foldl walkStep st).m_sections = st.m_sections := by
  induction ls with
  | nil => intro st _ _; rfl
  | cons l more ih =>
    intro st hs hp
    have h1 := walkStep_sections st l hs hp
    rw [List.foldl_cons, ih (walkStep st l) (by rw [h1]; exact hs) (by rw [h1]; exact hp), h1]

theorem walk_sections (d : IniFile) (h : AddedKeysStored d.m_sections) :
    (walk d).m_sections = d.m_sections :=
  walk_foldl_sections d.m_cachedLines (walkInit d) h.1 (fun n sec hf => (h.2 n sec hf).2)

theorem walk_foldl_dom (ls : List Line) (n : Str) :
    ∀ (st : WalkState),
      (mapFind n (ls.foldl walkStep st).m_sections).isSome = (mapFind n st.m_sections).isSome := by
  induction ls with
  | nil => intro st; rfl
  | cons l more ih =>
    intro st
    rw [List.foldl_cons, ih, walkStep_dom]

theorem walk_dom (d : IniFile) (n : Str) :
    (mapFind n (walk d).m_sections).isSome = (mapFind n d.m_sections).isSome :=
  walk_foldl_dom d.m_cachedLines n (walkInit d)

theorem mapFind_eq_none_congr {V W : Type} (n : Str) (a : List (Str × V)) (b : List (Str × W))
    (h : (mapFind n a).isSome = (mapFind n b).isSome) :
    mapFind n a = none ↔ mapFind n b = none := by
  cases ha : mapFind n a <;> cases hb : mapFind n b <;> simp [ha, hb] at h ⊢

theorem addNewSections_eq_none_iff (secs : List (Str × Section)) (saved : List (Str × List Str))
    (names : List Str) :
    ∀ (newLines : List Line),
      addNewSections secs saved names newLines = none ↔ ∃ n ∈ names, mapFind n secs = none := by
  induction names with
  | nil => intro newLines; simp [addNewSections]
  | cons sec more ih =>
    intro newLines
    rcases Option.eq_none_or_eq_some (mapFind sec secs) with hm | ⟨found, hm⟩
    · simp only [addNewSections, hm]
      exact ⟨fun _ => ⟨sec, by simp, hm⟩, fun _ => trivial⟩
    · simp only [addNewSections, hm]
      split_ifs
      · rw [ih]
        constructor
        · rintro ⟨n, hn, h⟩
          exact ⟨n, by simp [hn], h⟩
        · rintro ⟨n, hn, h⟩
          rcases List.mem_cons.1 hn with e | e
          · rw [e, hm] at h
            exact Option.noConfusion h
          · exact ⟨n, e, h⟩
      · rw [ih]
        constructor
        · rintro ⟨n, hn, h⟩
          exact ⟨n, by simp [hn], h⟩
        · rintro ⟨n, hn, h⟩
          rcases List.mem_cons.1 hn with e | e
          · rw [e, hm] at h
            exact Option.noConfusion h
          · exact ⟨n, e, h⟩

theorem buildLines_eq_none_iff (d : IniFile) :
    buildLines d = none ↔ ∃ n ∈ d.m_addedSections, mapFind n d.m_sections = none := by
  unfold buildLines
  simp only []
  rw [addNewSections_eq_none_iff]
  constructor
  · rintro ⟨n, hn, h⟩
    exact ⟨n, hn, (mapFind_eq_none_congr n _ _ (walk_dom d n)).1 h⟩
  · rintro ⟨n, hn, h⟩
    exact ⟨n, hn, (mapFind_eq_none_congr n _ _ (walk_dom d n)).2 h⟩

theorem save_eq_none_iff (d : IniFile) :
    d.save = none ↔ ∃ n ∈ d.m_addedSections, mapFind n d.m_sections = none := by
  rw [← buildLines_eq_none_iff]
  unfold IniFile.save
  cases buildLines d <;> simp

theorem saveAborted_eq (d : IniFile) (h : AddedKeysStored d.m_sections) :
    d.saveAborted = d := by
  unfold IniFile.saveAborted
  rw [walk_sections d h]

theorem keysStored_default : KeysStored {} := by
  constructor
  · simp [SortedKeys]
  · intro k hk
    simp at hk

theorem keysStored_of_noAdded (sec : Section) (h : sec.m_addedKeys = []) : KeysStored sec := by
  constructor
  · rw [h]; simp [SortedKeys]
  · intro k hk
    rw [h] at hk
    simp at hk

theorem keysStored_subscript (sec : Section) (k : Str) (h : KeysStored sec) :
    KeysStored (sec.subscript k) := by
  unfold Section.subscript
  rcases Option.eq_none_or_eq_some (mapFind k sec.m_keys) with hm | ⟨v, hm⟩
  · simp only [hm]
    constructor
    · exact sortedKeys_setInsert k _ h.1
    · intro k' hk'
      show (mapFind k' (mapSubscript k [] sec.m_keys)).isSome = true
      rw [mapFind_isSome_mapSubscript]
      rcases (mem_setInsert k k' _).1 hk' with e | e
      · simp [e]
      · simp [h.2 k' e]
  · simp only [hm]
    exact h

theorem keysStored_assign (sec : Section) (k v : Str) (h : KeysStored sec) :
    KeysStored { sec with m_keys := mapAssign k v sec.m_keys } := by
  constructor
  · exact h.1
  · intro k' hk'
    show (mapFind k' (mapAssign k v sec.m_keys)).isSome = true
    rw [mapFind_mapAssign]
    split_ifs
    · rfl
    · exact h.2 k' hk'

theorem keysStored_remove (sec : Section) (k : Str) (h : KeysStored sec) :
    KeysStored (sec.remove k) := by
  unfold Section.remove
  rcases Option.eq_none_or_eq_some (mapFind k sec.m_keys) with hm | ⟨v, hm⟩
  · simp only [hm]
    exact h
  · simp only [hm]
    constructor
    · exact sortedKeys_setErase k _ h.1
    · intro k' hk'
      obtain ⟨hne, hin⟩ := (mem_setErase k k' _ h.1).1 hk'
      show (mapFind k' (mapErase k sec.m_keys)).isSome = true
      rw [mapFind_mapErase_ne k k' _ hne]
      exact h.2 k' hin

theorem keysStored_mergeKeys (kvs : List (Str × Str)) :
    ∀ (root : Section), KeysStored root → KeysStored (mergeKeys root kvs) := by
  induction kvs with
  | nil => intro root h; exact h
  | cons kv more ih =>
    intro root h
    rw [mergeKeys_cons]
    apply ih
    constructor
    · exact sortedKeys_setInsert kv.1 _ h.1
    · intro k' hk'
      show (mapFind k' (mapInsert kv.1 kv.2 root.m_keys)).isSome = true
      rw [mapFind_mapInsert]
      rcases (mem_setInsert kv.1 k' _).1 hk' with e | e
      · cases mapFind k' root.m_keys <;> simp [e]
      · have := h.2 k' e
        obtain ⟨x, hx⟩ := Option.isSome_iff_exists.1 this
        simp [hx]

theorem addedKeysStored_mapAssign (secs : List (Str × Section)) (s : Str) (x : Section)
    (h : AddedKeysStored secs) (hx : KeysStored x) : AddedKeysStored (mapAssign s x secs) := by
  refine ⟨sortedKeys_mapAssign s x secs h.1, ?_⟩
  intro n sec hf
  rcases mapFind_mapAssign_some s n x sec secs hf with ⟨_, e⟩ | e
  · rw [e]; exact hx
  · exact h.2 n sec e

theorem addedKeysStored_mapSubscript (secs : List (Str × Section)) (s : Str)
    (h : AddedKeysStored secs) : AddedKeysStored (mapSubscript s {} secs) := by
  refine ⟨sortedKeys_mapSubscript s {} secs h.1, ?_⟩
  intro n sec hf
  rcases mapFind_mapSubscript_some s n {} sec secs hf with ⟨_, e, _⟩ | e
  · rw [e]; exact keysStored_default
  · exact h.2 n sec e

theorem addedKeysStored_mapErase (secs : List (Str × Section)) (s : Str)
    (h : AddedKeysStored secs) : AddedKeysStored (mapErase s secs) := by
  refine ⟨sortedKeys_mapErase s secs h.1, ?_⟩
  intro n sec hf
  exact h.2 n sec (mapFind_mapErase_some s n sec secs h.1 hf).2

theorem keysOf_clearAddedKeys (secs : List (Str × Section)) :
    keysOf (clearAddedKeys secs) = keysOf secs := by
  unfold clearAddedKeys keysOf
  rw [List.map_map]
  rfl

theorem mapFind_clearAddedKeys (secs : List (Str × Section)) (n : Str) :
    mapFind n (clearAddedKeys secs) =
      (mapFind n secs).map (fun sec => { sec with m_addedKeys := [] }) := by
  induction secs with
  | nil => rfl
  | cons p rest ih =>
    obtain ⟨k, v⟩ := p
    have : clearAddedKeys ((k, v) :: rest) =
        (k, { v with m_addedKeys := [] }) :: clearAddedKeys rest := rfl
    rw [this]
    by_cases hk : k = n
    · simp [mapFind, hk]
    · simp only [mapFind, if_neg hk]
      exact ih

theorem addedKeysStored_clearAddedKeys (secs : List (Str × Section))
    (h : SortedKeys (keysOf secs)) : AddedKeysStored (clearAddedKeys secs) := by
  refine ⟨by rw [keysOf_clearAddedKeys]; exact h, ?_⟩
  intro n sec hf
  rw [mapFind_clearAddedKeys] at hf
  cases hm : mapFind n secs with
  | none => rw [hm] at hf; exact Option.noConfusion hf
  | some x =>
    rw [hm] at hf
    simp only [Option.map_some', Option.some.injEq] at hf
    rw [← hf]
    exact keysStored_of_noAdded _ rfl

theorem addedKeysStored_load (src : List Char) : AddedKeysStored (load src).m_sections := by
  obtain ⟨hn, _, _, hs, _⟩ := load_inv src
  exact ⟨hs.1, fun n sec hf => keysStored_of_noAdded sec (hn n sec hf)⟩

theorem addedKeysStored_onSection (d : IniFile) (s : Str) (f : Section → Section)
    (hf : ∀ sec, KeysStored sec → KeysStored (f sec)) (h : AddedKeysStored d.m_sections) :
    AddedKeysStored (d.onSection s f).m_sections := by
  unfold IniFile.onSection
  rcases Option.eq_none_or_eq_some (mapFind s d.m_sections) with hm | ⟨sec, hm⟩
  · simp only [hm]
    exact h
  · simp only [hm]
    exact addedKeysStored_mapAssign _ s _ h (hf sec (h.2 s sec hm))

theorem addedKeysStored_subscript (d : IniFile) (s : Str) (h : AddedKeysStored d.m_sections) :
    AddedKeysStored (d.subscript s).m_sections := by
  unfold IniFile.subscript
  rcases Option.eq_none_or_eq_some (mapFind s d.m_sections) with hm | ⟨sec, hm⟩
  · simp only [hm]
    exact addedKeysStored_mapSubscript _ s h
  · simp only [hm]
    exact h

theorem addedKeysStored_remove (d : IniFile) (s : Str) (removeKeys : Bool)
    (h : AddedKeysStored d.m_sections) : AddedKeysStored (d.remove s removeKeys).m_sections := by
  unfold IniFile.remove
  rcases Option.eq_none_or_eq_some (mapFind s d.m_sections) with hm | ⟨found, hm⟩
  · simp only [hm]
    exact h
  · simp only [hm]
    by_cases hs : s = []
    · rw [if_pos hs]
      exact h
    · rw [if_neg hs]
      apply addedKeysStored_mapErase
      cases removeKeys with
      | true => exact h
      | false =>
        have h0 := addedKeysStored_mapSubscript d.m_sections [] h
        simp only [Bool.not_false, if_true]
        rcases Option.eq_none_or_eq_some (mapFind [] (mapSubscript [] {} d.m_sections))
          with hr | ⟨root, hr⟩
        · simp only [hr]
          exact h0
        · simp only [hr]
          exact addedKeysStored_mapAssign _ [] _ h0
            (keysStored_mergeKeys found.m_keys root (h0.2 [] root hr))

theorem addedKeysStored_save (d : IniFile) (h : AddedKeysStored d.m_sections) :
    AddedKeysStored (applyOp d Op.save).m_sections := by
  show AddedKeysStored (match d.save with | some r => r.1 | none => d.saveAborted).m_sections
  unfold IniFile.save
  cases buildLines d with
  | none =>
    simp only []
    rw [saveAborted_eq d h]
    exact h
  | some ls =>
    simp only []
    rw [walk_sections d h]
    exact addedKeysStored_clearAddedKeys _ h.1

theorem addedKeysStored_applyOp (d : IniFile) (op : Op) (h : AddedKeysStored d.m_sections) :
    AddedKeysStored (applyOp d op).m_sections := by
  cases op with
  | openFile src =>
    show AddedKeysStored (d.openFile src).m_sections
    rw [(openFile_sections d src).1]
    exact addedKeysStored_load src
  | subscript s => exact addedKeysStored_subscript d s h
  | get s => exact h
  | remove s b => exact addedKeysStored_remove d s b h
  | keySubscript s k =>
    exact addedKeysStored_onSection d s _ (fun sec hs => keysStored_subscript sec k hs) h
  | keyAssign s k v =>
    exact addedKeysStored_onSection d s _
      (fun sec hs => keysStored_assign _ k v (keysStored_subscript sec k hs)) h
  | keyGet s k => exact h
  | keyRemove s k =>
    exact addedKeysStored_onSection d s _ (fun sec hs => keysStored_remove sec k hs) h
  | save => exact addedKeysStored_save d h

theorem addedKeysStored_run (ops : List Op) :
    ∀ (d : IniFile), AddedKeysStored d.m_sections → AddedKeysStored (run d ops).m_sections := by
  induction ops with
  | nil => intro d h; exact h
  | cons op more ih =>
    intro d h
    exact ih (applyOp d op) (addedKeysStored_applyOp d op h)

theorem addedKeysStored_empty : AddedKeysStored ({} : IniFile).m_sections := by
  constructor
  · simp [SortedKeys]
  · intro n sec hf
    exact Option.noConfusion hf

theorem root_onSection (d : IniFile) (s : Str) (f : Section → Section)
    (h : (mapFind [] d.m_sections).isSome = true) :
    (mapFind [] (d.onSection s f).m_sections).isSome = true := by
  unfold IniFile.onSection
  rcases Option.eq_none_or_eq_some (mapFind s d.m_sections) with hm | ⟨sec, hm⟩
  · simp only [hm]
    exact h
  · simp only [hm]
    rw [mapFind_mapAssign]
    split_ifs
    · rfl
    · exact h

theorem root_subscript (d : IniFile) (s : Str) (h : (mapFind [] d.m_sections).isSome = true) :
    (mapFind [] (d.subscript s).m_sections).isSome = true := by
  unfold IniFile.subscript
  rcases Option.eq_none_or_eq_some (mapFind s d.m_sections) with hm | ⟨sec, hm⟩
  · simp only [hm]
    rw [mapFind_isSome_mapSubscript, h, Bool.or_true]
  · simp only [hm]
    exact h

theorem root_remove (d : IniFile) (s : Str) (removeKeys : Bool)
    (h : (mapFind [] d.m_sections).isSome = true) :
    (mapFind [] (d.remove s removeKeys).m_sections).isSome = true := by
  unfold IniFile.remove
  rcases Option.eq_none_or_eq_some (mapFind s d.m_sections) with hm | ⟨found, hm⟩
  · simp only [hm]
    exact h
  · simp only [hm]
    by_cases hs : s = []
    · rw [if_pos hs]
      exact h
    · rw [if_neg hs]
      show (mapFind [] (mapErase s _)).isSome = true
      rw [mapFind_mapErase_ne s [] _ (Ne.symm hs)]
      cases removeKeys with
      | true => exact h
      | false =>
        simp only [Bool.not_false, if_true]
        rcases Option.eq_none_or_eq_some (mapFind [] (mapSubscript [] {} d.m_sections))
          with hr | ⟨root, hr⟩
        · have := mapFind_isSome_mapSubscript [] [] ({} : Section) d.m_sections
          rw [hr] at this
          simp at this
        · simp only [hr]
          rw [mapFind_mapAssign_self]
          rfl

theorem root_save (d : IniFile) (h : (mapFind [] d.m_sections).isSome = true) :
    (mapFind [] (applyOp d Op.save).m_sections).isSome = true := by
  show (mapFind [] (match d.save with | some r => r.1 | none => d.saveAborted).m_sections).isSome
    = true
  unfold IniFile.save
  cases buildLines d with
  | none =>
    simp only []
    show (mapFind [] (walk d).m_sections).isSome = true
    rw [walk_dom, h]
  | some ls =>
    simp only []
    rw [mapFind_clearAddedKeys, Option.isSome_map', walk_dom, h]

theorem root_applyOp (d : IniFile) (op : Op) (h : (mapFind [] d.m_sections).isSome = true) :
    (mapFind [] (applyOp d op).m_sections).isSome = true := by
  cases op with
  | openFile src =>
    show (mapFind [] (d.openFile src).m_sections).isSome = true
    rw [(openFile_sections d src).1]
    exact (load_inv src).2.1
  | subscript s => exact root_subscript d s h
  | get s => exact h
  | remove s b => exact root_remove d s b h
  | keySubscript s k => exact root_onSection d s _ h
  | keyAssign s k v => exact root_onSection d s _ h
  | keyGet s k => exact h
  | keyRemove s k => exact root_onSection d s _ h
  | save => exact root_save d h

theorem root_run (ops : List Op) :
    ∀ (d : IniFile), (mapFind [] d.m_sections).isSome = true →
      (mapFind [] (run d ops).m_sections).isSome = true := by
  induction ops with
  | nil => intro d h; exact h
  | cons op more ih =>
    intro d h
    exact ih (applyOp d op) (root_applyOp d op h)

theorem remove_root (d : IniFile) (removeKeys : Bool) : d.remove [] removeKeys = d := by
  unfold IniFile.remove
  cases mapFind [] d.m_sections <;> simp

theorem setKey_eq_run (d : IniFile) (s k v : Str) :
    d.setKey s k v = run d [Op.subscript s, Op.keyAssign s k v] :=
  rfl

theorem removeKey_eq_run (d : IniFile) (s k : Str) :
    d.removeKey s k = run d [Op.subscript s, Op.keyRemove s k] :=
  rfl

theorem lastValue_split (s k : Str) (ls : List Line) :
    ∀ (cur v : Str), lastValue s k cur ls = some v →
      ∃ pre l post, ls = pre ++ l :: post ∧ l.type = LINE_T.KEYVAL ∧ ownerAfter cur pre = s ∧
        l.content = k ∧ l.value = v := by
  induction ls with
  | nil => intro cur v h; simp [lastValue] at h
  | cons x xs ih =>
    intro cur v h
    rw [lastValue_cons] at h
    cases hv : lastValue s k (if x.type = LINE_T.SEC then x.content else cur) xs with
    | some w =>
      rw [hv] at h
      simp only [Option.some.injEq] at h
      subst h
      obtain ⟨pre, l, post, h1, h2, h3, h4, h5⟩ := ih _ _ hv
      exact ⟨x :: pre, l, post, by rw [h1]; rfl, h2, h3, h4, h5⟩
    | none =>
      rw [hv] at h
      simp only at h
      split_ifs at h with hc
      simp only [Option.some.injEq] at h
      exact ⟨[], x, xs, rfl, hc.1, hc.2.1, hc.2.2, h⟩

theorem ownedKeys_mem_of_split (pre : List Line) (l : Line) (post : List Line)
    (hl : l.type = LINE_T.KEYVAL) :
    ∀ (cur : Str), (ownerAfter cur pre, l.content) ∈ ownedKeys cur (pre ++ l :: post) := by
  induction pre with
  | nil =>
    intro cur
    rw [List.nil_append, ownedKeys_cons, if_neg (by rw [hl]; decide), if_pos hl]
    exact List.mem_cons_self _ _
  | cons x xs ih =>
    intro cur
    rw [List.cons_append, ownedKeys_cons]
    by_cases hsec : x.type = LINE_T.SEC
    · rw [if_pos hsec]
      have := ih x.content
      simpa only [ownerAfter, hsec, if_true] using this
    · rw [if_neg hsec]
      have := ih cur
      have h2 : ownerAfter cur (x :: xs) = ownerAfter cur xs := by
        simp only [ownerAfter, hsec, if_false]
      rw [h2]
      split_ifs
      · exact List.mem_cons_of_mem _ this
      · exact this

theorem map_unflag_reflag (ls : List Line) : (reflag ls).map unflag = ls.map unflag := by
  induction ls with
  | nil => rfl
  | cons l rest ih =>
    rw [reflag_cons, List.map_cons, List.map_cons, ih]
    rfl

theorem map_unflag_clearLast (ls : List Line) : (clearLast ls).map unflag = ls.map unflag := by
  induction ls with
  | nil => rfl
  | cons l rest ih =>
    cases rest with
    | nil => rfl
    | cons y ys =>
      rw [clearLast_cons_cons, List.map_cons, ih]
      rfl

theorem lastValue_reflag_clearLast (s k cur : Str) (ls : List Line) :
    lastValue s k cur (reflag (clearLast ls)) = lastValue s k cur ls := by
  rw [← lastValue_map_unflag s k (reflag (clearLast ls)), map_unflag_reflag,
    map_unflag_clearLast, lastValue_map_unflag]

theorem lastValue_reconcile_load (src : List Char) (s k : Str) :
    lastValue s k []
        (reconcile (load src).m_sections (some []) [] (load src).m_cachedLines) =
      lookupKey (load src).m_sections s k := by
  have hval : ∀ v, lastValue s k []
      (reconcile (load src).m_sections (some []) [] (load src).m_cachedLines) = some v →
      lookupKey (load src).m_sections s k = some v := by
    intro v hv
    obtain ⟨pre, l, post, h1, h2, h3, h4, h5⟩ := lastValue_split s k _ [] v hv
    have := reconcile_values (load src).m_sections (load src).m_cachedLines (some []) [] []
      (by simp) pre l post h1 h2
    rw [h3, h4, h5] at this
    exact this
  cases hlk : lookupKey (load src).m_sections s k with
  | none =>
    cases hl : lastValue s k []
        (reconcile (load src).m_sections (some []) [] (load src).m_cachedLines) with
    | none => rfl
    | some v =>
      have := hval v hl
      rw [hlk] at this
      exact Option.noConfusion this
  | some v =>
    have hsome : (lastValue s k [] (load src).m_cachedLines).isSome = true := by
      rw [lastValue_cache, ← lookupKey_load, hlk]
      rfl
    obtain ⟨pre, nl, post, h1, h2⟩ := reconcile_emits (load src).m_sections s k v hlk
      (load src).m_cachedLines [] [] (load_inv src).2.2.1 hsome (by simp)
    have hmem := ownedKeys_mem_of_split pre
      { type := LINE_T.KEYVAL, content := k, value := v, nlAfter := nl } post rfl []
    rw [← h1, h2] at hmem
    have hs := lastValue_isSome_of_mem s k _ [] hmem
    obtain ⟨v', hv'⟩ := Option.isSome_iff_exists.1 hs
    have := hval v' hv'
    rw [hlk] at this
    rw [hv', this]

theorem reconcile_header_mem (secs : List (Str × Section)) (ls : List Line) (l : Line)
    (ht : l.type = LINE_T.SEC) (hlive : (mapFind l.content secs).isSome = true) :
    ∀ (cur : Option Str) (seen : List (Str × Str)), l ∈ ls → l ∈ reconcile secs cur seen ls := by
  induction ls with
  | nil => intro cur seen h; simp at h
  | cons x xs ih =>
    intro cur seen h
    rw [reconcile_cons]
    by_cases hsec : x.type = LINE_T.SEC
    · simp only [hsec, if_true]
      rcases List.mem_cons.1 h with e | e
      · subst e
        rw [if_pos hlive]
        exact List.mem_cons_self _ _
      · split_ifs
        · exact List.mem_cons_of_mem _ (ih _ _ e)
        · exact ih _ _ e
    · simp only [hsec, if_false]
      have hx : l ∈ xs := by
        rcases List.mem_cons.1 h with e | e
        · exact absurd (e ▸ ht) hsec
        · exact e
      cases cur with
      | none => exact ih _ _ hx
      | some cs =>
        simp only
        by_cases hkv : x.type = LINE_T.KEYVAL
        · simp only [hkv, if_true]
          cases hlk : lookupKey secs cs x.content with
          | none => exact ih _ _ hx
          | some v =>
            simp only
            split_ifs
            · exact ih _ _ hx
            · exact List.mem_cons_of_mem _ (ih _ _ hx)
        · simp only [hkv, if_false]
          split_ifs
          · exact List.mem_cons_of_mem _ (ih _ _ hx)
          · exact ih _ _ hx

theorem header_of_map_unflag (a b : List Line) (h : a.map unflag = b.map unflag) (n : Str)
    (ha : ∃ l ∈ a, l.type = LINE_T.SEC ∧ l.content = n) :
    ∃ l ∈ b, l.type = LINE_T.SEC ∧ l.content = n := by
  obtain ⟨l, hl, ht, hc⟩ := ha
  have : unflag l ∈ b.map unflag := by
    rw [← h]
    exact List.mem_map_of_mem _ hl
  obtain ⟨l', hl', e⟩ := List.mem_map.1 this
  refine ⟨l', hl', ?_, ?_⟩
  · have : (unflag l').type = (unflag l).type := by rw [e]
    exact this.trans ht
  · have : (unflag l').content = (unflag l).content := by rw [e]
    exact this.trans hc

theorem load_dom_iff (src : List Char) (n : Str) :
    (mapFind n (load src).m_sections).isSome = true ↔
      n = [] ∨ ∃ l ∈ (load src).m_cachedLines, l.type = LINE_T.SEC ∧ l.content = n := by
  constructor
  · intro h
    rcases load_dom src n h with e | ⟨l, hl, ht, hc⟩
    · exact Or.inl e
    · obtain ⟨l', hl', ht', hc'⟩ := load_header_cached src l hl ht
      exact Or.inr ⟨l', hl', ht', hc'.trans hc⟩
  · rintro (e | ⟨l, hl, ht, hc⟩)
    · rw [e]
      exact (load_inv src).2.1
    · rw [← hc]
      exact (load_inv src).2.2.1 l hl ht

theorem map_ext_of_sorted {V : Type} (m1 : List (Str × V)) :
    ∀ (m2 : List (Str × V)), SortedKeys (keysOf m1) → SortedKeys (keysOf m2) →
      (∀ k, mapFind k m1 = mapFind k m2) → m1 = m2 := by
  induction m1 with
  | nil =>
    intro m2 _ _ h
    cases m2 with
    | nil => rfl
    | cons p rest =>
      have := h p.1
      simp [mapFind] at this
  | cons p1 r1 ih =>
    intro m2 hs1 hs2 h
    obtain ⟨k1, v1⟩ := p1
    cases m2 with
    | nil =>
      have := h k1
      simp [mapFind] at this
    | cons p2 r2 =>
      obtain ⟨k2, v2⟩ := p2
      have hs1' := (sortedKeys_cons k1 (keysOf r1)).1 (by simpa using hs1)
      have hs2' := (sortedKeys_cons k2 (keysOf r2)).1 (by simpa using hs2)
      have hn1 : k1 ∉ keysOf r1 := sortedKeys_not_mem k1 _ (by simpa using hs1)
      have hn2 : k2 ∉ keysOf r2 := sortedKeys_not_mem k2 _ (by simpa using hs2)
      have hk : k1 = k2 := by
        by_contra hne
        rcases strLt_total k1 k2 with e | e | e
        · exact hne e
        · have h1 := h k1
          simp only [mapFind, if_true, if_neg (Ne.symm hne)] at h1
          have hm : k1 ∈ keysOf r2 := (mapFind_isSome_iff k1 r2).1 (by rw [← h1]; rfl)
          have := strLt_trans _ _ _ e (hs2'.1 k1 hm)
          rw [strLt_irrefl] at this
          exact Bool.false_ne_true this
        · have h2 := h k2
          simp only [mapFind, if_true, if_neg hne] at h2
          have hm : k2 ∈ keysOf r1 := (mapFind_isSome_iff k2 r1).1 (by rw [h2]; rfl)
          have := strLt_trans _ _ _ e (hs1'.1 k2 hm)
          rw [strLt_irrefl] at this
          exact Bool.false_ne_true this
      subst hk
      have hv : v1 = v2 := by
        have := h k1
        simpa [mapFind] using this
      subst hv
      have hr : r1 = r2 := by
        apply ih r2 hs1'.2 hs2'.2
        intro k
        by_cases hk : k1 = k
        · subst hk
          rw [(mapFind_eq_none_iff k1 r1).2 hn1, (mapFind_eq_none_iff k1 r2).2 hn2]
        · have := h k
          simpa only [mapFind, if_neg hk] using this
      rw [hr]

theorem section_eq_of_fields (a b : Section) (h1 : a.m_keys = b.m_keys)
    (h2 : a.m_addedKeys = b.m_addedKeys) : a = b := by
  cases a
  cases b
  simp only [Section.mk.injEq]
  exact ⟨h1, h2⟩

theorem sections_ext (secs1 secs2 : List (Str × Section))
    (hs1 : SortedSections secs1) (hs2 : SortedSections secs2)
    (hn1 : NoAddedKeys secs1) (hn2 : NoAddedKeys secs2)
    (hdom : ∀ n, (mapFind n secs1).isSome = (mapFind n secs2).isSome)
    (hval : ∀ n k, lookupKey secs1 n k = lookupKey secs2 n k) : secs1 = secs2 := by
  apply map_ext_of_sorted secs1 secs2 hs1.1 hs2.1
  intro n
  have hd := hdom n
  cases h1 : mapFind n secs1 with
  | none =>
    rw [h1] at hd
    cases h2 : mapFind n secs2 with
    | none => rfl
    | some b => rw [h2] at hd; cases hd
  | some a =>
    rw [h1] at hd
    cases h2 : mapFind n secs2 with
    | none => rw [h2] at hd; cases hd
    | some b =>
      have hk : a.m_keys = b.m_keys := by
        apply map_ext_of_sorted _ _ (hs1.2 n a h1) (hs2.2 n b h2)
        intro k
        have := hval n k
        simpa only [lookupKey, h1, h2, Option.some_bind] using this
      rw [section_eq_of_fields a b hk ((hn1 n a h1).trans (hn2 n b h2).symm)]

theorem load_serialize_sections (src : List Char) :
    (load (serialize
        (reconcile (load src).m_sections (some []) [] (load src).m_cachedLines))).m_sections =
      (load src).m_sections := by
  have hcanon := canon_reconcile_load src (some []) []
  have hcache := load_serialize_cache _ (fun l hl => hcanon l hl)
  have hflags : (reflag (clearLast
      (reconcile (load src).m_sections (some []) [] (load src).m_cachedLines))).map unflag =
      (reconcile (load src).m_sections (some []) [] (load src).m_cachedLines).map unflag := by
    rw [map_unflag_reflag, map_unflag_clearLast]
  obtain ⟨hn1, _, _, hs1, _⟩ := load_inv (serialize
    (reconcile (load src).m_sections (some []) [] (load src).m_cachedLines))
  obtain ⟨hn0, _, hlive, hs0, _⟩ := load_inv src
  apply sections_ext _ _ hs1 hs0 hn1 hn0
  · intro n
    rw [Bool.eq_iff_iff, load_dom_iff, load_dom_iff, hcache]
    constructor
    · rintro (e | h)
      · exact Or.inl e
      · obtain ⟨l, hl, ht, hc⟩ := header_of_map_unflag _ _ hflags n h
        rcases reconcile_mem _ _ l _ _ hl with h1 | ⟨_, _, _, _, h2, _⟩
        · exact Or.inr ⟨l, h1.1, ht, hc⟩
        · rw [ht] at h2
          cases h2
    · rintro (e | ⟨l, hl, ht, hc⟩)
      · exact Or.inl e
      · right
        apply header_of_map_unflag _ _ hflags.symm n
        exact ⟨l, reconcile_header_mem _ _ l ht (hlive l hl ht) _ _ hl, ht, hc⟩
  · intro s k
    rw [lookupKey_load, ← lastValue_cache, hcache, lastValue_reflag_clearLast,
      lastValue_reconcile_load]

/-! # The claims -/

/-- C1 (counterexample): for the text `;c\n[s]\n` the first save writes `\n;c\n\n\n[s]\n`;
loading that and saving again writes `\n;c\n\n\n\n[s]\n`, one line feed more. -/
theorem resave_not_stable_after_one_save :
    resave ";c\n[s]\n".toList = some "\n;c\n\n\n[s]\n".toList ∧
      resave "\n;c\n\n\n[s]\n".toList = some "\n;c\n\n\n\n[s]\n".toList ∧
      "\n;c\n\n\n\n[s]\n".toList ≠ "\n;c\n\n\n[s]\n".toList := by
  decide

/-- C1 (amended): for every input text `t`, the content `o1` of a save of the document loaded
from `t`, the content `o2` of a save of the document loaded from `o1`, and the content `o3`
of a save of the document loaded from `o2` all exist, and `o3 = o2`: the output is stable
from the second save on. It is already stable after the first save (`o2 = o1`) when, in the
line sequence the first save builds, every Comment line directly in front of a header line
has its blank-line-follows flag set. -/
theorem resave_stabilises (t : List Char) :
    ∃ ls1 o1 o2 o3, buildLines (load t) = some ls1 ∧ resave t = some o1 ∧
      resave o1 = some o2 ∧ resave o2 = some o3 ∧ o3 = o2 ∧
      (CommentsSpaced ls1 → o2 = o1) := by
  have hc1 : ∀ l ∈ reconcile (load t).m_sections (some []) [] (load t).m_cachedLines,
      Canon l := fun l hl => canon_reconcile_load t _ _ l hl
  have hn1 := (reconcile_nodup (load t).m_sections (load t).m_cachedLines (some []) [] []
    (by simp)).1
  have hb1 := buildLines_load t
  have hb2 := buildLines_load_serialize _ hc1 hn1
  have hc2 := canon_reflag _ (canon_clearLast _ hc1)
  have hn2 : (ownedKeys []
      (reflag (clearLast
        (reconcile (load t).m_sections (some []) [] (load t).m_cachedLines)))).Nodup := by
    rw [ownedKeys_reflag, ownedKeys_clearLast]
    exact hn1
  have hb3 := buildLines_load_serialize _ hc2 hn2
  rw [reflag_clearLast_idem] at hb3
  refine ⟨reconcile (load t).m_sections (some []) [] (load t).m_cachedLines,
    serialize (reconcile (load t).m_sections (some []) [] (load t).m_cachedLines),
    serialize (reflag (clearLast
      (reconcile (load t).m_sections (some []) [] (load t).m_cachedLines))),
    serialize (reflag (clearLast
      (reconcile (load t).m_sections (some []) [] (load t).m_cachedLines))),
    hb1, ?_, ?_, ?_, rfl, ?_⟩
  · rw [resave_eq, hb1]
    rfl
  · rw [resave_eq, hb2]
    rfl
  · rw [resave_eq, hb3]
    rfl
  · intro hs
    exact serialize_reflag _ hs

/-- The amended C1 at the text `x=1\n[s]\n;c\n\n[u]\n`, whose first save is already
stable. -/
theorem resave_stabilises_witness :
    resave "x=1\n[s]\n;c\n\n[u]\n".toList = some "\nx = 1\n\n\n[s]\n;c\n\n\n\n[u]\n".toList ∧
      resave "\nx = 1\n\n\n[s]\n;c\n\n\n\n[u]\n".toList =
        some "\nx = 1\n\n\n[s]\n;c\n\n\n\n[u]\n".toList ∧
      ∃ ls1 o1 o2 o3, buildLines (load "x=1\n[s]\n;c\n\n[u]\n".toList) = some ls1 ∧
        resave "x=1\n[s]\n;c\n\n[u]\n".toList = some o1 ∧
        resave o1 = some o2 ∧ resave o2 = some o3 ∧ o3 = o2 ∧
        (CommentsSpaced ls1 → o2 = o1) :=
  ⟨by decide, by decide, resave_stabilises "x=1\n[s]\n;c\n\n[u]\n".toList⟩

/-- C2 (failing input): for the file `[a]\nx=1\n`, after `ini["a"]["z"] = "9"` the save writes
`\n[a]\nx = 1\n`: the added key `z` is in the model but no line `z = 9` is written, because
added keys are only appended when a later header line is met. -/
theorem save_omits_key_added_to_last_section :
    lookupKey ((load "[a]\nx=1\n".toList).setKey "a".toList "z".toList "9".toList).m_sections
        "a".toList "z".toList = some "9".toList ∧
      (((load "[a]\nx=1\n".toList).setKey "a".toList "z".toList "9".toList).save).map Prod.snd =
        some "\n[a]\nx = 1\n".toList := by
  decide

/-- C3 (counterexample): for the file `; note\ngarbage\n[a]\n; in a\nx=1\n`, after `remove("a")`
the line sequence of the save holds `; note` and `garbage` but not the comment `; in a`
of the line cache. -/
theorem save_drops_remark_of_removed_section :
    ∃ ls, buildLines ((load "; note\ngarbage\n[a]\n; in a\nx=1\n".toList).remove "a".toList false)
        = some ls ∧
      remarks ls ≠
        remarks ((load "; note\ngarbage\n[a]\n; in a\nx=1\n".toList).remove "a".toList
          false).m_cachedLines := by
  refine ⟨[{ type := LINE_T.COMMENT, content := "; note".toList },
    { type := LINE_T.INVALID, content := "garbage".toList },
    { type := LINE_T.KEYVAL, content := "x".toList, value := "1".toList }], ?_, ?_⟩
  · decide
  · decide

/-- C3 (amended): in every document state on which `save` does not throw, the Comment and
Invalid lines of the line sequence `save` builds are exactly the Comment and Invalid lines of
the line cache that do not sit under a header whose section is missing from the model, each
unchanged and in the original order. -/
theorem save_keeps_remarks_of_live_sections (d : IniFile) (ls : List Line)
    (h : buildLines d = some ls) :
    remarks ls =
      liveRemarks d.m_sections (mapFind [] d.m_sections).isSome d.m_cachedLines := by
  unfold buildLines at h
  rw [addNewSections_remarks _ _ _ _ _ h]
  unfold walk
  rw [walk_foldl_remarks]
  simp [walkInit, remarks, findSection_eq]
  cases (mapFind [] d.m_sections).isSome <;> rfl

/-- The amended C3 at the file `; note\ngarbage\n[a]\n; in a\nx=1\n` after `ini["a"]["x"] = "2"`. -/
theorem save_keeps_remarks_of_live_sections_witness :
    buildLines ((load "; note\ngarbage\n[a]\n; in a\nx=1\n".toList).setKey "a".toList
        "x".toList "2".toList) =
      some [{ type := LINE_T.COMMENT, content := "; note".toList },
        { type := LINE_T.INVALID, content := "garbage".toList },
        { type := LINE_T.SEC, content := "a".toList },
        { type := LINE_T.COMMENT, content := "; in a".toList },
        { type := LINE_T.KEYVAL, content := "x".toList, value := "2".toList }] ∧
    remarks [{ type := LINE_T.COMMENT, content := "; note".toList },
        { type := LINE_T.INVALID, content := "garbage".toList },
        { type := LINE_T.SEC, content := "a".toList },
        { type := LINE_T.COMMENT, content := "; in a".toList },
        { type := LINE_T.KEYVAL, content := "x".toList, value := "2".toList }] =
      liveRemarks
        ((load "; note\ngarbage\n[a]\n; in a\nx=1\n".toList).setKey "a".toList
          "x".toList "2".toList).m_sections
        (mapFind []
          ((load "; note\ngarbage\n[a]\n; in a\nx=1\n".toList).setKey "a".toList
            "x".toList "2".toList).m_sections).isSome
        ((load "; note\ngarbage\n[a]\n; in a\nx=1\n".toList).setKey "a".toList
          "x".toList "2".toList).m_cachedLines :=
  ⟨by decide, save_keeps_remarks_of_live_sections _ _ (by decide)⟩

/-- C4: when only values of existing keys of a loaded document are assigned, the line
sequence `save` builds agrees with the one built for the unedited document in length, kinds,
contents, order and blank-line-follows flags (the two sequences are equal once the value
fields of their `KEYVAL` lines are blanked), and the value of every `KEYVAL` line is the
current value of its key in the section of the nearest preceding header (the root section
when there is none). -/
theorem edit_in_place (src : List Char) (edits : List (Str × Str × Str))
    (h : ∀ e ∈ edits, (lookupKey (load src).m_sections e.1 e.2.1).isSome = true) :
    ∃ ls0 ls1, buildLines (load src) = some ls0 ∧
      buildLines (applyEdits (load src) edits) = some ls1 ∧
      ls1.map eraseValue = ls0.map eraseValue ∧
      ∀ (pre : List Line) (l : Line) (post : List Line),
        ls1 = pre ++ l :: post → l.type = LINE_T.KEYVAL →
        lookupKey (applyEdits (load src) edits).m_sections (ownerAfter [] pre) l.content =
          some l.value := by
  obtain ⟨hna, hroot, _, _, _⟩ := load_inv src
  obtain ⟨e1, e2, e3, e4⟩ := applyEdits_existing (load src) edits (load src) rfl rfl hna
    (sameKeys_refl _) h
  have hroot1 : (mapFind [] (applyEdits (load src) edits).m_sections).isSome = true := by
    rw [← e4.1]; exact hroot
  refine ⟨_, _, buildLines_noAdded (load src) hna rfl,
    buildLines_noAdded _ e3 (by rw [e2]; rfl), ?_, ?_⟩
  · rw [e1]
    simp only [findSection_eq, hroot, hroot1, if_true]
    exact reconcile_sameKeys _ _ e4 _ _ _
  · intro pre l post hl hkv
    simp only [findSection_eq, hroot1, if_true] at hl
    exact reconcile_values _ _ (some []) [] [] (by simp) pre l post hl hkv

/-- C4 at the file `[a]\nx=1\n\ny=2\n` with the edit `ini["a"]["x"] = "5"`. -/
theorem edit_in_place_witness :
    (∀ e ∈ [("a".toList, "x".toList, "5".toList)],
        (lookupKey (load "[a]\nx=1\n\ny=2\n".toList).m_sections e.1 e.2.1).isSome = true) ∧
      ∃ ls0 ls1, buildLines (load "[a]\nx=1\n\ny=2\n".toList) = some ls0 ∧
        buildLines
          (applyEdits (load "[a]\nx=1\n\ny=2\n".toList) [("a".toList, "x".toList, "5".toList)]) =
          some ls1 ∧
        ls1.map eraseValue = ls0.map eraseValue ∧
        ∀ (pre : List Line) (l : Line) (post : List Line),
          ls1 = pre ++ l :: post → l.type = LINE_T.KEYVAL →
          lookupKey
            (applyEdits (load "[a]\nx=1\n\ny=2\n".toList)
              [("a".toList, "x".toList, "5".toList)]).m_sections
            (ownerAfter [] pre) l.content = some l.value :=
  ⟨by decide, edit_in_place _ _ (by decide)⟩

/-- C5: after `ini[s].remove(k)` on a loaded document that has section `s`, the line sequence
`save` builds has no `KEYVAL` line for `k` in a block of `s`, and every other key of `s` that
has a line under `s` in the file still has its `KEYVAL` line in a block of `s`, with the
value that was loaded, so that the written text contains its `key = value` line. -/
theorem remove_key_drops_only_its_line (src : List Char) (s k : Str)
    (hs : (mapFind s (load src).m_sections).isSome = true) :
    ∃ ls d', buildLines ((load src).removeKey s k) = some ls ∧
      ((load src).removeKey s k).save = some (d', serialize ls) ∧
      (∀ (pre : List Line) (l : Line) (post : List Line),
        ls = pre ++ l :: post → l.type = LINE_T.KEYVAL → ownerAfter [] pre = s →
        l.content ≠ k) ∧
      (∀ k2 v, k2 ≠ k → lastValue s k2 [] (parsedLines src) = some v →
        (∃ pre nl post,
          ls = pre ++ { type := LINE_T.KEYVAL, content := k2, value := v, nlAfter := nl } ::
            post ∧
          ownerAfter [] pre = s) ∧
        (k2 ++ [' ', '=', ' '] ++ v ++ ['\n']) <:+: serialize ls) := by
  obtain ⟨hna, hroot, hlive, ⟨_, hsort⟩, _⟩ := load_inv src
  cases hsec : mapFind s (load src).m_sections with
  | none => simp [hsec] at hs
  | some sec =>
    have hd := removeKey_existing (load src) s k sec hsec
    have hlk := fun n k2 => lookupKey_removeKey (load src).m_sections s k n k2 sec hsec
      (hsort s sec hsec)
    have hdom : ∀ n, (mapFind n ((load src).removeKey s k).m_sections).isSome =
        (mapFind n (load src).m_sections).isSome := by
      intro n
      rw [hd]
      simp only [mapFind_mapAssign]
      by_cases hn : n = s
      · subst hn; simp [hsec]
      · simp [hn]
    have hna' : NoAddedKeys ((load src).removeKey s k).m_sections := by
      rw [hd]
      intro n x hx
      rcases mapFind_mapAssign_some _ _ _ _ _ hx with ⟨_, h2⟩ | h1
      · rw [h2]
        exact addedKeys_remove sec k (hna s sec hsec)
      · exact hna n x h1
    have hroot' : (mapFind [] ((load src).removeKey s k).m_sections).isSome = true := by
      rw [hdom]; exact hroot
    have hcache : ((load src).removeKey s k).m_cachedLines = (load src).m_cachedLines := by
      rw [hd]
    have hadded : ((load src).removeKey s k).m_addedSections = [] := by
      rw [hd]; rfl
    have hbuild := buildLines_noAdded _ hna' hadded
    obtain ⟨d', hsave⟩ := save_of_buildLines _ _ hbuild
    refine ⟨_, d', hbuild, hsave, ?_, ?_⟩
    · intro pre l post hl hkv hown hc
      simp only [findSection_eq, hroot', if_true] at hl
      have := reconcile_values _ _ (some []) [] [] (by simp) pre l post hl hkv
      rw [hown, hc, hd] at this
      simp only at this
      rw [hlk] at this
      simp at this
    · intro k2 v hne hlast
      have hv : lookupKey ((load src).removeKey s k).m_sections s k2 = some v := by
        rw [hd]
        simp only
        rw [hlk, ← lookupKey_load] at *
        simp [hne, hlast]
      have hline : ∃ pre nl post,
          reconcile ((load src).removeKey s k).m_sections
              (findSection [] ((load src).removeKey s k).m_sections) []
              ((load src).removeKey s k).m_cachedLines =
            pre ++ { type := LINE_T.KEYVAL, content := k2, value := v, nlAfter := nl } ::
              post ∧
          ownerAfter [] pre = s := by
        simp only [findSection_eq, hroot', if_true, hcache]
        apply reconcile_emits _ s k2 v hv
        · intro x hx hxt
          rw [hdom]
          exact hlive x hx hxt
        · rw [lastValue_cache, hlast]
          rfl
        · simp
      refine ⟨hline, ?_⟩
      obtain ⟨pre, nl, post, hp, _⟩ := hline
      have := lineText_infix_serialize
        (reconcile ((load src).removeKey s k).m_sections
          (findSection [] ((load src).removeKey s k).m_sections) []
          ((load src).removeKey s k).m_cachedLines)
        { type := LINE_T.KEYVAL, content := k2, value := v, nlAfter := nl }
        (by rw [hp]; simp)
      simpa [lineText] using this

/-- C5 at the file `[a]\nx=1\ny=2\n` with `ini["a"].remove("x")`. -/
theorem remove_key_drops_only_its_line_witness :
    (mapFind "a".toList (load "[a]\nx=1\ny=2\n".toList).m_sections).isSome = true ∧
    ∃ ls d',
      buildLines ((load "[a]\nx=1\ny=2\n".toList).removeKey "a".toList "x".toList) = some ls ∧
      ((load "[a]\nx=1\ny=2\n".toList).removeKey "a".toList "x".toList).save =
        some (d', serialize ls) ∧
      (∀ (pre : List Line) (l : Line) (post : List Line),
        ls = pre ++ l :: post → l.type = LINE_T.KEYVAL → ownerAfter [] pre = "a".toList →
        l.content ≠ "x".toList) ∧
      (∀ k2 v, k2 ≠ "x".toList →
        lastValue "a".toList k2 [] (parsedLines "[a]\nx=1\ny=2\n".toList) = some v →
        (∃ pre nl post,
          ls = pre ++ { type := LINE_T.KEYVAL, content := k2, value := v, nlAfter := nl } ::
            post ∧
          ownerAfter [] pre = "a".toList) ∧
        (k2 ++ [' ', '=', ' '] ++ v ++ ['\n']) <:+: serialize ls) :=
  ⟨by decide, remove_key_drops_only_its_line _ _ _ (by decide)⟩

/-- C6: for a loaded document and a non-empty section name `s` that no header of the file
names, after `ini[s]` and the assignments `ini[s][k] = v`, the line sequence `save` builds
ends with the header line of `s` followed by one `KEYVAL` line per key of `s`, in the order
of the key map (ascending keys, each once), and the written text ends with `[s]` and the
`key = value` lines. -/
theorem new_section_appended (src : List Char) (s : Str) (kvs : List (Str × Str))
    (hs : s ≠ [])
    (hh : ∀ l ∈ parsedLines src, l.type = LINE_T.SEC → l.content ≠ s) :
    ∃ sec pre d' out,
      mapFind s (createSection (load src) s kvs).m_sections = some sec ∧
      SortedKeys (keysOf sec.m_keys) ∧
      buildLines (createSection (load src) s kvs) =
        some (pre ++ { type := LINE_T.SEC, content := s } :: keyValueLines sec.m_keys) ∧
      (createSection (load src) s kvs).save = some (d', out) ∧
      (['['] ++ s ++ [']', '\n'] ++ keyValueText sec.m_keys) <:+ out := by
  obtain ⟨hna, hroot, hlive, _, _⟩ := load_inv src
  -- `s` is not a section of the loaded document
  have hmiss : mapFind s (load src).m_sections = none := by
    apply mapFind_eq_none_of_isSome_false
    intro h
    rcases load_dom src s h with h1 | ⟨l, hl, ht, hc⟩
    · exact hs h1
    · exact hh l hl ht hc
  have hcacheS : ∀ l ∈ (load src).m_cachedLines, l.type = LINE_T.SEC → l.content ≠ s := by
    intro l hl ht hc
    obtain ⟨l', hl', ht', hc'⟩ := load_cache_header src l hl ht
    exact hh l' hl' ht' (hc'.trans hc)
  have hsub : (load src).subscript s =
      { load src with
        m_addedSections := [s],
        m_sections := mapSubscript s {} (load src).m_sections } := by
    simp [IniFile.subscript, hmiss, load_addedSections, setInsert]
  obtain ⟨hc1, hc2, ⟨sec, hsec, hsort⟩, hc4⟩ :=
    createSection_inv (load src) s kvs ((load src).subscript s)
      (by rw [hsub]) (by rw [hsub])
      ⟨{}, by rw [hsub]; simp [mapFind_mapSubscript, hmiss], by simp [SortedKeys]⟩
      (by
        intro n hn
        rw [hsub]
        simp [mapFind_mapSubscript, hn])
  have hd : createSection (load src) s kvs =
      kvs.foldl (fun doc kv => doc.setKey s kv.1 kv.2) ((load src).subscript s) := rfl
  rw [← hd] at hc1 hc2 hsec hc4
  have hrootd : mapFind [] (createSection (load src) s kvs).m_sections =
      mapFind [] (load src).m_sections := hc4 [] (Ne.symm hs)
  have hfs : findSection [] (createSection (load src) s kvs).m_sections = some [] := by
    rw [findSection_eq, hrootd, hroot]
    rfl
  have hpend : NoPendingKeys (createSection (load src) s kvs).m_sections
      (findSection [] (createSection (load src) s kvs).m_sections)
      (createSection (load src) s kvs).m_cachedLines := by
    rw [hfs, hc1]
    constructor
    · intro cs x h1 h2
      simp only [Option.some.injEq] at h1
      subst h1
      rw [hrootd] at h2
      exact hna _ x h2
    · intro l hl ht x h2
      rw [hc4 l.content (hcacheS l hl ht)] at h2
      exact hna _ x h2
  obtain ⟨hw1, hw2⟩ := walk_noPending _ hpend
  have hsaved : (mapFind s (walk (createSection (load src) s kvs)).saved).isSome = false := by
    cases hx : (mapFind s (walk (createSection (load src) s kvs)).saved).isSome with
    | false => rfl
    | true =>
      rcases walk_saved _ s hx with h1 | ⟨l, hl, ht, hc⟩
      · exact absurd h1 hs
      · rw [hc1] at hl
        exact absurd hc (hcacheS l hl ht)
  have hbuild : buildLines (createSection (load src) s kvs) =
      some ((walk (createSection (load src) s kvs)).newLines ++
        { type := LINE_T.SEC, content := s } :: keyValueLines sec.m_keys) := by
    unfold buildLines
    simp only [hc2, addNewSections, hw2, hsec, hsaved, Bool.false_eq_true, if_false,
      List.append_assoc, List.singleton_append]
    rfl
  refine ⟨sec, (walk (createSection (load src) s kvs)).newLines,
    { m_sections := clearAddedKeys (walk (createSection (load src) s kvs)).m_sections,
      m_addedSections := [],
      m_cachedLines := (createSection (load src) s kvs).m_cachedLines },
    serialize ((walk (createSection (load src) s kvs)).newLines ++
      { type := LINE_T.SEC, content := s } :: keyValueLines sec.m_keys),
    hsec, hsort, hbuild, ?_, serialize_new_section _ s sec.m_keys⟩
  unfold IniFile.save
  rw [hbuild]

/-- C6 at the empty file with `ini["b"]["k"] = "v"`. -/
theorem new_section_appended_witness :
    "b".toList ≠ [] ∧
    (∀ l ∈ parsedLines [], l.type = LINE_T.SEC → l.content ≠ "b".toList) ∧
    ∃ sec pre d' out,
      mapFind "b".toList
        (createSection (load []) "b".toList [("k".toList, "v".toList)]).m_sections = some sec ∧
      SortedKeys (keysOf sec.m_keys) ∧
      buildLines (createSection (load []) "b".toList [("k".toList, "v".toList)]) =
        some (pre ++ { type := LINE_T.SEC, content := "b".toList } ::
          keyValueLines sec.m_keys) ∧
      (createSection (load []) "b".toList [("k".toList, "v".toList)]).save = some (d', out) ∧
      (['['] ++ "b".toList ++ [']', '\n'] ++ keyValueText sec.m_keys) <:+ out :=
  ⟨by decide, by decide, new_section_appended [] _ _ (by decide) (by decide)⟩

/-- C7: for a loaded document and a non-root section `s` named by a header of the file, after
`remove(s)` with merging the section `s` is missing from the model, every key of `s` that
the root section did not have is in the root section with the value it had in `s`, and the
line sequence of the next `save` has a `KEYVAL` line with that key and value in the root
block (so the written text contains `k = v`) and no header line for `s`. -/
theorem remove_section_merges_keys (src : List Char) (s : Str) (hs : s ≠ [])
    (hh : ∃ l ∈ parsedLines src, l.type = LINE_T.SEC ∧ l.content = s) :
    mapFind s ((load src).remove s false).m_sections = none ∧
      (∀ k v, lookupKey (load src).m_sections s k = some v →
        lookupKey (load src).m_sections [] k = none →
        lookupKey ((load src).remove s false).m_sections [] k = some v) ∧
      ∃ ls d', buildLines ((load src).remove s false) = some ls ∧
        ((load src).remove s false).save = some (d', serialize ls) ∧
        (∀ k v, lookupKey (load src).m_sections s k = some v →
          lookupKey (load src).m_sections [] k = none →
          (∃ pre post,
            ls = pre ++ { type := LINE_T.KEYVAL, content := k, value := v } :: post ∧
            ownerAfter [] pre = []) ∧
          (k ++ [' ', '=', ' '] ++ v ++ ['\n']) <:+: serialize ls) ∧
        (∀ l ∈ ls, l.type = LINE_T.SEC → l.content ≠ s) := by
  obtain ⟨hna, hroot, hlive, ⟨hsort1, hsort2⟩, _⟩ := load_inv src
  obtain ⟨l0, hl0, ht0, hc0⟩ := hh
  obtain ⟨l1, hl1, ht1, hc1⟩ := load_header_cached src l0 hl0 ht0
  have hsIn : (mapFind s (load src).m_sections).isSome = true := by
    rw [← hc0, ← hc1]
    exact hlive l1 hl1 ht1
  cases hfound : mapFind s (load src).m_sections with
  | none => simp [hfound] at hsIn
  | some found =>
  cases hrt : mapFind [] (load src).m_sections with
  | none => simp [hrt] at hroot
  | some root =>
  have hd := remove_merge (load src) s found root hs hfound hrt
  have hsec : ((load src).remove s false).m_sections =
      mapErase s (mapAssign [] (mergeKeys root found.m_keys) (load src).m_sections) := by
    rw [hd]
  have hcache : ((load src).remove s false).m_cachedLines = (load src).m_cachedLines := by
    rw [hd]
  have hadded : ((load src).remove s false).m_addedSections = [] := by
    rw [hd]; rfl
  -- the model after the removal
  have hgone : mapFind s ((load src).remove s false).m_sections = none := by
    rw [hsec]
    exact mapFind_mapErase_self _ _ (sortedKeys_mapAssign _ _ _ hsort1)
  have hroot1 : mapFind [] ((load src).remove s false).m_sections =
      some (mergeKeys root found.m_keys) := by
    rw [hsec, mapFind_mapErase_ne _ _ _ (Ne.symm hs), mapFind_mapAssign_self]
  have hval : ∀ k v, lookupKey (load src).m_sections s k = some v →
      lookupKey (load src).m_sections [] k = none →
      mapFind k (mergeKeys root found.m_keys).m_keys = some v := by
    intro k v h1 h2
    simp only [lookupKey, hfound, hrt, Option.some_bind] at h1 h2
    rw [mergeKeys_find, h2]
    exact h1
  -- the walk up to and including the first header line of the cache
  obtain ⟨pre, hd1, post, hsplit, hhd, hpre⟩ :=
    exists_first_header (load src).m_cachedLines ⟨l1, hl1, ht1⟩
  obtain ⟨a1, a2, a3, e1, a4, a5⟩ :=
    walk_foldl_nonsec pre (walkInit ((load src).remove s false)) hpre
  have hcur : (pre.foldl walkStep (walkInit ((load src).remove s false))).currSec =
      some [] := by
    rw [a1]
    simp [walkInit, findSection_eq, hroot1]
  have hfirst : (pre.foldl walkStep (walkInit ((load src).remove s false))).isFirst = true := by
    rw [a2]; rfl
  have hsecs : mapFind [] (pre.foldl walkStep (walkInit ((load src).remove s false))).m_sections =
      some (mergeKeys root found.m_keys) := by
    rw [a3]; exact hroot1
  have hflush := flushAddedKeys_some _ [] _ hcur hfirst hsecs
  have hfl : (flushAddedKeys (pre.foldl walkStep (walkInit ((load src).remove s false)))).newLines =
      e1 ++ (mergeKeys root found.m_keys).m_addedKeys.map
        (addedKeyLine (mergeKeys root found.m_keys)) := by
    have := addNewKeys_newLines [] (mergeKeys root found.m_keys).m_addedKeys
      { pre.foldl walkStep (walkInit ((load src).remove s false)) with
        saved := mapSubscript [] []
          (pre.foldl walkStep (walkInit ((load src).remove s false))).saved }
      (mergeKeys root found.m_keys) hsecs
    rw [hflush, this]
    simp only [a4]
    simp [walkInit]
  have hstep : ∃ t, (walkStep (pre.foldl walkStep (walkInit ((load src).remove s false)))
      hd1).newLines =
      (e1 ++ (mergeKeys root found.m_keys).m_addedKeys.map
        (addedKeyLine (mergeKeys root found.m_keys))) ++ t := by
    rcases Option.eq_none_or_eq_some
      (mapFind hd1.content
        (pre.foldl walkStep (walkInit ((load src).remove s false))).m_sections) with hm | ⟨x, hm⟩
    · rw [walkStep_sec_missing _ _ hhd hm]
      exact ⟨[], by simp [hfl]⟩
    · rw [walkStep_sec_found _ _ hhd (by simp [hm])]
      exact ⟨[hd1], by simp [hfl]⟩
  obtain ⟨t, hstep⟩ := hstep
  obtain ⟨e3, hrest, _⟩ := walk_foldl_grows post
    (walkStep (pre.foldl walkStep (walkInit ((load src).remove s false))) hd1)
  have hwalk : (walk ((load src).remove s false)).newLines =
      e1 ++ (mergeKeys root found.m_keys).m_addedKeys.map
        (addedKeyLine (mergeKeys root found.m_keys)) ++ (t ++ e3) := by
    unfold walk
    rw [hcache, hsplit, List.foldl_append, List.foldl_cons, hrest, hstep]
    simp only [List.append_assoc]
  have hbuild : buildLines ((load src).remove s false) =
      some (walk ((load src).remove s false)).newLines := by
    unfold buildLines
    simp only [hadded, addNewSections]
  obtain ⟨d', hsave⟩ := save_of_buildLines _ _ hbuild
  refine ⟨hgone, ?_, _, d', hbuild, hsave, ?_, ?_⟩
  · intro k v h1 h2
    simp only [lookupKey, hroot1, Option.some_bind]
    exact hval k v h1 h2
  · intro k v h1 h2
    have hv := hval k v h1 h2
    have hk : k ∈ (mergeKeys root found.m_keys).m_addedKeys := by
      rw [mergeKeys_added]
      right
      rw [← mapFind_isSome_iff]
      simp only [lookupKey, hfound, Option.some_bind] at h1
      simp [h1]
    obtain ⟨m1, m2, hm⟩ := List.append_of_mem hk
    have hline : ∃ pre post, (walk ((load src).remove s false)).newLines =
        pre ++ { type := LINE_T.KEYVAL, content := k, value := v } :: post ∧
        ownerAfter [] pre = [] := by
      refine ⟨e1 ++ m1.map (addedKeyLine (mergeKeys root found.m_keys)),
        m2.map (addedKeyLine (mergeKeys root found.m_keys)) ++ (t ++ e3), ?_, ?_⟩
      · rw [hwalk, hm]
        simp [addedKeyLine, keyValue, hv]
      · apply ownerAfter_nonsec
        intro x hx
        rcases List.mem_append.1 hx with hx | hx
        · exact a5 x hx
        · simp only [List.mem_map] at hx
          obtain ⟨key, _, rfl⟩ := hx
          simp [addedKeyLine]
    refine ⟨hline, ?_⟩
    obtain ⟨p1, p2, hp, _⟩ := hline
    have := lineText_infix_serialize (walk ((load src).remove s false)).newLines
      { type := LINE_T.KEYVAL, content := k, value := v } (by rw [hp]; simp)
    simpa [lineText] using this
  · intro l hl ht hc
    obtain ⟨ex, hex, hlive'⟩ := walk_foldl_grows (load src).m_cachedLines
      (walkInit ((load src).remove s false))
    have hl' : l ∈ ex := by
      have : (walk ((load src).remove s false)).newLines = ex := by
        unfold walk
        rw [hcache, hex]
        simp [walkInit]
      rw [this] at hl
      exact hl
    have := hlive' l hl' ht
    rw [hc] at this
    simp only [walkInit, hgone] at this
    cases this

/-- C7 at the file `[a]\nx=1\n` with `remove("a")`. -/
theorem remove_section_merges_keys_witness :
    "a".toList ≠ [] ∧
    (∃ l ∈ parsedLines "[a]\nx=1\n".toList, l.type = LINE_T.SEC ∧ l.content = "a".toList) ∧
    (mapFind "a".toList ((load "[a]\nx=1\n".toList).remove "a".toList false).m_sections = none ∧
      (∀ k v, lookupKey (load "[a]\nx=1\n".toList).m_sections "a".toList k = some v →
        lookupKey (load "[a]\nx=1\n".toList).m_sections [] k = none →
        lookupKey ((load "[a]\nx=1\n".toList).remove "a".toList false).m_sections [] k =
          some v) ∧
      ∃ ls d', buildLines ((load "[a]\nx=1\n".toList).remove "a".toList false) = some ls ∧
        ((load "[a]\nx=1\n".toList).remove "a".toList false).save = some (d', serialize ls) ∧
        (∀ k v, lookupKey (load "[a]\nx=1\n".toList).m_sections "a".toList k = some v →
          lookupKey (load "[a]\nx=1\n".toList).m_sections [] k = none →
          (∃ pre post,
            ls = pre ++ { type := LINE_T.KEYVAL, content := k, value := v } :: post ∧
            ownerAfter [] pre = []) ∧
          (k ++ [' ', '=', ' '] ++ v ++ ['\n']) <:+: serialize ls) ∧
        (∀ l ∈ ls, l.type = LINE_T.SEC → l.content ≠ "a".toList)) :=
  ⟨by decide, by decide, remove_section_merges_keys _ _ (by decide) (by decide)⟩

/-- C8: for every input text, section `s` and key `k`, the value of `s.k` in the loaded model
is the value of the last `KEYVAL` line with key `k` met while `s` is the current section,
over the classified physical lines of the input, and `s.k` is absent from the model exactly
when there is no such line (both sides are `none`). -/
theorem load_last_write_wins (src : List Char) (s k : Str) :
    lookupKey (load src).m_sections s k = lastValue s k [] (parsedLines src) :=
  lookupKey_load src s k

/-- C9 (failing input): on the empty file, after `ini["b"]["k"] = "v"` the first save writes
`\n[b]\nk = v\n` and leaves the line cache empty, so the second save, issued right after it,
writes nothing. -/
theorem second_save_loses_added_section :
    (((load []).setKey "b".toList "k".toList "v".toList).save).map
        (fun r => (r.2, r.1.m_cachedLines, (r.1.save).map Prod.snd)) =
      some ("\n[b]\nk = v\n".toList, [], some []) := by
  decide

/-- C10 (failing input): a document in which `ini["b"]` created a section keeps `b` in
`m_addedSections` when `open` is called on the empty file, whereas a fresh document loaded
from the empty file has none; the next `save` then ends in `throw 0`. -/
theorem open_keeps_added_sections :
    (((load []).subscript "b".toList).openFile []).m_addedSections = ["b".toList] ∧
      (load []).m_addedSections = [] ∧
      (((load []).subscript "b".toList).openFile []).save = none := by
  decide

/-- C11 (counterexample): on an object with `read_comment_sign = HASH` the line `;x=1` is
classified as a Comment, although `;` is not a marker the claim recognises under `HASH`. -/
theorem comment_sign_option_not_read :
    (parseLineWith { read_comment_sign := COMMENT_SIGN.HASH } ";x=1".toList).1 =
      { type := LINE_T.COMMENT, content := ";x=1".toList } ∧
    recognised COMMENT_SIGN.HASH ';' = false := by
  decide

/-- C11 (amended): whatever the value of the option, the classifier returns Comment iff the
line, after carriage returns are dropped and the spaces at both ends are trimmed, starts with
`;` or `#` (the markers the claim gives for `BOTH`); the content of a Comment is that
trimmed line. -/
theorem comment_iff_marker_of_both (options : Options) (rest : List Char) :
    ((parseLineWith options rest).1.type = LINE_T.COMMENT ↔
      ∃ c tl, trim (scanLine rest).1 = c :: tl ∧ recognised COMMENT_SIGN.BOTH c = true) ∧
    ((parseLineWith options rest).1.type = LINE_T.COMMENT →
      (parseLineWith options rest).1.content = trim (scanLine rest).1) := by
  constructor
  · show (classify (trim (scanLine rest).1)).type = LINE_T.COMMENT ↔ _
    rw [classify_comment_iff]
    simp [recognised]
  · exact classify_comment_content _

/-- The amended C11 at the buffer `  # note \r\nx=1` read with `read_comment_sign = SCLN`. -/
theorem comment_iff_marker_of_both_witness :
    (parseLineWith { read_comment_sign := COMMENT_SIGN.SCLN } "  # note \r\nx=1".toList).1.type =
      LINE_T.COMMENT ∧
    (parseLineWith { read_comment_sign := COMMENT_SIGN.SCLN } "  # note \r\nx=1".toList).1.content =
      "# note".toList :=
  have h := comment_iff_marker_of_both { read_comment_sign := COMMENT_SIGN.SCLN }
    "  # note \r\nx=1".toList
  have ht := h.1.2 ⟨'#', " note".toList, by decide, by decide⟩
  ⟨ht, (h.2 ht).trans (by decide)⟩

/-- C12: when the line, after carriage returns are dropped and the spaces at both ends are
trimmed, starts with `[`, the classifier returns a SectionHeader whose content is the trimmed
text between that `[` and the first `]`, or the trimmed text after the `[` when the line has
no `]`; value and flag are empty and what follows the first `]` plays no part. -/
theorem header_classification (rest : List Char) (tl : Str)
    (h : trim (scanLine rest).1 = '[' :: tl) :
    (parseLine rest).1 =
      { type := LINE_T.SEC, content := trim (tl.takeWhile (fun c => c ≠ ']')) } ∧
    (∀ a b, tl = a ++ ']' :: b → ']' ∉ a →
      (parseLine rest).1 = { type := LINE_T.SEC, content := trim a }) ∧
    (']' ∉ tl → (parseLine rest).1 = { type := LINE_T.SEC, content := trim tl }) := by
  have h1 : (parseLine rest).1 =
      { type := LINE_T.SEC, content := trim (tl.takeWhile (fun c => c ≠ ']')) } := by
    show classify (trim (scanLine rest).1) = _
    rw [h, classify_header_content]
  refine ⟨h1, ?_, ?_⟩
  · intro a b hab ha
    rw [h1, hab, takeWhile_append_stop a b ha]
  · intro hn
    rw [h1, takeWhile_no_stop tl hn]

/-- C12 at the lines `[unterminated` and ` [ a b ] c ] `. -/
theorem header_classification_witness :
    trim (scanLine "[unterminated".toList).1 = '[' :: "unterminated".toList ∧
    (parseLine "[unterminated".toList).1 =
      { type := LINE_T.SEC, content := "unterminated".toList } ∧
    trim (scanLine " [ a b ] c ] \r\nx".toList).1 = '[' :: " a b ] c ]".toList ∧
    (parseLine " [ a b ] c ] \r\nx".toList).1 = { type := LINE_T.SEC, content := "a b".toList } :=
  ⟨by decide,
    ((header_classification "[unterminated".toList "unterminated".toList (by decide)).2.2
      (by decide)).trans (by decide),
    by decide,
    ((header_classification " [ a b ] c ] \r\nx".toList " a b ] c ]".toList (by decide)).2.1
      " a b ".toList " c ]".toList (by decide) (by decide)).trans (by decide)⟩

/-- C13: when the line, after carriage returns are dropped and the spaces at both ends are
trimmed, is `a ++ "=" ++ b` with no `=` in `a` and does not start with `;`, `#` or `[`, the
classifier returns a KeyValue whose content is `a` trimmed and whose value is `b` trimmed. -/
theorem keyvalue_classification (rest : List Char) (a b : Str)
    (h : trim (scanLine rest).1 = a ++ '=' :: b) (ha : '=' ∉ a)
    (h0 : (a ++ '=' :: b).head? ≠ some ';' ∧ (a ++ '=' :: b).head? ≠ some '#' ∧
      (a ++ '=' :: b).head? ≠ some '[') :
    (parseLine rest).1 = { type := LINE_T.KEYVAL, content := trim a, value := trim b } := by
  show classify (trim (scanLine rest).1) = _
  rw [h]
  apply classify_keyValue a b ha
  intro c tl hc
  rw [hc] at h0
  simpa using h0

/-- C13 at the lines `=value` and ` k 1 = a = b `. -/
theorem keyvalue_classification_witness :
    (parseLine "=value".toList).1 =
      { type := LINE_T.KEYVAL, content := [], value := "value".toList } ∧
    (parseLine " k 1 = a = b \r\n[s]".toList).1 =
      { type := LINE_T.KEYVAL, content := "k 1".toList, value := "a = b".toList } :=
  ⟨(keyvalue_classification "=value".toList [] "value".toList (by decide) (by decide)
      (by decide)).trans (by decide),
    (keyvalue_classification " k 1 = a = b \r\n[s]".toList "k 1 ".toList " a = b".toList
      (by decide) (by decide) (by decide)).trans (by decide)⟩

/-- C14 (counterexample): the buffer `a\n\r` and the same buffer without its carriage return,
`a\n`, load different line caches: the carriage return after the last line feed is read as a
blank line and sets the blank-line-follows flag of the line `a`. -/
theorem load_differs_on_trailing_carriage_return :
    dropCR "a\n\r".toList = "a\n".toList ∧
    (load "a\n\r".toList).m_cachedLines =
      [{ type := LINE_T.INVALID, content := "a".toList, nlAfter := true }] ∧
    (load "a\n".toList).m_cachedLines =
      [{ type := LINE_T.INVALID, content := "a".toList, nlAfter := false }] := by
  decide

/-- C14 (amended): for every buffer `b`, loading `b` gives the same section/key model, the
same markers and the same cached lines up to the blank-line-follows flags as loading `b`
without its carriage returns; the cache of `b` is that of the stripped buffer, with the flag
of the last line set when the bytes after the last line feed of `b` are carriage returns
only. So the two loads are identical unless `b` ends that way, and in particular when every
carriage return of `b` is directly followed by a line feed (a CRLF file). -/
theorem load_drops_carriage_returns (b : List Char) :
    (load b).m_sections = (load (dropCR b)).m_sections ∧
    (load b).m_addedSections = (load (dropCR b)).m_addedSections ∧
    (load b).m_cachedLines.map unflag = (load (dropCR b)).m_cachedLines.map unflag ∧
    (load b).m_cachedLines =
      (if endsWithBareCR b = true then markLast (load (dropCR b)).m_cachedLines
       else (load (dropCR b)).m_cachedLines) ∧
    (endsWithBareCR b = false → load b = load (dropCR b)) ∧
    (crBeforeLF b = true → load b = load (dropCR b)) := by
  refine ⟨(load_dropCR b).1, ?_, ?_, (load_dropCR b).2, load_eq_dropCR b, ?_⟩
  · rw [load_addedSections, load_addedSections]
  · rw [(load_dropCR b).2]
    split_ifs
    · exact map_unflag_markLast _
    · rfl
  · intro h
    exact load_eq_dropCR b (endsWithBareCR_crBeforeLF b h)

/-- The amended C14 at the CRLF file `[s]\r\nk=v\r\n\r\n;c\r\n`. -/
theorem load_drops_carriage_returns_witness :
    crBeforeLF "[s]\r\nk=v\r\n\r\n;c\r\n".toList = true ∧
    dropCR "[s]\r\nk=v\r\n\r\n;c\r\n".toList = "[s]\nk=v\n\n;c\n".toList ∧
    load "[s]\r\nk=v\r\n\r\n;c\r\n".toList = load (dropCR "[s]\r\nk=v\r\n\r\n;c\r\n".toList) :=
  ⟨by decide, by decide,
    (load_drops_carriage_returns "[s]\r\nk=v\r\n\r\n;c\r\n".toList).2.2.2.2.2 (by decide)⟩

/-- C15: after `open` on any input, from any earlier state of the object, the model has the
section with the empty name, and it still has it after any sequence of calls of the public
interface (`open`, `operator[]`, `get`, `remove` with either flag, the methods of `Section`,
`save` whether it completes or not); and `remove("")` changes nothing at all in any document
state. -/
theorem root_section_always_present (d0 : IniFile) (src : List Char) (ops : List Op) :
    (mapFind [] (run (d0.openFile src) ops).m_sections).isSome = true ∧
    ∀ (d : IniFile) (removeKeys : Bool), applyOp d (Op.remove [] removeKeys) = d := by
  refine ⟨root_run ops _ ?_, fun d b => remove_root d b⟩
  rw [(openFile_sections d0 src).1]
  exact (load_inv src).2.1

/-- C16: in every document state `save` is ended by `throw 0` iff some name of
`m_addedSections` is not a section of the model; and in every state reached from a
default-constructed object by calls of the public interface, a `save` that is ended that way
writes nothing and leaves the document (sections with their keys and markers, added-section
markers, line cache) exactly as it was. -/
theorem save_aborts_iff_added_section_missing (d : IniFile) (ops : List Op) :
    (d.save = none ↔ ∃ n ∈ d.m_addedSections, mapFind n d.m_sections = none) ∧
    ((run {} ops).save = none → applyOp (run {} ops) Op.save = run {} ops) := by
  refine ⟨save_eq_none_iff d, ?_⟩
  intro h
  show (match (run {} ops).save with | some r => r.1 | none => (run {} ops).saveAborted) = _
  rw [h]
  exact saveAborted_eq _ (addedKeysStored_run ops {} addedKeysStored_empty)

/-- C16 at the state reached by `ini["s"]` followed by `open` on an empty file: the marker of
`s` is still set, the section is gone, `save` is ended by `throw 0` and changes nothing. -/
theorem save_aborts_iff_added_section_missing_witness :
    (run {} [Op.subscript "s".toList, Op.openFile []]).m_addedSections = ["s".toList] ∧
    mapFind "s".toList (run {} [Op.subscript "s".toList, Op.openFile []]).m_sections = none ∧
    (run {} [Op.subscript "s".toList, Op.openFile []]).save = none ∧
    applyOp (run {} [Op.subscript "s".toList, Op.openFile []]) Op.save =
      run {} [Op.subscript "s".toList, Op.openFile []] :=
  ⟨by decide, by decide, by decide,
    (save_aborts_iff_added_section_missing {} [Op.subscript "s".toList, Op.openFile []]).2
      (by decide)⟩

/-- C17: for every input text the line cache built by `open` has no Blank line; it holds the
non-blank classified physical lines in order, each flagged iff at least one blank line lies
between it and the next non-blank line or the end of the input; and blank lines in front of
the first non-blank line leave no trace. -/
theorem open_collapses_blank_lines (src : List Char) :
    (∀ l ∈ (load src).m_cachedLines, l.type ≠ LINE_T.NL) ∧
    (load src).m_cachedLines = storedLines (parsedLines src) ∧
    (∀ l ∈ parsedLines src, l.nlAfter = false) ∧
    (∀ pre rest, parsedLines src = pre ++ rest → (∀ l ∈ pre, l.type = LINE_T.NL) →
      (load src).m_cachedLines = storedLines rest) := by
  have h1 : (load src).m_cachedLines = storedLines (parsedLines src) := by
    rw [load_cache_collapse, storedLines_eq_collapse _ (parsedLines_nlAfter src)]
  refine ⟨(load_inv src).2.2.2.2, h1, parsedLines_nlAfter src, ?_⟩
  intro pre rest hp hpre
  rw [h1, hp, storedLines_skip_blanks pre rest hpre]

/-- C17 at the text `\n \r\na=1\n\n\n[s]\n;c\n \n`. -/
theorem open_collapses_blank_lines_witness :
    parsedLines "\n \r\na=1\n\n\n[s]\n;c\n \n".toList =
      [{}, {}, { type := LINE_T.KEYVAL, content := "a".toList, value := "1".toList }, {}, {},
        { type := LINE_T.SEC, content := "s".toList },
        { type := LINE_T.COMMENT, content := ";c".toList }, {}] ∧
    (load "\n \r\na=1\n\n\n[s]\n;c\n \n".toList).m_cachedLines =
      [{ type := LINE_T.KEYVAL, content := "a".toList, value := "1".toList, nlAfter := true },
        { type := LINE_T.SEC, content := "s".toList },
        { type := LINE_T.COMMENT, content := ";c".toList, nlAfter := true }] :=
  ⟨by decide,
    ((open_collapses_blank_lines "\n \r\na=1\n\n\n[s]\n;c\n \n".toList).2.2.2
      [{}, {}]
      [{ type := LINE_T.KEYVAL, content := "a".toList, value := "1".toList }, {}, {},
        { type := LINE_T.SEC, content := "s".toList },
        { type := LINE_T.COMMENT, content := ";c".toList }, {}]
      (by decide) (by decide)).trans (by decide)⟩

/-- C18: for every string `s`, `trim s` is `s` without its longest prefix and its longest
suffix of ASCII spaces: `s` is `a ++ trim s ++ b` with `a` and `b` made of spaces only,
`trim s` neither starts nor ends with a space, and a string of spaces only becomes empty. -/
theorem trim_removes_outer_spaces (s : Str) :
    trim s =
      List.rdropWhile (fun c => decide (c = ' ')) (s.dropWhile (fun c => decide (c = ' '))) ∧
    (∃ a b, s = a ++ trim s ++ b ∧ (∀ c ∈ a, c = ' ') ∧ (∀ c ∈ b, c = ' ')) ∧
    (trim s).head? ≠ some ' ' ∧ (trim s).getLast? ≠ some ' ' ∧
    ((∀ c ∈ s, c = ' ') → trim s = []) :=
  ⟨trim_eq_rdropWhile s, trim_decompose s, trim_head s, trim_last s, trim_all_spaces s⟩

/-- C18 at the strings `  a  b\t ` (a tab before the last space) and three spaces. -/
theorem trim_removes_outer_spaces_witness :
    trim "  a  b\t ".toList = "a  b\t".toList ∧ trim "   ".toList = [] :=
  ⟨by decide, (trim_removes_outer_spaces "   ".toList).2.2.2.2 (by decide)⟩

/-- C19: for every input text `t`, the save of the document loaded from `t`, with nothing
changed in memory, writes a content `o1` from which `open` builds the same section map as
from `t`: the same section names and in every section the same keys with the same values. -/
theorem model_round_trip (t : List Char) :
    ∃ o1, resave t = some o1 ∧ (load o1).m_sections = (load t).m_sections ∧
      (∀ n, (mapFind n (load o1).m_sections).isSome = (mapFind n (load t).m_sections).isSome) ∧
      ∀ s k, lookupKey (load o1).m_sections s k = lookupKey (load t).m_sections s k := by
  refine ⟨serialize (reconcile (load t).m_sections (some []) [] (load t).m_cachedLines), ?_, ?_⟩
  · rw [resave_eq, buildLines_load]
    rfl
  · have h := load_serialize_sections t
    exact ⟨h, fun n => by rw [h], fun s k => by rw [h]⟩

/-- C19 at the text `x=1\n[a]\nx = 2\n;c\nx=3\n\n[]\ny=4\n`. -/
theorem model_round_trip_witness :
    resave "x=1\n[a]\nx = 2\n;c\nx=3\n\n[]\ny=4\n".toList =
      some "\nx = 1\n\n\n[a]\nx = 3\n;c\n\n\n[]\ny = 4\n".toList ∧
    (load "\nx = 1\n\n\n[a]\nx = 3\n;c\n\n\n[]\ny = 4\n".toList).m_sections =
      (load "x=1\n[a]\nx = 2\n;c\nx=3\n\n[]\ny=4\n".toList).m_sections :=
  have hd : resave "x=1\n[a]\nx = 2\n;c\nx=3\n\n[]\ny=4\n".toList =
      some "\nx = 1\n\n\n[a]\nx = 3\n;c\n\n\n[]\ny = 4\n".toList := by decide
  ⟨hd,
    match model_round_trip "x=1\n[a]\nx = 2\n;c\nx=3\n\n[]\ny=4\n".toList with
    | ⟨_, h1, h2, _⟩ => (Option.some.inj (hd.symm.trans h1)) ▸ h2⟩

/-- C20 (failing input): for the file `x=1\n[a]\nx=2\n`, after `remove("a")` with the keys
merged into the root section, `save` builds two KeyValue lines for the key `x` of the root
section, so the pair (root, `x`) occurs twice among the pairs of its KeyValue lines, and it
writes `x = 1` twice. -/
theorem save_emits_merged_key_twice :
    buildLines (run (load "x=1\n[a]\nx=2\n".toList) [Op.remove "a".toList false]) =
      some [{ type := LINE_T.KEYVAL, content := "x".toList, value := "1".toList },
        { type := LINE_T.KEYVAL, content := "x".toList, value := "1".toList }] ∧
    ownedKeys []
        [{ type := LINE_T.KEYVAL, content := "x".toList, value := "1".toList },
          { type := LINE_T.KEYVAL, content := "x".toList, value := "1".toList }] =
      [([], "x".toList), ([], "x".toList)] ∧
    ((run (load "x=1\n[a]\nx=2\n".toList) [Op.remove "a".toList false]).save).map Prod.snd =
      some "\nx = 1\nx = 1\n".toList := by
  decide

end IniParser
